import Mathlib

/-!
savvy (libvc): sparse vectors, typed values, PBWT and the SAV genotype codec.

A shallow embedding of the parts of

* `include/compressed_vector.hpp`  (`savvy::compressed_vector`)
* `include/savvy/typed_value.hpp`  (`savvy::typed_value`, PBWT sort / unsort)
* `include/savvy/sav_reader.hpp`   (`savvy::sav::reader_base`, `savvy::sav::writer`,
  `detail::allele_encoder`, `detail::allele_decoder`)

Conventions of the embedding.

* `std::vector<T>` is a `List`; `std::size_t` / `std::uint64_t` values are `Nat`, reduced
  modulo `2 ^ 64` wherever the C++ arithmetic can wrap; signed integers are `Int` with an
  explicit two's complement wrap at every narrowing conversion.
* A C++ operation whose behaviour is undefined (an out-of-bounds `operator[]`, a division
  by zero) or that terminates the process (`exit(-1)`) makes the embedded function return
  `none`.
* A floating point value is an exact rational or NaN (`fval`): the codec only multiplies
  and divides by powers of two and rounds, which is exact on the values it handles.
-/

namespace savvy

/-! ## Machine integers -/

/-- Reduction of a natural number to the range of `std::uint64_t` / `std::size_t`. -/
def u64 (x : Nat) : Nat := x % 2 ^ 64

/-- Conversion of an integer to `std::size_t` (what indexing a `std::vector` with a signed
value does): reduction modulo `2 ^ 64`. -/
def to_size_t (x : Int) : Nat := (x % (2 : Int) ^ 64).toNat

/-- Conversion of an integer to the signed type of `bits` bits (two's complement wrap). -/
def wrap_signed (bits : Nat) (x : Int) : Int :=
  (x + (2 : Int) ^ (bits - 1)) % (2 : Int) ^ bits - (2 : Int) ^ (bits - 1)

/-- Conversion of an integer to the unsigned type of `bits` bits. -/
def wrap_unsigned (bits : Nat) (x : Int) : Nat := (x % (2 : Int) ^ bits).toNat

/-! ## `compressed_vector.hpp` -/

/-- The C++ `std::upper_bound(first, last, val)` on a range partitioned with respect to
`val < element`: the index of the first element that is greater than `val`
(`xs.length` when there is none). -/
def upper_bound : List Nat → Nat → Nat
  | [], _ => 0
  | x :: xs, val => if val < x then 0 else upper_bound xs val + 1

/-- The C++ `std::lower_bound(first, last, val)` on a range partitioned with respect to
`element < val`: the index of the first element that is not less than `val`. -/
def lower_bound : List Nat → Nat → Nat
  | [], _ => 0
  | x :: xs, val => if x < val then lower_bound xs val + 1 else 0

/-- The class `savvy::compressed_vector<T>`: the private members `values_`, `offsets_`
and `size_`. -/
structure compressed_vector (T : Type) where
  values_ : List T
  offsets_ : List Nat
  size_ : Nat
deriving Repr, DecidableEq

namespace compressed_vector

variable {T : Type}

/-- The default constructor `compressed_vector()`. -/
def empty : compressed_vector T := ⟨[], [], 0⟩

/-- The member `size()`. -/
def size (m : compressed_vector T) : Nat := m.size_

/-- The member `non_zero_size()`. -/
def non_zero_size (m : compressed_vector T) : Nat := m.values_.length

/-- The mutable `value_type& operator[](std::size_t pos)`. The result is the vector after
the call and the index in `values_` of the slot the returned reference designates. -/
def index_mut [Zero T] (m : compressed_vector T) (pos : Nat) : compressed_vector T × Nat :=
  if m.offsets_.length ≠ 0 ∧ m.offsets_.getLast?.getD 0 < pos then
    -- offsets_.emplace_back(pos); values_.emplace_back(); return values_.back();
    ({ m with offsets_ := m.offsets_ ++ [pos], values_ := m.values_ ++ [0] },
      m.values_.length)
  else
    let it := upper_bound m.offsets_ pos
    if it = m.offsets_.length ∨ m.offsets_.getD it 0 ≠ pos then
      -- it = offsets_.insert(it, pos); return *values_.insert(values_.begin() + it, T());
      ({ m with offsets_ := m.offsets_.insertIdx it pos,
                values_ := m.values_.insertIdx it 0 }, it)
    else
      (m, it)

/-- The `const value_type& operator[](std::size_t pos) const`. -/
def index_const [Zero T] (m : compressed_vector T) (pos : Nat) : T :=
  let it := upper_bound m.offsets_ pos
  if it = m.offsets_.length ∨ m.offsets_.getD it 0 ≠ pos then 0
  else m.values_.getD it 0

/-- The member `resize(std::size_t sz, value_type val = value_type())`. -/
def resize [Zero T] [DecidableEq T] (m : compressed_vector T) (sz : Nat) (val : T) :
    compressed_vector T :=
  if sz < m.size_ then
    let it := lower_bound m.offsets_ sz
    let offs := m.offsets_.take it
    -- values_.resize(offsets_.size())
    { offsets_ := offs,
      values_ := m.values_.take offs.length ++ List.replicate (offs.length - m.values_.length) 0,
      size_ := sz }
  else if val ≠ 0 then
    { values_ := m.values_.take sz ++ List.replicate (sz - m.values_.length) val,
      offsets_ := List.range sz,
      size_ := sz }
  else
    { m with size_ := sz }

/-- One mutating call of the public interface. -/
inductive mutation (T : Type) where
  | index (pos : Nat)
  | resize (sz : Nat) (val : T)

/-- The effect of one mutating call. -/
def apply_mutation [Zero T] [DecidableEq T] (m : compressed_vector T) :
    mutation T → compressed_vector T
  | .index pos => (m.index_mut pos).1
  | .resize sz val => m.resize sz val

/-- The effect of a finite sequence of mutating calls, applied from left to right. -/
def apply_mutations [Zero T] [DecidableEq T] (m : compressed_vector T)
    (calls : List (mutation T)) : compressed_vector T :=
  calls.foldl apply_mutation m

/-- The offsets carry no duplicate and are in increasing order. -/
def strictly_increasing (m : compressed_vector T) : Prop :=
  m.offsets_.Chain' (· < ·)

/-- Every `operator[]` call of the sequence is made with a position below the `size()`
that the vector has at the time of that call. -/
def positions_in_range [Zero T] [DecidableEq T] :
    compressed_vector T → List (mutation T) → Bool
  | _, [] => true
  | m, .index pos :: rest =>
    decide (pos < m.size) && positions_in_range (m.apply_mutation (.index pos)) rest
  | m, .resize sz val :: rest => positions_in_range (m.resize sz val) rest

/-- The stored pairs `(offset, value)`, in storage order. -/
def pairs (m : compressed_vector T) : List (Nat × T) := m.offsets_.zip m.values_

/-- Modelled from the spec: the iteration `for (it = vec.begin(); it != vec.end(); ++it)`
over a `compressed_vector`, whose iterator class is not part of `compressed_vector.hpp`:
it visits the stored pairs in storage order, `it.offset()` is the stored offset and `*it`
the stored value. -/
def iterate (m : compressed_vector T) : List (Nat × T) := m.offsets_.zip m.values_

end compressed_vector

/-! ## `typed_value.hpp`: integer widths and reserved values -/

/-- The table `bcf_type_shift`: the binary logarithm of the byte width of a type code. -/
def bcf_type_shift : List Nat := [0, 0, 1, 2, 3, 2, 0, 0, 0, 0, 0, 0, 0, 0, 0, 0]

/-- The width in bits of the values of a type code: `8 * (1u << bcf_type_shift[type])`. -/
def type_bits (type : Nat) : Nat := 8 * 2 ^ bcf_type_shift.getD type 0

/-- The C++ `std::numeric_limits<T>::min()` of the signed integer type with code `type`. -/
def int_min (type : Nat) : Int := -(2 : Int) ^ (type_bits type - 1)

/-- The C++ `std::numeric_limits<T>::max()` of the signed integer type with code `type`. -/
def int_max (type : Nat) : Int := (2 : Int) ^ (type_bits type - 1) - 1

/-- The namespace-level constant `missing_int8`: the literal `0x80` converted to
`std::int8_t`. -/
def missing_int8 : Int := wrap_signed 8 0x80
/-- The namespace-level constant `missing_int16`: `0x8000` converted to `std::int16_t`. -/
def missing_int16 : Int := wrap_signed 16 0x8000
/-- The namespace-level constant `missing_int32`: `0x80000000` converted to
`std::int32_t`. -/
def missing_int32 : Int := wrap_signed 32 0x80000000
/-- The namespace-level constant `missing_int64`: the literal `0x8000000080000000`
converted to `std::int64_t`. -/
def missing_int64 : Int := wrap_signed 64 0x8000000080000000
/-- The namespace-level constant `end_of_vector_int8`: `0x81` converted to `std::int8_t`. -/
def end_of_vector_int8 : Int := wrap_signed 8 0x81
/-- The namespace-level constant `end_of_vector_int16`: `0x8001` converted to
`std::int16_t`. -/
def end_of_vector_int16 : Int := wrap_signed 16 0x8001
/-- The namespace-level constant `end_of_vector_int32`: `0x80000001` converted to
`std::int32_t`. -/
def end_of_vector_int32 : Int := wrap_signed 32 0x80000001
/-- The namespace-level constant `end_of_vector_int64`: the literal `0x8000000080000001`
converted to `std::int64_t`. -/
def end_of_vector_int64 : Int := wrap_signed 64 0x8000000080000001

namespace typed_value

/-- The type code `typed_value::int8`. -/
def int8 : Nat := 1
/-- The type code `typed_value::int16`. -/
def int16 : Nat := 2
/-- The type code `typed_value::int32`. -/
def int32 : Nat := 3
/-- The type code `typed_value::int64`. -/
def int64 : Nat := 4
/-- The type code `typed_value::real`. -/
def real : Nat := 5
/-- The type code `typed_value::real64`. -/
def real64 : Nat := 6
/-- The type code `typed_value::str`. -/
def str : Nat := 7
/-- The type code `typed_value::sparse`. -/
def sparse : Nat := 8

/-- The specialisations `typed_value::missing_value<T>()` for the signed integer types:
the literals `0x80`, `0x8000`, `0x80000000`, `0x8000000000000000` converted to `T`. -/
def missing_value (T : Nat) : Int :=
  if T = int8 then wrap_signed 8 0x80
  else if T = int16 then wrap_signed 16 0x8000
  else if T = int32 then wrap_signed 32 0x80000000
  else wrap_signed 64 0x8000000000000000

/-- The specialisations `typed_value::end_of_vector_value<T>()` for the signed integer
types: the literals `0x81`, `0x8001`, `0x80000001`, `0x8000000000000001` converted to `T`. -/
def end_of_vector_value (T : Nat) : Int :=
  if T = int8 then wrap_signed 8 0x81
  else if T = int16 then wrap_signed 16 0x8001
  else if T = int32 then wrap_signed 32 0x80000001
  else wrap_signed 64 0x8000000000000001

/-- The integer overload of `typed_value::is_missing<T>(v)`:
`v == std::numeric_limits<T>::min()`. -/
def is_missing (T : Nat) (v : Int) : Bool := v == int_min T

/-- The function `typed_value::is_end_of_vector<T>(v)`: `v == end_of_vector_value<T>()`. -/
def is_end_of_vector (T : Nat) (v : Int) : Bool := v == end_of_vector_value T

/-- The function `typed_value::type_code<T>(const T& val)` for a value of the static
type with code `T`. -/
def type_code (T : Nat) (val : Int) : Nat :=
  if int16 ≤ T ∧ T ≤ int64 then
    if val ≤ int_max int8 ∧ val > int_min int8 then int8
    else if val ≤ int_max int16 ∧ val > int_min int16 then int16
    else if val ≤ int_max int32 ∧ val > int_min int32 then int32
    else int64
  else T

/-- The function `typed_value::type_code_ignore_missing<T>(const T& val)`. -/
def type_code_ignore_missing (T : Nat) (val : Int) : Nat :=
  if int16 ≤ T ∧ T ≤ int64 then
    if val ≤ int_max int8 ∧ val ≥ int_min int8 then int8
    else if val ≤ int_max int16 ∧ val ≥ int_min int16 then int16
    else if val ≤ int_max int32 ∧ val ≥ int_min int32 then int32
    else int64
  else T

/-- The function `typed_value::offset_type_code<T>(const T& val)` of an unsigned value. -/
def offset_type_code (val : Nat) : Nat :=
  if val ≤ 255 then int8
  else if val ≤ 65535 then int16
  else if val ≤ 4294967295 then int32
  else int64

/-- The function `typed_value::reserved_transformation<DestT, SrcT>(in)` between signed
integer types: the two reserved patterns are translated, every other value is cast. -/
def reserved_transformation (DestT SrcT : Nat) (x : Int) : Int :=
  if is_missing SrcT x then missing_value DestT
  else if is_end_of_vector SrcT x then end_of_vector_value DestT
  else wrap_signed (type_bits DestT) x

end typed_value

/-- The class `savvy::typed_value`, restricted to integer element types. `val_ptr_` and
`off_ptr_` are the typed views of the buffer they point into (`none` for `nullptr`): the
stored values, each in the range of the type `val_type_`, and the stored relative offsets.
`local_data_.data()` of an empty, never allocated buffer is the null pointer. -/
structure typed_value where
  val_type_ : Nat
  off_type_ : Nat
  size_ : Nat
  sparse_size_ : Nat
  off_ptr_ : Option (List Nat)
  val_ptr_ : Option (List Int)
deriving Repr, DecidableEq

namespace typed_value

/-- The default constructor `typed_value()`. -/
def empty : typed_value := ⟨0, 0, 0, 0, none, none⟩

/-- The member `size()`. -/
def size (v : typed_value) : Nat := v.size_

/-- The member `is_sparse()`: `off_ptr_ != nullptr`. -/
def is_sparse (v : typed_value) : Bool := v.off_ptr_.isSome

/-- The two running values `(min_val, max_val)` of the scan in `init`, after one more
element `x` of the source type `T`. -/
def init_scan_step (T : Nat) (acc : Int × Int) (x : Int) : Int × Int :=
  if !is_missing T x then
    let max_val := if x > acc.2 then x else acc.2
    let min_val := if x < acc.1 then x else acc.1
    (min_val, max_val)
  else acc

/-- The scan of `init` over the source vector: `(min_val, max_val)`, both starting at 0. -/
def init_scan (T : Nat) (vec : List Int) : Int × Int :=
  vec.foldl (init_scan_step T) (0, 0)

/-- The value type that `init` chooses for an integer source of type `T`:
`type_code(std::min(vtype(-max_val), min_val))`. -/
def init_val_type (T : Nat) (vec : List Int) : Nat :=
  let mm := init_scan T vec
  type_code T (min (wrap_signed (type_bits T) (-mm.2)) mm.1)

/-- The dense-vector overload of `typed_value::init(const T& vec)` on a freshly
constructed value, for a `std::vector` of the signed integer type with code `T`. -/
def init_dense (T : Nat) (vec : List Int) : typed_value :=
  let vt := init_val_type T vec
  let data :=
    if vt = 1 ∨ vt = 2 ∨ vt = 3 ∨ vt = 4 then vec.map (reserved_transformation vt T)
    else List.replicate vec.length 0
  { val_type_ := vt, off_type_ := 0, size_ := vec.length, sparse_size_ := 0,
    off_ptr_ := none,
    val_ptr_ := if 2 ^ bcf_type_shift.getD vt 0 * vec.length = 0 then none else some data }

/-- The first loop of the `compressed_vector` overload of `typed_value::init`, over the
offsets that the iteration still has to visit, with the running `last_off` and
`offset_max`: `off = it.offset() - last_off; last_off = it.offset() + 1;
if (off > offset_max) offset_max = off`, all in `std::size_t`. -/
def init_offset_max : List Nat → Nat → Nat → Nat
  | [], _, offset_max => offset_max
  | offset :: rest, last_off, offset_max =>
    let off := u64 (offset + 2 ^ 64 - last_off)
    init_offset_max rest (u64 (offset + 1)) (if off > offset_max then off else offset_max)

/-- The offset type that the `compressed_vector` overload of `typed_value::init` chooses:
`off_type_ = type_code_ignore_missing(static_cast<std::int64_t>(offset_max))`. -/
def init_off_type {T : Type} (vec : compressed_vector T) : Nat :=
  type_code_ignore_missing int64
    (wrap_signed 64 (init_offset_max (vec.iterate.map Prod.fst) 0 0))

/-- The relative offsets of a list of stored offsets: each offset minus the previous
offset minus one, and the first offset itself (`next` is the previous offset plus one). -/
def relative_offsets : List Nat → Nat → List Nat
  | [], _ => []
  | offset :: rest, next => (offset - next) :: relative_offsets rest (offset + 1)

/-- The largest relative offset of a list of stored offsets, 0 for the empty list. -/
def max_relative_offset (offsets : List Nat) : Nat :=
  (relative_offsets offsets 0).foldl max 0

/-- The C++ `std::vector<T>::resize(n)` on a vector of integers. -/
def resize_int (dest : List Int) (n : Nat) : List Int :=
  dest.take n ++ List.replicate (n - dest.length) 0

/-- The member `copy_sparse2<ValT, OffT>(dest)`: the loop over the stored pairs, with
`int tmp_off` and the running `std::size_t total_offset`; `none` when a write falls
outside `dest`. `DestT` is the code of the destination element type. -/
def copy_sparse2 (DestT : Nat) : List Nat → List Int → Nat → List Int → Option (List Int)
  | off :: offs, val :: vals, total_offset, dest =>
    let tmp_off := wrap_signed 32 off
    let total_offset := to_size_t (total_offset + tmp_off)
    if total_offset < dest.length then
      copy_sparse2 DestT offs vals (u64 (total_offset + 1))
        (dest.set total_offset (wrap_signed (type_bits DestT) val))
    else none
  | _, _, _, dest => some dest

/-- The member `copy_sparse1<ValT>(dest)`: the dispatch on `off_type_`. -/
def copy_sparse1 (DestT : Nat) (v : typed_value) (dest : List Int) :
    Option (Bool × List Int) :=
  if v.off_type_ = 1 ∨ v.off_type_ = 2 ∨ v.off_type_ = 3 ∨ v.off_type_ = 4 then
    (copy_sparse2 DestT ((v.off_ptr_.getD []).take v.sparse_size_) (v.val_ptr_.getD []) 0
      dest).map (fun d => (true, d))
  else some (false, dest)

/-- The member `get(std::vector<T>& dest) const` for a destination of the signed integer
type with code `DestT`: the returned flag and the destination after the call. The copy
converts every stored element to `T` as `std::copy_n` does, by plain integer conversion.
A value of type code 5 (`float` data) has no representation in this integer embedding and
yields `none`, as does a read or write outside a buffer. -/
def get (DestT : Nat) (v : typed_value) (dest : List Int) : Option (Bool × List Int) :=
  if v.val_type_ = 7 then some (false, dest)
  else if v.off_ptr_.isSome then
    let dest := resize_int (resize_int dest 0) v.size_
    if v.val_type_ = 1 ∨ v.val_type_ = 2 ∨ v.val_type_ = 3 ∨ v.val_type_ = 4 then
      copy_sparse1 DestT v dest
    else if v.val_type_ = 5 then none
    else some (false, dest)
  else
    match v.val_ptr_ with
    | some data =>
      let dest := resize_int dest v.size_
      if v.val_type_ = 1 ∨ v.val_type_ = 2 ∨ v.val_type_ = 3 ∨ v.val_type_ = 4 then
        -- std::copy_n((stored type*)val_ptr_, size_, dest.data())
        if data.length < v.size_ then none
        else some (true, (data.take v.size_).map (wrap_signed (type_bits DestT)))
      else if v.val_type_ = 5 then none
      else some (false, dest)
    | none => some (false, dest)

/-- The function template `copy_offsets<T>(index_data, sp_sz, off_ptr)` for the unsigned
offset type `T` of `bits` bits, over the offsets still to visit, with the running
`last_off`: `off = (*it) - last_off; last_off = (*it) + 1; (*off_ptr) = off`, where the
assignment converts the `std::size_t` value to `T`. -/
def copy_offsets (bits : Nat) : List Nat → Nat → List Nat
  | [], _ => []
  | index :: rest, last_off =>
    u64 (index + 2 ^ 64 - last_off) % 2 ^ bits :: copy_offsets bits rest (u64 (index + 1))

/-- The `compressed_vector` overload of `typed_value::init(const T& vec)` on a freshly
constructed value, for a `compressed_vector` of the signed integer type with code `T`.
`copy_offsets` and `std::transform` read `sparse_size_ = vec.non_zero_size()` offsets and
values; with fewer offsets than values the read is outside the offsets (`none`). Both
pointers derive from `local_data_.data()`, the null pointer when nothing is stored. -/
def init_sparse (T : Nat) (vec : compressed_vector Int) : Option typed_value :=
  let off_type := init_off_type vec
  let val_type :=
    if T ≠ int8 then init_val_type T (vec.iterate.map Prod.snd) else T
  let sparse_size := vec.non_zero_size
  if vec.offsets_.length < sparse_size then none
  else
    let offs :=
      if off_type = 1 ∨ off_type = 2 ∨ off_type = 3 ∨ off_type = 4 then
        copy_offsets (type_bits off_type) (vec.offsets_.take sparse_size) 0
      else List.replicate sparse_size 0
    let vals :=
      if val_type = 1 ∨ val_type = 2 ∨ val_type = 3 ∨ val_type = 4 then
        vec.values_.map (reserved_transformation val_type T)
      else List.replicate sparse_size 0
    let nothing_stored : Bool :=
      decide ((2 ^ bcf_type_shift.getD off_type 0 + 2 ^ bcf_type_shift.getD val_type 0)
        * sparse_size = 0)
    some { val_type_ := val_type, off_type_ := off_type, size_ := vec.size,
           sparse_size_ := sparse_size,
           off_ptr_ := if nothing_stored then none else some offs,
           val_ptr_ := if nothing_stored then none else some vals }

/-- The member `copy_as_dense(typed_value& dest) const`: the returned flag, the members
of `dest` after the call, and the content of `dest.local_data_` seen as elements of the
value type of the source. In the branch for a sparse source only `dest.local_data_` is
written: no member of `dest` is assigned, so they are returned as they were. A source of
type code 5 (`float` data) has no representation in this integer embedding (`none`), and
a write outside the buffer is undefined (`none`). -/
def copy_as_dense (src dest : typed_value) : Option (Bool × typed_value × List Int) :=
  if src.off_ptr_.isSome then
    -- dest.local_data_.resize(0); dest.local_data_.resize(size_ * width)
    let local_data := List.replicate src.size_ (0 : Int)
    if src.val_type_ = 1 ∨ src.val_type_ = 2 ∨ src.val_type_ = 3 ∨ src.val_type_ = 4 then
      (copy_sparse1 src.val_type_ src local_data).map (fun r => (r.1, dest, r.2))
    else if src.val_type_ = 5 then none
    else some (false, dest, local_data)
  else
    match src.val_ptr_ with
    | some data =>
      if src.val_type_ = 1 ∨ src.val_type_ = 2 ∨ src.val_type_ = 3 ∨ src.val_type_ = 4 then
        if data.length < src.size_ then none
        else
          let local_data := data.take src.size_
          some (true,
            { dest with val_type_ := src.val_type_, size_ := src.size_,
                        val_ptr_ := if src.size_ = 0 then none else some local_data },
            local_data)
      else if src.val_type_ = 5 then none
      else some (false, dest, [])
    | none => some (true, dest, [])

end typed_value

/-- Modelled from the spec: the class `sample_subset` of the absent `sample_subset.hpp`:
`ids()` are the ids of the samples kept, and `mask()` has one entry per sample of the
file, the new index of a kept sample and the maximum of `std::size_t` for the others. -/
structure sample_subset where
  ids : List String
  mask : List Nat
deriving DecidableEq, Repr

namespace typed_value

/-- The inner loop of the dense `subset_samples_functor::operator()` for the kept sample
`i` with new index `new_index`, over the values `j` still to visit:
`dest[subset_map[i] * stride + j] = reserved_transformation<DestT>(valp[i * stride + j])`.
A read outside the values or a write outside `dest` is undefined (`none`). -/
def subset_samples_row (DestT SrcT : Nat) (valp : List Int) (stride i new_index : Nat) :
    List Nat → List Int → Option (List Int)
  | [], dest => some dest
  | j :: js, dest =>
    match valp[u64 (u64 (i * stride) + j)]? with
    | none => none
    | some v =>
      let slot := u64 (u64 (new_index * stride) + j)
      if slot < dest.length then
        subset_samples_row DestT SrcT valp stride i new_index js
          (dest.set slot (reserved_transformation DestT SrcT v))
      else none

/-- The outer loop of the dense `subset_samples_functor::operator()` over the samples `i`
still to visit: a sample is copied when `subset_map[i]` is below the maximum of
`std::size_t`. -/
def subset_samples_rows (DestT SrcT : Nat) (valp : List Int) (subset_map : List Nat)
    (stride : Nat) : List Nat → List Int → Option (List Int)
  | [], dest => some dest
  | i :: is, dest =>
    match subset_map[i]? with
    | none => none
    | some new_index =>
      if new_index < 2 ^ 64 - 1 then
        match subset_samples_row DestT SrcT valp stride i new_index (List.range stride) dest with
        | none => none
        | some dest => subset_samples_rows DestT SrcT valp subset_map stride is dest
      else subset_samples_rows DestT SrcT valp subset_map stride is dest

/-- The overload `subset_samples_functor::operator()(valp, endp, subset_map,
std::vector<DestT>& dest)`: `sz = endp - valp; stride = sz / subset_map.size()`, then the
two loops. The division by an empty `subset_map` is undefined. -/
def subset_samples_functor (DestT SrcT : Nat) (valp : List Int) (subset_map : List Nat)
    (dest : List Int) : Option (List Int) :=
  if subset_map.length = 0 then none
  else
    let stride := valp.length / subset_map.length
    subset_samples_rows DestT SrcT valp subset_map stride (List.range subset_map.length) dest

/-- The member `get(std::vector<T>& dest, const sample_subset& subset) const` for a
destination of the signed integer type with code `DestT`: the returned flag and `dest`
after the call. `capply` and `capply_sparse` take their arguments by value
(`Args... args`), so the functor works on a copy of `dest`: what it writes is lost, and
only its undefined accesses matter. In the sparse overload of the functor
`sp_sz = val_ptr - val_end` is `-sparse_size_` converted to `std::size_t`, so with a
stored pair the loop reads outside the buffers. A value of type code 5 has no
representation in this integer embedding. -/
def get_subset (DestT : Nat) (v : typed_value) (dest : List Int) (subset : sample_subset) :
    Option (Bool × List Int) :=
  if subset.mask.length = 0 then none
  else if v.val_type_ ≠ 7 ∧ v.size_ % subset.mask.length = 0 then
    let stride := v.size_ % subset.mask.length
    if v.off_ptr_.isSome then
      let dest := resize_int (resize_int dest 0) (u64 (subset.ids.length * stride))
      if v.val_type_ = 1 ∨ v.val_type_ = 2 ∨ v.val_type_ = 3 ∨ v.val_type_ = 4 then
        if v.off_type_ = 1 ∨ v.off_type_ = 2 ∨ v.off_type_ = 3 ∨ v.off_type_ = 4 then
          if v.sparse_size_ = 0 then some (true, dest) else none
        else some (false, dest)
      else if v.val_type_ = 5 then none
      else some (false, dest)
    else
      match v.val_ptr_ with
      | some data =>
        let dest := resize_int dest (u64 (subset.ids.length * stride))
        if v.val_type_ = 1 ∨ v.val_type_ = 2 ∨ v.val_type_ = 3 ∨ v.val_type_ = 4 then
          if data.length < v.size_ then none
          else
            (subset_samples_functor DestT v.val_type_ (data.take v.size_) subset.mask dest).map
              (fun _ => (true, dest))
        else if v.val_type_ = 5 then none
        else some (false, dest)
      | none => some (false, dest)
  else some (false, dest)

end typed_value

/-! ## `typed_value.hpp`: BCF typed vectors and genotype codes -/

namespace bcf

/-- The unsigned value of a little-endian byte sequence (host byte order). -/
def le_unsigned : List Nat → Nat
  | [] => 0
  | b :: bs => b % 256 + 256 * le_unsigned bs

/-- The signed integer of `width` bytes that a pointer of that integer type reads at
position `it` of the buffer; a read that leaves the buffer is undefined (`none`). -/
def read_int (width : Nat) (bytes : List Nat) (it : Nat) : Option Int :=
  if it + width ≤ bytes.length then
    some (wrap_signed (8 * width) (le_unsigned ((bytes.drop it).take width)))
  else none

/-- The `width` bytes of the object representation of a signed integer, as the loops
over `(char*)&v` and `std::copy_n((char*)vec.data(), ...)` emit them. -/
def int_bytes (width : Nat) (x : Int) : List Nat :=
  (List.range width).map (fun k => wrap_unsigned (8 * width) x / 256 ^ k % 256)

/-- The function `serialize_typed_int_exact(out_it, val)` for a value of the integer type
with code `T`: the byte `(1u << 4u) | type` and the bytes of the value. -/
def serialize_typed_int_exact (T : Nat) (val : Int) : List Nat :=
  ((1 <<< 4) ||| T) :: int_bytes (2 ^ bcf_type_shift.getD T 0) val

/-- The function `serialize_typed_vec(out_it, vec)` for a `std::vector` of the integer
type with code `T` (1, 2 or 3) and an appending output iterator: the bytes appended.
A vector of more than `0x7FFFFFFF` elements throws (`none`). -/
def serialize_typed_vec (T : Nat) (vec : List Int) : Option (List Nat) :=
  let type_byte := (((if vec.length < 15 then vec.length else 15) <<< 4) ||| T) % 256
  let width := 2 ^ bcf_type_shift.getD T 0
  let data := vec.flatMap (int_bytes width)
  if vec.length ≥ 15 then
    if vec.length ≤ 0x7F then
      some (type_byte :: serialize_typed_int_exact typed_value.int8 vec.length ++ data)
    else if vec.length ≤ 0x7FFF then
      some (type_byte :: serialize_typed_int_exact typed_value.int16 vec.length ++ data)
    else if vec.length ≤ 0x7FFFFFFF then
      some (type_byte :: serialize_typed_int_exact typed_value.int32 vec.length ++ data)
    else none
  else some (type_byte :: data)

/-- The function `deserialize_int(it, end, dest)` for a destination of type
`std::int32_t`: the iterator returned and the value stored. The one-byte case converts a
`char`, taken as signed. Where the function throws the result is `none`. -/
def deserialize_int (bytes : List Nat) (it : Nat) : Option (Nat × Int) :=
  match bytes[it]? with
  | none => none
  | some type_byte =>
    let it := it + 1
    let int_width := 2 ^ bcf_type_shift.getD (type_byte &&& 0x0F) 0
    if bytes.length - it ≥ int_width then
      (read_int int_width bytes it).map (fun x => (it + int_width, wrap_signed 32 x))
    else none

/-- The conversion of the `float` with bit pattern `w` to the signed integer type with
code `DestT`: the value truncated toward zero; undefined (`none`) for an infinity, a NaN
or a value whose truncation is outside the range of the destination type. -/
def float_to_int (DestT : Nat) (w : Nat) : Option Int :=
  let e := w / 2 ^ 23 % 256
  let m := w % 2 ^ 23
  if e = 255 then none
  else
    let magnitude : Nat :=
      if e = 0 then 0
      else if e ≥ 150 then (2 ^ 23 + m) * 2 ^ (e - 150)
      else (2 ^ 23 + m) / 2 ^ (150 - e)
    let t : Int := if w / 2 ^ 31 % 2 = 1 then -(magnitude : Int) else magnitude
    if int_min DestT ≤ t ∧ t ≤ int_max DestT then some t else none

/-- One `std::copy_n(p, sz, dest.begin())` of `deserialize_vec`, for the case label
`case_type`: `sz` elements of the type of that label are read at `char_p` and converted
to the destination type `DestT`. The result replaces the `sz` elements of `dest`. -/
def copy_case (DestT : Nat) (bytes : List Nat) (char_p sz : Nat) (case_type : Nat) :
    Option (List Int) :=
  if case_type = 5 then
    (List.range sz).mapM (fun i =>
      if char_p + i * 4 + 4 ≤ bytes.length then
        float_to_int DestT (le_unsigned ((bytes.drop (char_p + i * 4)).take 4))
      else none)
  else
    let width := if case_type = 7 then 1 else 2 ^ bcf_type_shift.getD case_type 0
    (List.range sz).mapM (fun i =>
      (read_int width bytes (char_p + i * width)).map (wrap_signed (type_bits DestT)))

/-- The `switch (0x0Fu & type_byte)` of `deserialize_vec`: its case labels are 1, 2, 3, 4,
5 and 7 in this order and no case ends in `break`, so control enters at the matching
label and runs every copy from there to the end of the switch. -/
def copy_cases (DestT : Nat) (bytes : List Nat) (char_p sz : Nat) :
    List Nat → List Int → Option (List Int)
  | [], dest => some dest
  | case_type :: rest, _ =>
    match copy_case DestT bytes char_p sz case_type with
    | none => none
    | some dest => copy_cases DestT bytes char_p sz rest dest

/-- The function `deserialize_vec(it, end, dest)` for a buffer of `char` and a destination
`std::vector` of the signed integer type with code `DestT`: the iterator returned and the
destination after the call; `none` where the function throws or its behaviour is
undefined. -/
def deserialize_vec (DestT : Nat) (bytes : List Nat) (it : Nat) : Option (Nat × List Int) :=
  match bytes[it]? with
  | none => none
  | some type_byte =>
    let it := it + 1
    let header : Option (Nat × Int) :=
      if type_byte >>> 4 = 15 then deserialize_int bytes it
      else some (it, ((type_byte >>> 4 : Nat) : Int))
    match header with
    | none => none
    | some (it, sz) =>
      let type_width := 2 ^ bcf_type_shift.getD (0x0F &&& type_byte) 0
      if bytes.length - it < u64 (to_size_t sz * type_width) then none
      else if sz < 0 then none
      else
        let labels := [1, 2, 3, 4, 5, 7].dropWhile (fun l => l != (0x0F &&& type_byte))
        match copy_cases DestT bytes it sz.toNat labels (List.replicate sz.toNat 0) with
        | none => none
        | some dest => some (it + sz.toNat * type_width, dest)

end bcf

namespace typed_value

/-- The member `bcf_gt_encoder::operator()(T* val_ptr, T* val_end_ptr, bool phased)` for
the signed integer type with code `T`, on the elements still to visit. The loop returns
at the first END_OF_VECTOR; MISSING is replaced by -1; then
`*val_ptr = ((*val_ptr + 1) << 1u) | T(phased)`, where the shift doubles the value and the
OR sets the bit that the shift left clear, and the assignment converts to `T`. -/
def bcf_gt_encoder (T : Nat) (phased : Bool) : List Int → List Int
  | [] => []
  | x :: rest =>
    if x = int_min T + 1 then x :: rest
    else
      let x1 := if x = int_min T then wrap_signed (type_bits T) (-1) else x
      wrap_signed (type_bits T) (2 * (x1 + 1) + (if phased then 1 else 0))
        :: bcf_gt_encoder T phased rest

/-- The member `bcf_gt_decoder::operator()(T* valp, T* endp)`: the loop returns at the
first END_OF_VECTOR; `*valp = T(unsigned(*valp) >> 1u) - 1`, and -1 becomes MISSING. -/
def bcf_gt_decoder (T : Nat) : List Int → List Int
  | [] => []
  | x :: rest =>
    if x = int_min T + 1 then x :: rest
    else
      let y := wrap_signed (type_bits T)
        (wrap_signed (type_bits T) ((wrap_unsigned 32 x / 2 : Nat) : Int) - 1)
      (if y = -1 then int_min T else y) :: bcf_gt_decoder T rest

/-- The vectors on which the genotype codes fit `std::int8_t`: every element before the
first END_OF_VECTOR is MISSING or an allele value from 0 to 62. -/
def gt_encodable : List Int → Bool
  | [] => true
  | x :: rest =>
    decide (x = int_min int8 + 1) ||
      ((decide (x = int_min int8) || (decide (0 ≤ x) && decide (x ≤ 62)))
        && gt_encodable rest)

end typed_value

/-! ## `typed_value.hpp`: PBWT sort and unsort -/

/-- The three vectors that `pbwt_sort` and `pbwt_unsort` keep between sites. -/
structure pbwt_state where
  sort_mapping : List Nat
  prev_sort_mapping : List Nat
  counts : List Nat
deriving Repr, DecidableEq

namespace pbwt

/-- The state before the first site: all three vectors empty. -/
def init : pbwt_state := ⟨[], [], []⟩

/-- The common head of `pbwt_sort` and `pbwt_unsort`: swap the two mappings, start
`prev_sort_mapping` as the identity and size `sort_mapping` when they are empty, and
give up (`exit(-1)`) when the site has another length. The result is
`(sort_mapping, prev_sort_mapping)`. -/
def prepare (sz : Nat) (st : pbwt_state) : Option (List Nat × List Nat) :=
  let sort_mapping := st.prev_sort_mapping
  let prev_sort_mapping := st.sort_mapping
  let prev_sort_mapping :=
    if prev_sort_mapping.isEmpty then List.range sz else prev_sort_mapping
  let sort_mapping :=
    if sort_mapping.isEmpty then List.replicate sz 0 else sort_mapping
  if prev_sort_mapping.length ≠ sz then none else some (sort_mapping, prev_sort_mapping)

/-- One iteration of the counting loop of `pbwt_sort`:
`d = utype(in_data[i]) + 1u; if (d >= counts.size()) counts.resize(d + 1u); ++counts[d];` -/
def sort_count_step (bits : Nat) (counts : List Nat) (x : Int) : List Nat :=
  let d := wrap_unsigned bits x + 1
  let counts :=
    if d ≥ counts.length then counts ++ List.replicate (d + 1 - counts.length) 0 else counts
  counts.set d (u64 (counts.getD d 0 + 1))

/-- One iteration of the counting loop of `pbwt_unsort`: `++(counts_ptr[src_uptr[i]])`
with `counts_ptr = counts.data() + 1`. -/
def unsort_count_step (bits : Nat) (counts : List Nat) (x : Int) : List Nat :=
  let d := wrap_unsigned bits x + 1
  counts.set d (u64 (counts.getD d 0 + 1))

/-- The running sums `counts[i] = counts[i - 1] + counts[i]` for `i` from 1 on, where
`last` is the already updated `counts[i - 1]`. -/
def prefix_sum_from (last : Nat) : List Nat → List Nat
  | [] => []
  | c :: cs => u64 (last + c) :: prefix_sum_from (u64 (last + c)) cs

/-- The loop `for (i = 1; i < counts.size(); ++i) counts[i] = counts[i - 1] + counts[i]`. -/
def prefix_sum : List Nat → List Nat
  | [] => []
  | c :: cs => c :: prefix_sum_from c cs

/-- The placement loop of `pbwt_sort` over the remaining entries of `prev_sort_mapping`:
`unsorted_index = prev_sort_mapping[i]; val_t d(in_data[unsorted_index]);
sort_mapping[counts[d]++] = unsorted_index;` where `d` has the SIGNED element type, so
that `counts[d]` is indexed with `d` converted to `std::size_t`. -/
def sort_place (in_data : List Int) :
    List Nat → List Nat → List Nat → Option (List Nat × List Nat)
  | [], sort_mapping, counts => some (sort_mapping, counts)
  | unsorted_index :: rest, sort_mapping, counts =>
    match in_data[unsorted_index]? with
    | none => none
    | some d =>
      match counts[to_size_t d]? with
      | none => none
      | some c =>
        if c < sort_mapping.length then
          sort_place in_data rest (sort_mapping.set c unsorted_index)
            (counts.set (to_size_t d) (u64 (c + 1)))
        else none

/-- The output loop of `pbwt_sort`: `*(out_it++) = in_data[prev_sort_mapping[i]]`. -/
def sort_emit (in_data : List Int) : List Nat → Option (List Int)
  | [] => some []
  | i :: rest =>
    match in_data[i]?, sort_emit in_data rest with
    | some x, some out => some (x :: out)
    | _, _ => none

/-- The function `typed_value::internal::pbwt_sort(in_data, in_data_sz, out_it,
sort_mapping, prev_sort_mapping, counts)` for elements of `bits` bits (8 or 16): the
values written to `out_it` and the three vectors after the call. -/
def pbwt_sort (bits : Nat) (in_data : List Int) (st : pbwt_state) :
    Option (List Int × pbwt_state) :=
  match prepare in_data.length st with
  | none => none
  | some (sort_mapping, prev_sort_mapping) =>
    let counts := prefix_sum (in_data.foldl (sort_count_step bits) [])
    match sort_place in_data prev_sort_mapping sort_mapping counts with
    | none => none
    | some (sort_mapping, counts) =>
      match sort_emit in_data prev_sort_mapping with
      | none => none
      | some out => some (out, ⟨sort_mapping, prev_sort_mapping, counts⟩)

/-- The main loop of `pbwt_unsort` over `prev_sort_mapping` and the source read in step:
`dest_ptr[unsorted_index] = src_ptr[i]; const utype d(src_ptr[i]);
sort_mapping[counts[d]++] = unsorted_index;` -/
def unsort_place (bits : Nat) :
    List Nat → List Int → List Int → List Nat → List Nat →
      Option (List Int × List Nat × List Nat)
  | [], _, dest, sort_mapping, counts => some (dest, sort_mapping, counts)
  | _ :: _, [], _, _, _ => none
  | unsorted_index :: rest, x :: src, dest, sort_mapping, counts =>
    if unsorted_index < dest.length then
      let d := wrap_unsigned bits x
      match counts[d]? with
      | none => none
      | some c =>
        if c < sort_mapping.length then
          unsort_place bits rest src (dest.set unsorted_index x)
            (sort_mapping.set c unsorted_index) (counts.set d (u64 (c + 1)))
        else none
    else none

/-- The function template `pbwt_unsort(src_ptr, sz, dest_ptr, sort_mapping,
prev_sort_mapping, counts)` for elements of `bits` bits: the `sz` values written through
`dest_ptr` and the three vectors after the call. -/
def pbwt_unsort (bits : Nat) (src : List Int) (st : pbwt_state) :
    Option (List Int × pbwt_state) :=
  match prepare src.length st with
  | none => none
  | some (sort_mapping, prev_sort_mapping) =>
    let counts :=
      prefix_sum (src.foldl (unsort_count_step bits) (List.replicate (2 ^ bits + 1) 0))
    match unsort_place bits prev_sort_mapping src (List.replicate src.length 0)
        sort_mapping counts with
    | none => none
    | some (dest, sort_mapping, counts) =>
      some (dest, ⟨sort_mapping, prev_sort_mapping, counts⟩)

/-- A chain of sites through `pbwt_sort`, each call continuing from the state the
previous one left: the outputs in order and the final state. -/
def sort_chain (bits : Nat) : List (List Int) → pbwt_state → Option (List (List Int) × pbwt_state)
  | [], st => some ([], st)
  | v :: vs, st =>
    match pbwt_sort bits v st with
    | none => none
    | some (out, st) =>
      match sort_chain bits vs st with
      | none => none
      | some (outs, st) => some (out :: outs, st)

/-- A chain of sorted sites through `pbwt_unsort`. -/
def unsort_chain (bits : Nat) : List (List Int) → pbwt_state → Option (List (List Int) × pbwt_state)
  | [], st => some ([], st)
  | v :: vs, st =>
    match pbwt_unsort bits v st with
    | none => none
    | some (out, st) =>
      match unsort_chain bits vs st with
      | none => none
      | some (outs, st) => some (out :: outs, st)

/-- The index `d` converted to `std::size_t` with which the placement loop of `pbwt_sort`
reads `counts` for the element at `unsorted_index`. -/
def key (in_data : List Int) (unsorted_index : Nat) : Nat :=
  to_size_t (in_data.getD unsorted_index 0)

/-- The indices of an order whose element has the key `k`, in the order of `order`. -/
def bucket (in_data : List Int) (order : List Nat) (k : Nat) : List Nat :=
  order.filter (fun i => decide (key in_data i = k))

/-- The stable sort of an order by key, for keys below `K`: the buckets of the keys
0, 1, ..., `K - 1` one after the other. -/
def stable_sort (in_data : List Int) (order : List Nat) (K : Nat) : List Nat :=
  (List.range K).flatMap (bucket in_data order)

end pbwt

/-! ## `sav_reader.hpp`: allele codec, genotype writer and reader -/

/-- A value of the floating point element type `T` of a genotype vector: an exact
rational number or NaN. -/
inductive fval where
  | num (q : ℚ)
  | nan
deriving DecidableEq

namespace fval

/-- The C++ `std::isnan`. -/
def isnan : fval → Bool
  | nan => true
  | num _ => false

/-- The C++ `std::round` on the number line: to the nearest integer, halfway cases away
from zero. -/
def cround (q : ℚ) : ℤ := if 0 ≤ q then ⌊q + 1 / 2⌋ else ⌈q - 1 / 2⌉

/-- The C++ `std::round` on a floating point value (NaN stays NaN). -/
def round : fval → fval
  | num q => num (cround q)
  | nan => nan

/-- The C++ `operator+` on floating point values (NaN is absorbing). -/
def add : fval → fval → fval
  | num a, num b => num (a + b)
  | _, _ => nan

end fval

/-- The value-initialised element `T()` of a floating point element type: zero. -/
instance : Zero fval := ⟨fval.num 0⟩

/-- Modelled from the spec: the enumeration `savvy::fmt` of the absent `data_format.hpp`,
the per-file data format (allele for hard calls, N = 1; haplotype dosage, N = 7) and the
requested output formats, with the enumerators that the reader and the writer name. -/
inductive fmt where
  | allele
  | genotype
  | genotype_probability
  | dosage
  | haplotype_dosage
deriving DecidableEq, Repr

namespace sav

/-- The constant `allele_encoder<BitWidth>::multiplier`, also `allele_decoder<BitWidth>::denom`:
`std::uint8_t(~(std::uint8_t(0xFF) << BitWidth)) + std::uint8_t(1)`, stored in a
`std::uint8_t`. -/
def multiplier (BitWidth : Nat) : Nat := ((255 - (0xFF <<< BitWidth) % 256) + 1) % 256

/-- The functions `detail::allele_encoder<BitWidth>::encode(const T& allele)` that return
the signed allele code: the specialisations for 0 and 1 and the general template
`std::int8_t(std::round((std::isnan(allele) ? T(0.5) : allele) * multiplier) - T(1))`.
The conversion to `std::int8_t` keeps every value from -128 to 127; outside that range,
where C++ leaves it undefined, it is taken to wrap. -/
def allele_encoder_encode (BitWidth : Nat) (allele : fval) : Int :=
  match BitWidth with
  | 0 => -1
  | 1 =>
    match allele with
    | fval.nan => 0
    | fval.num q => if q = 0 then -1 else 1
  | _ =>
    let x : ℚ := match allele with
      | fval.nan => 1 / 2
      | fval.num q => q
    wrap_signed 8 (fval.cround (x * (multiplier BitWidth : ℚ)) - 1)

/-- The value part of `detail::allele_decoder<BitWidth>::decode`, applied to the allele
code that `prefixed_varint<BitWidth>::decode` delivers: the specialisations for 0 and 1
and the general template `(static_cast<T>(allele) + T(1)) / denom`. -/
def allele_decoder_decode (BitWidth : Nat) (missing_value : fval) (allele : Nat) : fval :=
  match BitWidth with
  | 0 => fval.num 1
  | 1 => if allele ≠ 0 then fval.num 1 else missing_value
  | _ => fval.num (((allele : ℚ) + 1) / (multiplier BitWidth : ℚ))

/-- Modelled from the spec: `prefixed_varint<N>::encode` followed by
`prefixed_varint<N>::decode` of the absent `varint.hpp`. The spec gives the pair
`(payload, value)` back for every payload below `2 ^ N` and every 64-bit value, so a
pair on the wire is represented by the pair `(allele code, offset)` it carries. -/
def prefixed_varint_encode (_N : Nat) (payload : Nat) (value : Nat) : Nat × Nat :=
  (payload, value)

/-- The genotype part of a record as the reader meets it: the varint `ploidy`, the varint
nonzero count `sz`, and the prefixed varint pairs that follow them in the input. The
decoders on this type describe a record whose `sz` pairs are all there; an input that ends
earlier is read on its bytes, see `reader_base.read_genotypes`. -/
structure genotype_payload where
  ploidy : Nat
  sz : Nat
  pairs : List (Nat × Nat)
deriving Repr, DecidableEq

/-- The loop of `writer::serialize_alleles<BitWidth>(const std::vector<T>& m, os_it)` from
the element at distance `dist` on, with the running `last_pos`. -/
def serialize_alleles_from (BitWidth : Nat) : List fval → Nat → Nat → List (Nat × Nat)
  | [], _, _ => []
  | x :: rest, dist, last_pos =>
    let signed_allele := allele_encoder_encode BitWidth x
    if signed_allele ≥ 0 then
      let offset := u64 (dist + 2 ^ 64 - last_pos)
      prefixed_varint_encode BitWidth (wrap_unsigned 8 signed_allele) offset
        :: serialize_alleles_from BitWidth rest (dist + 1) (u64 (dist + 1))
    else serialize_alleles_from BitWidth rest (dist + 1) last_pos

/-- The function `writer::serialize_alleles<BitWidth>(const std::vector<T>& m, os_it)`. -/
def serialize_alleles (BitWidth : Nat) (m : List fval) : List (Nat × Nat) :=
  serialize_alleles_from BitWidth m 0 0

/-- The function `writer::write_alleles(const std::vector<T>& m)` of a writer with
`sample_size_` samples: ploidy, nonzero count and pairs. The division by a zero
`sample_size_` is undefined. -/
def write_alleles (sample_size_ : Nat) (m : List fval) : Option genotype_payload :=
  if sample_size_ = 0 then none
  else
    let ploidy := ((m.length / sample_size_) &&& 0xFFFFFFFF) % 2 ^ 32
    let non_zero_count := m.length - m.count (fval.num 0)
    some ⟨ploidy, non_zero_count, serialize_alleles 1 m⟩

/-- The function `writer::write_hap_dosages(const std::vector<T>& m)`. -/
def write_hap_dosages (sample_size_ : Nat) (m : List fval) : Option genotype_payload :=
  if sample_size_ = 0 then none
  else
    let ploidy := ((m.length / sample_size_) &&& 0xFFFFFFFF) % 2 ^ 32
    let non_zero_count := (m.filter (fun x => decide (allele_encoder_encode 7 x ≥ 0))).length
    some ⟨ploidy, non_zero_count, serialize_alleles 7 m⟩

/-- The genotype part that `writer::write` emits for `data`: `write_hap_dosages` when the
file format is `fmt::haplotype_dosage`, `write_alleles` otherwise. -/
def write_genotypes (data_format_ : fmt) (sample_size_ : Nat) (data : List fval) :
    Option genotype_payload :=
  if data_format_ = fmt.haplotype_dosage then write_hap_dosages sample_size_ data
  else write_alleles sample_size_ data

/-- The members of `reader_base` that the genotype decoders consult. -/
structure reader_base where
  sample_ids_ : Nat
  subset_map_ : List Nat
  subset_size_ : Nat
  file_data_format_ : fmt
  requested_data_format_ : fmt
deriving Repr, DecidableEq

/-- The C++ `std::vector<T>::resize(n)` on a genotype vector: new elements are zero. -/
def resize (destination : List fval) (n : Nat) : List fval :=
  destination.take n ++ List.replicate (n - destination.length) (fval.num 0)

/-- The C++ `std::numeric_limits<std::uint64_t>::max()`, which marks a sample that the
subset leaves out. -/
def absent : Nat := 2 ^ 64 - 1

/-- The decoding loop shared by the `read_genotypes_*` members:
`for (i = 0; i < sz && in_it != end_it; ++i, ++total_offset)` with
`std::tie(allele, offset) = allele_decoder<BitWidth>::decode(...); total_offset += offset;`
followed by the statement `store` that updates the destination. The list holds the pairs
that the decoder delivers to the loop, one per iteration (`read_loop` is the same loop on
the bytes of the input, where the end of the input can stop it). -/
def decode_loop (BitWidth : Nat) (missing_value : fval)
    (store : Nat → fval → List fval → Option (List fval)) :
    List (Nat × Nat) → Nat → List fval → Option (List fval)
  | [], _, destination => some destination
  | (allele, offset) :: rest, total_offset, destination =>
    let total_offset := u64 (total_offset + offset)
    match store total_offset (allele_decoder_decode BitWidth missing_value allele)
        destination with
    | none => none
    | some destination =>
      decode_loop BitWidth missing_value store rest (u64 (total_offset + 1)) destination

/-- The value that `read_genotypes_al<BitWidth>` stores: `allele` when `BitWidth == 1`,
`std::round(allele)` otherwise. -/
def al_value (BitWidth : Nat) (allele : fval) : fval :=
  if BitWidth = 1 then allele else fval.round allele

/-- The statement `destination[total_offset] = allele` of the branch without subset. -/
def store_al (BitWidth : Nat) (total_offset : Nat) (allele : fval)
    (destination : List fval) : Option (List fval) :=
  if total_offset < destination.length then
    some (destination.set total_offset (al_value BitWidth allele))
  else none

/-- The statements of the subset branch of `read_genotypes_al`:
`sample_index = total_offset / ploidy_level;
if (subset_map_[sample_index] != max) destination[subset_map_[sample_index] * ploidy_level
+ (total_offset % ploidy_level)] = allele`. -/
def store_al_subset (BitWidth : Nat) (subset_map_ : List Nat) (ploidy_level : Nat)
    (total_offset : Nat) (allele : fval) (destination : List fval) : Option (List fval) :=
  if ploidy_level = 0 then none
  else
    let sample_index := total_offset / ploidy_level
    match subset_map_[sample_index]? with
    | none => none
    | some new_index =>
      if new_index ≠ absent then
        let slot := u64 (u64 (new_index * ploidy_level) + total_offset % ploidy_level)
        if slot < destination.length then
          some (destination.set slot (al_value BitWidth allele))
        else none
      else some destination

/-- The member `reader_base::read_genotypes_al<BitWidth>(destination)` on a reader in the
good state whose input holds the genotype part `input` with its `sz` pairs. The missing
value is the `quiet_NaN()` of the element type. -/
def read_genotypes_al (BitWidth : Nat) (r : reader_base) (input : genotype_payload)
    (destination : List fval) : Option (List fval) :=
  let ploidy_level := input.ploidy
  let visited := input.pairs.take input.sz
  if r.subset_map_.length ≠ 0 then
    decode_loop BitWidth fval.nan (store_al_subset BitWidth r.subset_map_ ploidy_level)
      visited 0 (resize destination (u64 (r.subset_size_ * ploidy_level)))
  else
    decode_loop BitWidth fval.nan (store_al BitWidth)
      visited 0 (resize destination (u64 (r.sample_ids_ * ploidy_level)))

/-- The statement `destination[total_offset / ploidy_level] += allele` of
`read_genotypes_gt` and `read_genotypes_ds` without subset (`rounded` tells whether
`std::round` is applied first). -/
def store_sum (rounded : Bool) (ploidy_level : Nat) (total_offset : Nat) (allele : fval)
    (destination : List fval) : Option (List fval) :=
  if ploidy_level = 0 then none
  else
    let slot := total_offset / ploidy_level
    match destination[slot]? with
    | none => none
    | some old =>
      some (destination.set slot (fval.add old (if rounded then fval.round allele else allele)))

/-- The statements of the subset branch of `read_genotypes_gt` and `read_genotypes_ds`:
`if (subset_map_[sample_index] != max) destination[subset_map_[sample_index]] += allele`. -/
def store_sum_subset (rounded : Bool) (subset_map_ : List Nat) (ploidy_level : Nat)
    (total_offset : Nat) (allele : fval) (destination : List fval) : Option (List fval) :=
  if ploidy_level = 0 then none
  else
    let sample_index := total_offset / ploidy_level
    match subset_map_[sample_index]? with
    | none => none
    | some new_index =>
      if new_index ≠ absent then
        match destination[new_index]? with
        | none => none
        | some old =>
          some (destination.set new_index
            (fval.add old (if rounded then fval.round allele else allele)))
      else some destination

/-- The member `reader_base::read_genotypes_gt<BitWidth>(destination)`. -/
def read_genotypes_gt (BitWidth : Nat) (r : reader_base) (input : genotype_payload)
    (destination : List fval) : Option (List fval) :=
  let ploidy_level := input.ploidy
  let visited := input.pairs.take input.sz
  if r.subset_map_.length ≠ 0 then
    decode_loop BitWidth fval.nan
      (store_sum_subset (decide (BitWidth ≠ 1)) r.subset_map_ ploidy_level)
      visited 0 (resize destination r.subset_size_)
  else
    decode_loop BitWidth fval.nan (store_sum (decide (BitWidth ≠ 1)) ploidy_level)
      visited 0 (resize destination r.sample_ids_)

/-- The member `reader_base::read_genotypes_ds<BitWidth>(destination)`. -/
def read_genotypes_ds (BitWidth : Nat) (r : reader_base) (input : genotype_payload)
    (destination : List fval) : Option (List fval) :=
  let ploidy_level := input.ploidy
  let visited := input.pairs.take input.sz
  if r.subset_map_.length ≠ 0 then
    decode_loop BitWidth fval.nan (store_sum_subset false r.subset_map_ ploidy_level)
      visited 0 (resize destination r.subset_size_)
  else
    decode_loop BitWidth fval.nan (store_sum false ploidy_level)
      visited 0 (resize destination r.sample_ids_)

/-- The member `reader_base::read_genotypes_hds<BitWidth>(destination)`: the loops of
`read_genotypes_al` without the rounding. -/
def read_genotypes_hds (BitWidth : Nat) (r : reader_base) (input : genotype_payload)
    (destination : List fval) : Option (List fval) :=
  let ploidy_level := input.ploidy
  let visited := input.pairs.take input.sz
  if r.subset_map_.length ≠ 0 then
    decode_loop BitWidth fval.nan (store_al_subset 1 r.subset_map_ ploidy_level)
      visited 0 (resize destination (u64 (r.subset_size_ * ploidy_level)))
  else
    decode_loop BitWidth fval.nan (store_al 1)
      visited 0 (resize destination (u64 (r.sample_ids_ * ploidy_level)))

/-- The member `reader_base::read_genotypes(destination)`: `destination.resize(0)`, then
the decoder selected by the requested and the file format. An unsupported requested
format sets the fail bit and leaves the destination empty. -/
def read_genotypes (r : reader_base) (input : genotype_payload) (destination : List fval) :
    Option (List fval) :=
  let destination := resize destination 0
  let BitWidth := if r.file_data_format_ = fmt.allele then 1 else 7
  if r.requested_data_format_ = fmt.allele then
    read_genotypes_al BitWidth r input destination
  else if r.requested_data_format_ = fmt.genotype then
    read_genotypes_gt BitWidth r input destination
  else if r.requested_data_format_ = fmt.dosage then
    read_genotypes_ds BitWidth r input destination
  else if r.requested_data_format_ = fmt.haplotype_dosage then
    read_genotypes_hds BitWidth r input destination
  else some destination

/-- The positions `total_offset` at which the decoding loop stores, in order. -/
def decoded_positions : List (Nat × Nat) → Nat → List Nat
  | [], _ => []
  | (_, offset) :: rest, total_offset =>
    u64 (total_offset + offset) :: decoded_positions rest (u64 (u64 (total_offset + offset) + 1))

/-- The value read back for one element `x` written with `BitWidth` bits per allele code
and read by `read_genotypes_al<BitWidth>`: the decoded code when the encoder emits one,
the implied reference value 0 when it does not. -/
def al_roundtrip (BitWidth : Nat) (x : fval) : fval :=
  let signed_allele := allele_encoder_encode BitWidth x
  if signed_allele ≥ 0 then
    al_value BitWidth (allele_decoder_decode BitWidth fval.nan
      (prefixed_varint_encode BitWidth (wrap_unsigned 8 signed_allele) 0).1)
  else fval.num 0

/-- The dosage read back for `x` in the HDS (N = 7) format: the code of
`allele_encoder<7>::encode` decoded by `allele_decoder<7>::decode`, and 0 when the code
is negative and the writer omits the element. -/
def hds_roundtrip (x : fval) : fval :=
  let signed_allele := allele_encoder_encode 7 x
  if signed_allele ≥ 0 then
    allele_decoder_decode 7 fval.nan
      (prefixed_varint_encode 7 (wrap_unsigned 8 signed_allele) 0).1
  else fval.num 0

/-- The reader of a file with `sample_count` samples, file format `file_format` and
requested format `requested`, without sample subset. -/
def plain_reader (sample_count : Nat) (file_format requested : fmt) : reader_base :=
  ⟨sample_count, [], 0, file_format, requested⟩

/-- The reader after `subset_samples`: `subset_map_` maps every file sample to its new
index or to `absent`, `subset_size_` is the number of samples kept. -/
def subset_reader (sample_count : Nat) (subset_map_ : List Nat) (subset_size_ : Nat)
    (file_format requested : fmt) : reader_base :=
  ⟨sample_count, subset_map_, subset_size_, file_format, requested⟩

/-! ## `sav_reader.hpp`: block writer and index values -/

/-- The index value that `writer::write` and `writer::~writer` build:
`(file_pos << 16) | std::uint16_t(record_count_in_block_ - 1)`, with `file_pos` a
`std::uint64_t` and `record_count_in_block_` a `std::size_t`. -/
def index_value (file_pos record_count_in_block_ : Nat) : Nat :=
  u64 (file_pos <<< 16) ||| (u64 (record_count_in_block_ + 2 ^ 64 - 1) % 2 ^ 16)

/-- The count `total_in_block_` that `indexed_reader::read` takes from an index value:
`std::uint32_t(0x000000000000FFFF & i_->value()) + 1`, stored in a `std::uint32_t`. -/
def total_in_block (value : Nat) : Nat := ((0xFFFF &&& value) % 2 ^ 32 + 1) % 2 ^ 32

/-- The position `indexed_reader::read` seeks to:
`(i_->value() >> 16) & 0x0000FFFFFFFFFFFF`. -/
def seek_offset (value : Nat) : Nat := (value >>> 16) &&& 0x0000FFFFFFFFFFFF

/-- Modelled from the spec: the class `site_info` of the absent `site_info.hpp`, the
per-record metadata `{chrom, pos, ref, alt, info}`. A `std::string` is a `String` whose
characters stand for its bytes, so that `size()` is `length`. -/
structure site_info where
  chromosome : String
  position : Nat
  ref : String
  alt : String
  props : List (String × String)
deriving DecidableEq, Repr

/-- Modelled from the spec: `site_info::prop(key)`, the value of an INFO key, the empty
string when the site has none. -/
def site_info.prop (annotations : site_info) (key : String) : String :=
  match annotations.props.find? (fun kv => kv.1 == key) with
  | some kv => kv.2
  | none => ""

/-- Modelled from the spec: the S1R entry `{min_pos: u32, max_pos: u32, value: u64}` of the
absent `s1r.hpp`, as `s1r::entry e(min, max, value)` builds it. -/
structure s1r_entry where
  min_pos : Nat
  max_pos : Nat
  value : Nat
deriving DecidableEq, Repr

/-- Modelled from the spec: the index writer `s1r::writer` of the absent `s1r.hpp`: the
entries handed to `write(chrom, entry)`, in order, and what `good()` returns. -/
structure s1r_writer where
  entries : List (String × s1r_entry)
  good_ : Bool
deriving DecidableEq, Repr

/-- Modelled from the spec: `s1r::writer::write(chrom, entry)` files the entry under the
chromosome name. -/
def s1r_writer.write (ix : s1r_writer) (chrom : String) (e : s1r_entry) : s1r_writer :=
  { ix with entries := ix.entries ++ [(chrom, e)] }

/-- What the writer has put into its output stream, in order: the file preamble (headers
and sample ids), the records, and the points where `output_stream_.flush()` closed a
compression frame. -/
inductive output_item where
  | preamble (headers : List (String × String)) (samples : List String)
  | record (annotations : site_info) (info : List String) (genotypes : genotype_payload)
  | flush
deriving DecidableEq, Repr

/-- The struct `writer::options` without the compression level. -/
structure writer_options where
  block_size : Nat
  index_path : String
deriving DecidableEq, Repr

/-- The class `savvy::sav::writer`: the output stream (its content and its `failbit` and
`badbit`), the index writer (`none` for a null `index_file_`) and the data members. The
two record counters are `std::size_t` values that one write advances by one; they are
natural numbers here. -/
structure writer where
  output_stream_ : List output_item
  failbit : Bool
  badbit : Bool
  headers_ : List (String × String)
  property_fields_ : List String
  index_file_ : Option s1r_writer
  current_chromosome_ : String
  current_block_min_ : Nat
  current_block_max_ : Nat
  sample_size_ : Nat
  allele_count_ : Nat
  record_count_ : Nat
  record_count_in_block_ : Nat
  block_size_ : Nat
  data_format_ : fmt
deriving DecidableEq, Repr

namespace writer

/-- The constructor `writer(file_path, opts, samples_beg, samples_end, headers_beg,
headers_end, data_format)`. The function `parse_header_id` of the absent `utility.hpp` is
a parameter. -/
def create (opts : writer_options) (samples : List String) (headers : List (String × String))
    (data_format : fmt) (parse_header_id : String → String) : writer :=
  let fmt_str :=
    if data_format = fmt.haplotype_dosage then "<ID=HDS,Description=\"Haplotype dosages\">"
    else "<ID=GT,Description=\"Genotype\">"
  let headers_ := headers.filter (fun kvp => kvp.1 != "FORMAT") ++ [("FORMAT", fmt_str)]
  { output_stream_ := [output_item.preamble headers_ samples],
    failbit := false,
    badbit := false,
    headers_ := headers_,
    property_fields_ :=
      (headers_.filter (fun kvp => kvp.1 == "INFO")).map (fun kvp => parse_header_id kvp.2),
    index_file_ := if opts.index_path.length ≠ 0 then some ⟨[], true⟩ else none,
    current_chromosome_ := "",
    current_block_min_ := 2 ^ 32 - 1,
    current_block_max_ := 0,
    sample_size_ := samples.length,
    allele_count_ := 0,
    record_count_ := 0,
    record_count_in_block_ := 0,
    block_size_ := opts.block_size % 2 ^ 16,
    data_format_ := data_format }

/-- The member `good()`:
`output_stream_.good() && (!index_file_ || index_file_->good())`. -/
def good (w : writer) : Bool :=
  (!w.failbit && !w.badbit) &&
    (match w.index_file_ with
     | none => true
     | some ix => ix.good_)

/-- The member `fail()`: `output_stream_.fail()`, true when `failbit` or `badbit` is set. -/
def fail (w : writer) : Bool := w.failbit || w.badbit

/-- The member `bad()`: `output_stream_.bad()`. -/
def bad (w : writer) : Bool := w.badbit

/-- The entry `s1r::entry e(current_block_min_, current_block_max_, (file_pos << 16) |
std::uint16_t(record_count_in_block_ - 1))` that `write` and `~writer` build for the open
block. -/
def block_entry (w : writer) (file_pos : Nat) : s1r_entry :=
  ⟨w.current_block_min_, w.current_block_max_, index_value file_pos w.record_count_in_block_⟩

/-- The condition under which `write` closes the open block first: `block_size_ != 0 &&
((record_count_ % block_size_) == 0 || annotations.chromosome() != current_chromosome_)`. -/
def needs_flush (w : writer) (annotations : site_info) : Bool :=
  w.block_size_ != 0 &&
    (w.record_count_ % w.block_size_ == 0 || annotations.chromosome != w.current_chromosome_)

/-- The body of that branch of `write`: with an index and a non-empty block, the two range
checks (each sets `badbit`; the `assert` is compiled out) and the index entry filed under
`current_chromosome_`; then `output_stream_.flush()` and the reset of the block state.
`file_pos` is what `output_stream_.tellp()` returns. -/
def flush_block (w : writer) (file_pos : Nat) (annotations : site_info) : writer :=
  let file_pos := u64 file_pos
  let indexed : writer :=
    match w.index_file_ with
    | some ix =>
      if w.record_count_in_block_ ≠ 0 then
        { w with
          badbit := w.badbit || decide (w.record_count_in_block_ > 0x10000)
            || decide (file_pos > 0x0000FFFFFFFFFFFF),
          index_file_ := some (ix.write w.current_chromosome_ (w.block_entry file_pos)) }
      else w
    | none => w
  { indexed with
    output_stream_ := indexed.output_stream_ ++ [output_item.flush],
    allele_count_ := 0,
    current_chromosome_ := annotations.chromosome,
    record_count_in_block_ := 0,
    current_block_min_ := 2 ^ 32 - 1,
    current_block_max_ := 0 }

/-- The value `std::uint32_t(annotations.position())` of the bounds update. -/
def pos32 (annotations : site_info) : Nat := annotations.position % 2 ^ 32

/-- The value `std::uint32_t(annotations.position() + std::max(annotations.ref().size(),
annotations.alt().size())) - 1` of the bounds update, in 32-bit unsigned arithmetic. -/
def span_end32 (annotations : site_info) : Nat :=
  (u64 (annotations.position + max annotations.ref.length annotations.alt.length) % 2 ^ 32
    + 2 ^ 32 - 1) % 2 ^ 32

/-- The rest of `write`: the record goes to the output stream (chromosome, position, ref,
alt, one value per property field, genotypes), the block bounds take the site in, and the
counters advance. -/
def append_record (w : writer) (annotations : site_info) (genotypes : genotype_payload) :
    writer :=
  { w with
    output_stream_ := w.output_stream_ ++
      [output_item.record annotations (w.property_fields_.map annotations.prop) genotypes],
    allele_count_ := w.allele_count_ + genotypes.sz,
    current_block_min_ := min w.current_block_min_ (pos32 annotations),
    current_block_max_ := max w.current_block_max_ (span_end32 annotations),
    record_count_in_block_ := w.record_count_in_block_ + 1,
    record_count_ := w.record_count_ + 1 }

/-- The member `write(const site_info& annotations, const VecT& data)` for a dense vector,
where `file_pos` is what `output_stream_.tellp()` returns during the call. A writer that
is not good does nothing; a zero `sample_size_` makes the modulus undefined. -/
def write (w : writer) (file_pos : Nat) (annotations : site_info) (data : List fval) :
    Option writer :=
  if w.good then
    if w.sample_size_ = 0 then none
    else if data.length % w.sample_size_ ≠ 0 then some { w with failbit := true }
    else
      let w1 := if w.needs_flush annotations then w.flush_block file_pos annotations else w
      match write_genotypes w1.data_format_ w1.sample_size_ data with
      | none => none
      | some genotypes => some (w1.append_record annotations genotypes)
  else some w

/-- The destructor `~writer()`: with an index and a non-empty open block, the entry for
that block is filed under `current_chromosome_` (the two `assert`s are compiled out). -/
def close (w : writer) (file_pos : Nat) : writer :=
  match w.index_file_ with
  | some ix =>
    if w.record_count_in_block_ ≠ 0 then
      { w with
        index_file_ := some (ix.write w.current_chromosome_ (w.block_entry (u64 file_pos))) }
    else w
  | none => w

/-- A sequence of `write` calls, each with the stream position it observes, the site and
the data. -/
def write_all : writer → List (Nat × site_info × List fval) → Option writer
  | w, [] => some w
  | w, call :: calls =>
    match w.write call.1 call.2.1 call.2.2 with
    | none => none
    | some w1 => write_all w1 calls

/-- The index entries the writer has filed so far (none without an index). -/
def index_entries (w : writer) : List (String × s1r_entry) :=
  match w.index_file_ with
  | some ix => ix.entries
  | none => []

end writer

/-- One step of the division of the output stream into blocks: a record joins the open
block; a flush closes the open block when it holds a record. The state is the list of
closed blocks and the open block, each a list of the sites of its records. -/
def frames_step (acc : List (List site_info) × List site_info) :
    output_item → List (List site_info) × List site_info
  | output_item.preamble _ _ => acc
  | output_item.record annotations _ _ => (acc.1, acc.2 ++ [annotations])
  | output_item.flush => (if acc.2 = [] then acc.1 else acc.1 ++ [acc.2], [])

/-- The blocks of an output stream: the closed blocks in order, and the open block. -/
def frames (out : List output_item) : List (List site_info) × List site_info :=
  out.foldl frames_step ([], [])

/-- The blocks that a flush has closed, each non-empty, in order. -/
def closed_blocks (out : List output_item) : List (List site_info) := (frames out).1

/-- The records written since the last flush. -/
def open_block (out : List output_item) : List site_info := (frames out).2

/-- All blocks of an output stream once the writer is closed: the closed blocks and the
open block when it holds a record. -/
def all_blocks (out : List output_item) : List (List site_info) :=
  closed_blocks out ++ (if open_block out = [] then [] else [open_block out])

/-- The sites of the records of an output stream, in order. -/
def written_sites : List output_item → List site_info
  | [] => []
  | output_item.record annotations _ _ :: rest => annotations :: written_sites rest
  | _ :: rest => written_sites rest

/-- The value `current_block_min_` takes over the records of a block, from the reset. -/
def block_min (run : List site_info) : Nat :=
  run.foldl (fun m a => min m (writer.pos32 a)) (2 ^ 32 - 1)

/-- The value `current_block_max_` takes over the records of a block, from the reset. -/
def block_max (run : List site_info) : Nat :=
  run.foldl (fun m a => max m (writer.span_end32 a)) 0

/-- What an index entry, filed under a chromosome name, has to say about the block of
records it was emitted for: the block is not empty and the entry carries the bounds the
writer accumulated over it; for a non-zero block size, moreover, the entry is filed under
the chromosome of every record of the block and its decoded count is the number of
records. -/
def entry_matches (block_size : Nat) (filed : String × s1r_entry) (run : List site_info) :
    Prop :=
  run ≠ [] ∧ filed.2.min_pos = block_min run ∧ filed.2.max_pos = block_max run ∧
    (block_size ≠ 0 →
      (∀ a ∈ run, a.chromosome = filed.1) ∧ total_in_block filed.2.value = run.length)

/-- The relation that every state of a writer keeps between its data members and what it
has put into the output stream and the index. -/
def writer_invariant (w : writer) : Prop :=
  w.block_size_ < 2 ^ 16 ∧
  w.record_count_in_block_ = (open_block w.output_stream_).length ∧
  w.current_block_min_ = block_min (open_block w.output_stream_) ∧
  w.current_block_max_ = block_max (open_block w.output_stream_) ∧
  (w.block_size_ ≠ 0 →
    (∀ a ∈ open_block w.output_stream_, a.chromosome = w.current_chromosome_) ∧
    w.record_count_in_block_ ≤ w.block_size_ ∧
    (w.record_count_ % w.block_size_ ≠ 0 →
      w.record_count_in_block_ ≤ w.record_count_ % w.block_size_) ∧
    (∀ run ∈ closed_blocks w.output_stream_, ∀ a ∈ run, ∀ b ∈ run,
      a.chromosome = b.chromosome)) ∧
  (w.index_file_.isSome = true →
    List.Forall₂ (entry_matches w.block_size_) w.index_entries
      (closed_blocks w.output_stream_))

/-! ## `sav_reader.hpp`: sparse input of the writer, offsets, stream position -/

/-- The positions at which the loop of `writer::serialize_alleles<BitWidth>(const
std::vector<T>& m, os_it)` writes a pair: the distances `dist` of the elements whose
`signed_allele` is not negative, from the element at distance `dist` on. -/
def emitted_positions_from (BitWidth : Nat) : List fval → Nat → List Nat
  | [], _ => []
  | x :: rest, dist =>
    if allele_encoder_encode BitWidth x ≥ 0 then
      dist :: emitted_positions_from BitWidth rest (dist + 1)
    else emitted_positions_from BitWidth rest (dist + 1)

/-- The emitted (non-reference) positions of a vector. -/
def emitted_positions (BitWidth : Nat) (m : List fval) : List Nat :=
  emitted_positions_from BitWidth m 0

/-- The loop of `writer::serialize_alleles<BitWidth>(const savvy::compressed_vector<T>& m,
os_it)` over the stored values from `val_it` on and the offsets from `idx_it` on, with the
running `last_pos`. Reading past the end of the offsets is undefined. -/
def serialize_alleles_sparse_from (BitWidth : Nat) :
    List fval → List Nat → Nat → Option (List (Nat × Nat))
  | [], _, _ => some []
  | _ :: _, [], _ => none
  | x :: vals, idx :: idxs, last_pos =>
    let signed_allele := allele_encoder_encode BitWidth x
    if signed_allele ≥ 0 then
      let dist := u64 idx
      let offset := u64 (dist + 2 ^ 64 - last_pos)
      (serialize_alleles_sparse_from BitWidth vals idxs (u64 (dist + 1))).map
        (fun tl => prefixed_varint_encode BitWidth (wrap_unsigned 8 signed_allele) offset :: tl)
    else serialize_alleles_sparse_from BitWidth vals idxs last_pos

/-- The function `writer::serialize_alleles<BitWidth>(const savvy::compressed_vector<T>& m,
os_it)`. -/
def serialize_alleles_sparse (BitWidth : Nat) (m : compressed_vector fval) :
    Option (List (Nat × Nat)) :=
  serialize_alleles_sparse_from BitWidth m.values_ m.offsets_ 0

/-- The function `writer::write_alleles(const savvy::compressed_vector<T>& m)`: ploidy,
the count `m.non_zero_size()` and the pairs of `serialize_alleles<1>`. -/
def write_alleles_sparse (sample_size_ : Nat) (m : compressed_vector fval) :
    Option genotype_payload :=
  if sample_size_ = 0 then none
  else
    let ploidy := ((m.size / sample_size_) &&& 0xFFFFFFFF) % 2 ^ 32
    (serialize_alleles_sparse 1 m).map (fun pairs => ⟨ploidy, u64 m.non_zero_size, pairs⟩)

/-- The function `writer::write_hap_dosages(const savvy::compressed_vector<T>& m)`: ploidy,
the number of visited values whose code is not negative, and the pairs of
`serialize_alleles<7>`. -/
def write_hap_dosages_sparse (sample_size_ : Nat) (m : compressed_vector fval) :
    Option genotype_payload :=
  if sample_size_ = 0 then none
  else
    let ploidy := ((m.size / sample_size_) &&& 0xFFFFFFFF) % 2 ^ 32
    let non_zero_count :=
      (m.iterate.filter (fun it => decide (allele_encoder_encode 7 it.2 ≥ 0))).length
    (serialize_alleles_sparse 7 m).map (fun pairs => ⟨ploidy, non_zero_count, pairs⟩)

/-- Modelled from the spec: the loop of `varint_decode(input_it, end_it, output)` of the
absent `varint.hpp`. Each byte carries 7 payload bits in its low bits, least significant
group first, and the most significant bit is set on all but the last byte. The list is
the input not yet consumed, its head the byte the iterator stands on. The result is the
input left when the function returns and the value: the returned iterator stands on the
last byte of the varint, which the callers step over with `++in_it` or `get()`, and it is
the end iterator when the input ends first. -/
def varint_decode_from : List Nat → Nat → Nat → List Nat × Nat
  | [], _, output => ([], output)
  | b :: rest, shift, output =>
    let output := u64 (output ||| ((b &&& 0x7F) <<< shift))
    if b &&& 0x80 = 0 then (b :: rest, output)
    else varint_decode_from rest (shift + 7) output

/-- Modelled from the spec: `varint_decode(input_it, end_it, output)` of the absent
`varint.hpp`, see `varint_decode_from`. -/
def varint_decode (input : List Nat) : List Nat × Nat := varint_decode_from input 0 0

/-- Modelled from the spec: `prefixed_varint<N>::decode(input_it, end_it, prefix_data,
output)` of the absent `varint.hpp`. The first byte holds the allele code in its low `N`
bits and the low `7 - N` bits of the value above them; its most significant bit tells
whether plain varint bytes follow. The result is the input left (the iterator stands on
the last byte of the pair), the allele code and the value. On an exhausted input nothing
is read and the end iterator comes back; the code and the value are then 0 (in
`allele_decoder<BitWidth>::decode` the value is the second member of a value-initialised
tuple, and `allele` is a local without initialiser, taken as 0 here). -/
def prefixed_varint_decode (N : Nat) : List Nat → List Nat × Nat × Nat
  | [] => ([], 0, 0)
  | b :: rest =>
    let allele := b &&& (2 ^ N - 1)
    let output := (b &&& 0x7F) >>> N
    if b &&& 0x80 = 0 then (b :: rest, allele, output)
    else
      let tl := varint_decode_from rest (7 - N) output
      (tl.1, allele, tl.2)

/-- The loop of `reader_base::discard_genotypes_impl<BitWidth>`:
`for (i = 0; i < sz && in_it != end_it; ++i, ++total_offset)
in_it = prefixed_varint<BitWidth>::decode(in_it, end_it, allele, offset)`, on the input
not yet consumed. -/
def discard_loop (BitWidth : Nat) : Nat → List Nat → List Nat
  | 0, in_it => in_it
  | _ + 1, [] => []
  | n + 1, b :: rest =>
    discard_loop BitWidth n (prefixed_varint_decode BitWidth (b :: rest)).1

/-- The member `reader_base::discard_genotypes_impl<BitWidth>()` on a reader in the good
state: the input that is left unconsumed when it returns. When the first
`varint_decode` meets the end of the input the bad bit is set and nothing is left. -/
def discard_genotypes_impl (BitWidth : Nat) (input : List Nat) : List Nat :=
  let ploidy_level := varint_decode input
  if ploidy_level.1 = [] then []
  else
    -- varint_decode(++in_it, end_it, sz)
    let sz := varint_decode ploidy_level.1.tail
    -- the loop, then input_stream_->get()
    (discard_loop BitWidth sz.2 sz.1).tail

/-- The stream side of the loops of the `read_genotypes_*` members:
`for (i = 0; i < sz && in_it != end_it; ++i, ++total_offset)` with
`allele_decoder<BitWidth>::decode(++in_it, end_it, missing_value)`, which assigns
`in_it = prefixed_varint<BitWidth>::decode(in_it, end_it, allele, offset)`. -/
def read_loop_input (BitWidth : Nat) : Nat → List Nat → List Nat
  | 0, in_it => in_it
  | _ + 1, [] => []
  | n + 1, _ :: rest => read_loop_input BitWidth n (prefixed_varint_decode BitWidth rest).1

/-- The stream side of `reader_base::read_genotypes_al<BitWidth>(destination)` (the other
`read_genotypes_*` members handle the stream in the same way): the input that is left
unconsumed when it returns. -/
def read_genotypes_input (BitWidth : Nat) (input : List Nat) : List Nat :=
  let ploidy_level := varint_decode input
  if ploidy_level.1 = [] then []
  else
    let sz := varint_decode ploidy_level.1.tail
    (read_loop_input BitWidth sz.2 sz.1).tail

/-- The loops of the `read_genotypes_*` members on the bytes of the input:
`for (i = 0; i < sz && in_it != end_it; ++i, ++total_offset)` with
`std::tie(allele, offset) = allele_decoder<BitWidth>::decode(++in_it, end_it, missing_value);
total_offset += offset;` followed by the statement `store` that updates the destination.
The list is the input not yet consumed, its head the byte the iterator stands on (the last
byte of the varint read before). When the input ends with that byte the iterator is not
yet the end iterator, so the loop runs once more: `++in_it` reaches the end and `store`
receives what the decoder yields on the exhausted input. When the input ends inside a
pair the decoder returns the end iterator with what it has read, `store` runs and the loop
stops. -/
def read_loop (BitWidth : Nat) (missing_value : fval)
    (store : Nat → fval → List fval → Option (List fval)) :
    Nat → List Nat → Nat → List fval → Option (List fval)
  | 0, _, _, destination => some destination
  | _ + 1, [], _, destination => some destination
  | n + 1, _ :: rest, total_offset, destination =>
    let decoded := prefixed_varint_decode BitWidth rest
    let total_offset := u64 (total_offset + decoded.2.2)
    match store total_offset (allele_decoder_decode BitWidth missing_value decoded.2.1)
        destination with
    | none => none
    | some destination =>
      read_loop BitWidth missing_value store n decoded.1 (u64 (total_offset + 1)) destination

/-- The pairs `(allele code, offset)` that the loop of the `read_genotypes_*` members
obtains from the decoder, in order, on the input not yet consumed: one pair per
iteration of `read_loop`. -/
def read_loop_pairs (BitWidth : Nat) : Nat → List Nat → List (Nat × Nat)
  | 0, _ => []
  | _ + 1, [] => []
  | n + 1, _ :: rest =>
    let decoded := prefixed_varint_decode BitWidth rest
    decoded.2 :: read_loop_pairs BitWidth n decoded.1

/-- The member `reader_base::read_genotypes_al<BitWidth>(destination)` on a reader in the
good state, on the bytes of the input stream from the genotype part on. When
`varint_decode` meets the end of the input while it reads the ploidy, the bad bit is set
and the destination is left as it is. -/
def reader_base.read_genotypes_al (BitWidth : Nat) (r : reader_base) (input : List Nat)
    (destination : List fval) : Option (List fval) :=
  let ploidy_level := varint_decode input
  if ploidy_level.1 = [] then some destination
  else
    -- varint_decode(++in_it, end_it, sz)
    let sz := varint_decode ploidy_level.1.tail
    if r.subset_map_.length ≠ 0 then
      read_loop BitWidth fval.nan (store_al_subset BitWidth r.subset_map_ ploidy_level.2)
        sz.2 sz.1 0 (resize destination (u64 (r.subset_size_ * ploidy_level.2)))
    else
      read_loop BitWidth fval.nan (store_al BitWidth)
        sz.2 sz.1 0 (resize destination (u64 (r.sample_ids_ * ploidy_level.2)))

/-- The member `reader_base::read_genotypes_gt<BitWidth>(destination)` on the bytes of
the input stream. -/
def reader_base.read_genotypes_gt (BitWidth : Nat) (r : reader_base) (input : List Nat)
    (destination : List fval) : Option (List fval) :=
  let ploidy_level := varint_decode input
  if ploidy_level.1 = [] then some destination
  else
    let sz := varint_decode ploidy_level.1.tail
    if r.subset_map_.length ≠ 0 then
      read_loop BitWidth fval.nan
        (store_sum_subset (decide (BitWidth ≠ 1)) r.subset_map_ ploidy_level.2)
        sz.2 sz.1 0 (resize destination r.subset_size_)
    else
      read_loop BitWidth fval.nan (store_sum (decide (BitWidth ≠ 1)) ploidy_level.2)
        sz.2 sz.1 0 (resize destination r.sample_ids_)

/-- The member `reader_base::read_genotypes_ds<BitWidth>(destination)` on the bytes of
the input stream. -/
def reader_base.read_genotypes_ds (BitWidth : Nat) (r : reader_base) (input : List Nat)
    (destination : List fval) : Option (List fval) :=
  let ploidy_level := varint_decode input
  if ploidy_level.1 = [] then some destination
  else
    let sz := varint_decode ploidy_level.1.tail
    if r.subset_map_.length ≠ 0 then
      read_loop BitWidth fval.nan (store_sum_subset false r.subset_map_ ploidy_level.2)
        sz.2 sz.1 0 (resize destination r.subset_size_)
    else
      read_loop BitWidth fval.nan (store_sum false ploidy_level.2)
        sz.2 sz.1 0 (resize destination r.sample_ids_)

/-- The member `reader_base::read_genotypes_hds<BitWidth>(destination)` on the bytes of
the input stream: the loops of `read_genotypes_al` without the rounding. -/
def reader_base.read_genotypes_hds (BitWidth : Nat) (r : reader_base) (input : List Nat)
    (destination : List fval) : Option (List fval) :=
  let ploidy_level := varint_decode input
  if ploidy_level.1 = [] then some destination
  else
    let sz := varint_decode ploidy_level.1.tail
    if r.subset_map_.length ≠ 0 then
      read_loop BitWidth fval.nan (store_al_subset 1 r.subset_map_ ploidy_level.2)
        sz.2 sz.1 0 (resize destination (u64 (r.subset_size_ * ploidy_level.2)))
    else
      read_loop BitWidth fval.nan (store_al 1)
        sz.2 sz.1 0 (resize destination (u64 (r.sample_ids_ * ploidy_level.2)))

/-- The member `reader_base::read_genotypes(destination)` on the bytes of the input
stream from the genotype part on: `destination.resize(0)`, then the decoder selected by
the requested and the file format. An unsupported requested format sets the fail bit and
leaves the destination empty. -/
def reader_base.read_genotypes (r : reader_base) (input : List Nat)
    (destination : List fval) : Option (List fval) :=
  let destination := resize destination 0
  let BitWidth := if r.file_data_format_ = fmt.allele then 1 else 7
  if r.requested_data_format_ = fmt.allele then
    reader_base.read_genotypes_al BitWidth r input destination
  else if r.requested_data_format_ = fmt.genotype then
    reader_base.read_genotypes_gt BitWidth r input destination
  else if r.requested_data_format_ = fmt.dosage then
    reader_base.read_genotypes_ds BitWidth r input destination
  else if r.requested_data_format_ = fmt.haplotype_dosage then
    reader_base.read_genotypes_hds BitWidth r input destination
  else some destination

/-- The length that the decoder selected by the requested format gives the destination
before its loop, from the ploidy it has read: sample count (or subset size) times ploidy
for the per-haplotype formats, sample count (or subset size) for the per-sample formats. -/
def reader_base.resized_length (r : reader_base) (ploidy_level : Nat) : Nat :=
  let samples := if r.subset_map_.length ≠ 0 then r.subset_size_ else r.sample_ids_
  if r.requested_data_format_ = fmt.allele ∨ r.requested_data_format_ = fmt.haplotype_dosage
  then u64 (samples * ploidy_level)
  else samples

/-- The value that a reader loop obtains for one element `x` written with `BitWidth` bits
per allele code: the code decoded by `allele_decoder<BitWidth>::decode` and rounded as
`read_genotypes_al<Rounding>` does (`Rounding = 1`: not rounded), and the implied
reference value 0 when the code is negative and the writer omits the element. -/
def readback (BitWidth Rounding : Nat) (x : fval) : fval :=
  let signed_allele := allele_encoder_encode BitWidth x
  if signed_allele ≥ 0 then
    al_value Rounding (allele_decoder_decode BitWidth fval.nan (wrap_unsigned 8 signed_allele))
  else fval.num 0

/-- The sum over the `p` haplotypes of sample `s` of a per-haplotype vector:
`al[s * p] + ... + al[s * p + p - 1]`, added from left to right starting from zero. -/
def haplotype_sum (p : Nat) (al : List fval) (s : Nat) : fval :=
  ((al.drop (s * p)).take p).foldl fval.add (fval.num 0)

/-! ## `merge.cpp`: the merge loop -/

/-- The class `compressed_vector_append_wrapper` of `merge.cpp`: the reference `vec_` to
the output vector and `offset_`, the size the vector had when the wrapper was built. -/
structure compressed_vector_append_wrapper where
  vec_ : compressed_vector fval
  offset_ : Nat
deriving DecidableEq

namespace compressed_vector_append_wrapper

/-- The constructor `compressed_vector_append_wrapper(vec)`: `offset_(vec.size())`. -/
def create (vec : compressed_vector fval) : compressed_vector_append_wrapper :=
  ⟨vec, vec.size⟩

/-- The member `resize(sz)`: `vec_.resize(offset_ + sz)`. -/
def resize (w : compressed_vector_append_wrapper) (sz : Nat) :
    compressed_vector_append_wrapper :=
  { w with vec_ := w.vec_.resize (u64 (w.offset_ + sz)) 0 }

/-- The statement `destination[pos] = val` on a wrapper: the mutable `operator[]`, which
is `vec_[offset_ + pos]`, and the assignment through the reference it returns. -/
def assign (w : compressed_vector_append_wrapper) (pos : Nat) (val : fval) :
    compressed_vector_append_wrapper :=
  let r := w.vec_.index_mut (u64 (w.offset_ + pos))
  { w with vec_ := { r.1 with values_ := r.1.values_.set r.2 val } }

/-- The statement `destination[pos] += val` on a wrapper. -/
def add_assign (w : compressed_vector_append_wrapper) (pos : Nat) (val : fval) :
    compressed_vector_append_wrapper :=
  let r := w.vec_.index_mut (u64 (w.offset_ + pos))
  { w with vec_ :=
      { r.1 with values_ := r.1.values_.set r.2 (fval.add (r.1.values_.getD r.2 0) val) } }

end compressed_vector_append_wrapper

/-- The decoding loop of the `read_genotypes_*` members without sample subset, with a
wrapper as destination: `total_offset += offset`, then `store` on the destination. -/
def append_decode_loop (BitWidth : Nat)
    (store : Nat → fval → compressed_vector_append_wrapper → Option
      compressed_vector_append_wrapper) :
    List (Nat × Nat) → Nat → compressed_vector_append_wrapper →
      Option compressed_vector_append_wrapper
  | [], _, destination => some destination
  | (allele, offset) :: rest, total_offset, destination =>
    let total_offset := u64 (total_offset + offset)
    match store total_offset (allele_decoder_decode BitWidth fval.nan allele) destination with
    | none => none
    | some destination =>
      append_decode_loop BitWidth store rest (u64 (total_offset + 1)) destination

/-- The call `input_files[i].read_genotypes(vec_wrapper)` of the merge loop, on a reader
of a file with `sample_count` samples and format `file_data_format`, opened with the
requested format `requested` and without sample subset, whose input holds the genotype
part `input`: `destination.resize(0)`, then the decoder selected by the two formats, which
resizes the destination and runs its loop. The division by a zero ploidy in the
per-sample decoders is undefined. -/
def read_genotypes_append (requested file_data_format : fmt) (sample_count : Nat)
    (input : genotype_payload) (destination : compressed_vector_append_wrapper) :
    Option compressed_vector_append_wrapper :=
  let destination := destination.resize 0
  let BitWidth := if file_data_format = fmt.allele then 1 else 7
  let ploidy_level := input.ploidy
  let visited := input.pairs.take input.sz
  if requested = fmt.allele then
    append_decode_loop BitWidth
      (fun pos a d => some (d.assign pos (al_value BitWidth a)))
      visited 0 (destination.resize (u64 (sample_count * ploidy_level)))
  else if requested = fmt.genotype then
    append_decode_loop BitWidth
      (fun pos a d =>
        if ploidy_level = 0 then none
        else some (d.add_assign (pos / ploidy_level) (al_value BitWidth a)))
      visited 0 (destination.resize sample_count)
  else if requested = fmt.dosage then
    append_decode_loop BitWidth
      (fun pos a d =>
        if ploidy_level = 0 then none else some (d.add_assign (pos / ploidy_level) a))
      visited 0 (destination.resize sample_count)
  else if requested = fmt.haplotype_dosage then
    append_decode_loop BitWidth (fun pos a d => some (d.assign pos a))
      visited 0 (destination.resize (u64 (sample_count * ploidy_level)))
  else some destination

/-- One input of the merge as the loop sees it: the sample count and format of the file,
whether the reader is good after `read_variant_details`, the site read into `sites[i]`,
and the genotype part that follows in the input. -/
structure merge_input where
  sample_size : Nat
  file_data_format : fmt
  good : Bool
  site : site_info
  genotypes : genotype_payload
deriving DecidableEq

/-- The loop of `merge_main` that finds `min_pos_index` before the `while`: the first
good input with the smallest position, `inputs.size()` when there is none. `i` is the
index of the head of the list. -/
def find_min_pos : List merge_input → Nat → Nat → Nat → Nat
  | [], _, _, min_pos_index => min_pos_index
  | f :: rest, i, min_pos, min_pos_index =>
    if f.good && decide (f.site.position < min_pos) then
      find_min_pos rest (i + 1) f.site.position i
    else find_min_pos rest (i + 1) min_pos min_pos_index

/-- The vector `matching` of one pass of the `while` loop: input `i` matches when it is
the input at `min_pos_index` or when it is good and has the position, reference and
alternate allele of that input. -/
def merge_matching (inputs : List merge_input) (min_pos_index : Nat) : List Bool :=
  match inputs[min_pos_index]? with
  | none => inputs.map (fun _ => false)
  | some least =>
    (List.range inputs.length).zipWith
      (fun i f => decide (i = min_pos_index) ||
        (f.good && decide (f.site.position = least.site.position)
          && decide (f.site.ref = least.site.ref) && decide (f.site.alt = least.site.alt)))
      inputs

/-- The second `for` loop of the `while` body: nothing is done for an input that does not
match; for a matching input a wrapper is built on `output_genos` and the genotypes are
read into it. -/
def merge_append (requested : fmt) :
    List (merge_input × Bool) → compressed_vector fval → Option (compressed_vector fval)
  | [], output_genos => some output_genos
  | (f, matching) :: rest, output_genos =>
    if !matching then merge_append requested rest output_genos
    else
      match read_genotypes_append requested f.file_data_format f.sample_size f.genotypes
          (compressed_vector_append_wrapper.create output_genos) with
      | none => none
      | some w => merge_append requested rest w.vec_

/-- One pass of the `while` loop of `merge_main` up to the end of the second `for` loop:
the vector `output_genos` after it. -/
def merge_step (requested : fmt) (inputs : List merge_input) (min_pos_index : Nat)
    (output_genos : compressed_vector fval) : Option (compressed_vector fval) :=
  merge_append requested (inputs.zip (merge_matching inputs min_pos_index)) output_genos

end sav

end savvy

namespace savvy

/-! ## Auxiliary facts -/

theorem u64_of_lt {x : Nat} (h : x < 2 ^ 64) : u64 x = x := Nat.mod_eq_of_lt h

theorem u64_sub_of_le {a b : Nat} (hab : b ≤ a) (ha : a < 2 ^ 64) :
    u64 (a + 2 ^ 64 - b) = a - b := by
  unfold u64
  have h : a + 2 ^ 64 - b = (a - b) + 2 ^ 64 := by omega
  rw [h, Nat.add_mod_right]
  exact Nat.mod_eq_of_lt (by omega)

namespace sav

theorem resize_nil (n : Nat) : resize [] n = List.replicate n (fval.num 0) := by
  simp [resize]

/-- The full-width decoder reads back, element by element, what the serialiser wrote
after position `pre.length`, and leaves the part before it alone. -/
theorem decode_serialize_from (BitWidth : Nat) (xs : List fval) :
    ∀ (pre : List fval) (last_pos : Nat), last_pos ≤ pre.length →
      pre.length + xs.length < 2 ^ 64 →
      decode_loop BitWidth fval.nan (store_al BitWidth)
        (serialize_alleles_from BitWidth xs pre.length last_pos) last_pos
        (pre ++ List.replicate xs.length (fval.num 0))
        = some (pre ++ xs.map (al_roundtrip BitWidth)) := by
  induction xs with
  | nil => intro pre last_pos _ _; simp [serialize_alleles_from, decode_loop]
  | cons x rest ih =>
    intro pre last_pos hle hlt
    simp only [List.length_cons] at hlt
    by_cases hx : allele_encoder_encode BitWidth x ≥ 0
    · have hoff : u64 (pre.length + 2 ^ 64 - last_pos) = pre.length - last_pos :=
        u64_sub_of_le hle (by omega)
      have htot : u64 (last_pos + (pre.length - last_pos)) = pre.length := by
        rw [u64_of_lt (by omega)]; omega
      have hnext : u64 (pre.length + 1) = pre.length + 1 := u64_of_lt (by omega)
      have ih1 := ih (pre ++ [al_roundtrip BitWidth x]) (pre.length + 1)
        (by simp) (by simp; omega)
      simp only [List.length_append, List.length_singleton, List.append_assoc,
        List.singleton_append] at ih1
      simp only [serialize_alleles_from, hx, if_true, prefixed_varint_encode, decode_loop,
        hoff, htot, hnext, store_al, List.length_append, List.length_replicate,
        List.length_cons, List.map_cons, List.replicate_succ]
      have hlt2 : pre.length < pre.length + (rest.length + 1) := by omega
      simp only [hlt2, if_true, List.set_append_right _ _ (le_refl _), Nat.sub_self,
        List.set_cons_zero]
      simpa [al_roundtrip, hx, prefixed_varint_encode] using ih1
    · have ih1 := ih (pre ++ [fval.num 0]) last_pos (by simp; omega) (by simp; omega)
      simp only [List.length_append, List.length_singleton, List.append_assoc,
        List.singleton_append] at ih1
      simp only [serialize_alleles_from, hx, if_false, List.length_cons, List.map_cons,
        List.replicate_succ]
      simpa [al_roundtrip, hx] using ih1

/-- The serialiser writes one pair for every element whose allele code is not negative. -/
theorem serialize_alleles_from_length (BitWidth : Nat) (xs : List fval) :
    ∀ (dist last_pos : Nat),
      (serialize_alleles_from BitWidth xs dist last_pos).length
        = (xs.filter (fun x => decide (allele_encoder_encode BitWidth x ≥ 0))).length := by
  induction xs with
  | nil => intro _ _; simp [serialize_alleles_from]
  | cons x rest ih =>
    intro dist last_pos
    by_cases hx : allele_encoder_encode BitWidth x ≥ 0
    · simp [serialize_alleles_from, hx, ih]
    · simp [serialize_alleles_from, hx, ih]

theorem allele_encoder_encode_one_nonneg (x : fval) :
    allele_encoder_encode 1 x ≥ 0 ↔ x ≠ fval.num 0 := by
  cases x with
  | nan => simp [allele_encoder_encode]
  | num q =>
    by_cases hq : q = 0
    · simp [allele_encoder_encode, hq]
    · simp [allele_encoder_encode, hq]

/-- The nonzero count of `write_alleles` is the number of pairs it serialises. -/
theorem count_matches_pairs (xs : List fval) :
    xs.length - xs.count (fval.num 0)
      = (xs.filter (fun x => decide (allele_encoder_encode 1 x ≥ 0))).length := by
  induction xs with
  | nil => simp
  | cons x rest ih =>
    have hc : rest.count (fval.num 0) ≤ rest.length := List.count_le_length _ _
    by_cases hx : x = fval.num 0
    · subst hx
      have h0 : ¬ allele_encoder_encode 1 (fval.num 0) ≥ 0 := by
        simp [allele_encoder_encode]
      simp only [List.length_cons, List.count_cons_self, List.filter_cons, h0, decide_False]
      simpa using ih
    · have h1 : allele_encoder_encode 1 x ≥ 0 := (allele_encoder_encode_one_nonneg x).2 hx
      have hcount : (x :: rest).count (fval.num 0) = rest.count (fval.num 0) :=
        List.count_cons_of_ne (fun h => hx h.symm) _
      simp only [List.length_cons, hcount, List.filter_cons, h1, decide_True, if_true]
      omega

/-- The ploidy field of the payload is the ploidy itself when it fits 32 bits. -/
theorem ploidy_field (s ploidy : Nat) (hs : 1 ≤ s) (hp : ploidy < 2 ^ 32) :
    ((s * ploidy / s) &&& 0xFFFFFFFF) % 2 ^ 32 = ploidy := by
  have h1 : s * ploidy / s = ploidy := Nat.mul_div_cancel_left ploidy (by omega)
  have h2 : (0xFFFFFFFF : Nat) = 2 ^ 32 - 1 := by norm_num
  rw [h1, h2, Nat.and_pow_two_sub_one_eq_mod, Nat.mod_mod, Nat.mod_eq_of_lt hp]

/-- A successful run of the plain decoding loop stored inside the destination only. -/
theorem decoded_positions_lt (BitWidth : Nat) (pairs : List (Nat × Nat)) :
    ∀ (total_offset : Nat) (destination result : List fval),
      decode_loop BitWidth fval.nan (store_al BitWidth) pairs total_offset destination
        = some result →
      result.length = destination.length ∧
        ∀ pos ∈ decoded_positions pairs total_offset, pos < destination.length := by
  induction pairs with
  | nil =>
    intro t d r h
    simp [decode_loop] at h
    simp [decoded_positions, h]
  | cons pr rest ih =>
    intro t d r h
    obtain ⟨a, off⟩ := pr
    simp only [decode_loop, store_al] at h
    by_cases hlt : u64 (t + off) < d.length
    · simp only [hlt, if_true] at h
      have := ih _ _ _ h
      simp only [List.length_set] at this
      refine ⟨this.1, ?_⟩
      intro pos hpos
      simp only [decoded_positions, List.mem_cons] at hpos
      rcases hpos with rfl | hpos
      · exact hlt
      · exact this.2 pos hpos
    · simp [hlt] at h

theorem resize_zero (destination : List fval) : resize destination 0 = [] := by
  simp [resize]

/-- What the writer emits for `v`, in either file format: the ploidy field, the serialised
pairs, and a nonzero count equal to the number of pairs. -/
theorem write_genotypes_eq (data_format : fmt) (s ploidy : Nat) (v : List fval)
    (hs : 1 ≤ s) (hp : ploidy < 2 ^ 32) (hlen : v.length = s * ploidy) :
    ∃ payload, write_genotypes data_format s v = some payload ∧
      payload.ploidy = ploidy ∧
      payload.pairs
        = serialize_alleles (if data_format = fmt.haplotype_dosage then 7 else 1) v ∧
      payload.sz = payload.pairs.length := by
  have hs0 : s ≠ 0 := by omega
  have hpl := ploidy_field s ploidy hs hp
  by_cases hf : data_format = fmt.haplotype_dosage
  · refine ⟨⟨ploidy, (serialize_alleles 7 v).length, serialize_alleles 7 v⟩, ?_, rfl, ?_, rfl⟩
    · have hcnt : (v.filter (fun x => decide (allele_encoder_encode 7 x ≥ 0))).length
          = (serialize_alleles 7 v).length := by
        rw [serialize_alleles, serialize_alleles_from_length]
      unfold write_genotypes write_hap_dosages
      rw [if_pos hf, if_neg hs0, hlen, hpl]
      simp only [hcnt]
    · simp [hf]
  · refine ⟨⟨ploidy, (serialize_alleles 1 v).length, serialize_alleles 1 v⟩, ?_, rfl, ?_, rfl⟩
    · have hcnt : v.length - v.count (fval.num 0) = (serialize_alleles 1 v).length := by
        rw [serialize_alleles, serialize_alleles_from_length, count_matches_pairs]
      unfold write_genotypes write_alleles
      rw [if_neg hf, if_neg hs0, hcnt, hlen, hpl]
    · simp [hf]

/-- Reading in allele format, without subset, what the writer emitted for `v` gives the
element-wise read-back values of `v`. -/
theorem read_al_write_genotypes (data_format : fmt) (s ploidy : Nat) (v dest : List fval)
    (hf : data_format = fmt.allele ∨ data_format = fmt.haplotype_dosage)
    (hs : 1 ≤ s) (hp : ploidy < 2 ^ 32) (hlen : v.length = s * ploidy)
    (hsize : v.length < 2 ^ 64) :
    ∃ payload, write_genotypes data_format s v = some payload ∧
      payload.ploidy = ploidy ∧
      payload.pairs
        = serialize_alleles (if data_format = fmt.haplotype_dosage then 7 else 1) v ∧
      payload.sz = payload.pairs.length ∧
      read_genotypes (plain_reader s data_format fmt.allele) payload dest
        = some (v.map (al_roundtrip (if data_format = fmt.haplotype_dosage then 7 else 1))) := by
  obtain ⟨payload, hw, hpl, hpairs, hsz⟩ := write_genotypes_eq data_format s ploidy v hs hp hlen
  refine ⟨payload, hw, hpl, hpairs, hsz, ?_⟩
  have hbw : (if data_format = fmt.allele then 1 else 7)
      = (if data_format = fmt.haplotype_dosage then 7 else 1) := by
    rcases hf with h | h <;> simp [h]
  have hmain := decode_serialize_from
    (if data_format = fmt.haplotype_dosage then 7 else 1) v [] 0 (le_refl _)
    (by simpa using hsize)
  simp only [List.length_nil, List.nil_append] at hmain
  simp only [read_genotypes, plain_reader, resize_zero, if_true, read_genotypes_al,
    List.length_nil, ne_eq, not_true_eq_false, if_false, hbw, hsz, List.take_length, hpl,
    resize_nil, hpairs, serialize_alleles]
  rw [← hlen, u64_of_lt hsize]
  exact hmain

theorem al_roundtrip_one_of_biallelic (x : fval)
    (hx : x = fval.num 0 ∨ x = fval.num 1 ∨ x = fval.nan) : al_roundtrip 1 x = x := by
  rcases hx with rfl | rfl | rfl <;>
    simp [al_roundtrip, allele_encoder_encode, allele_decoder_decode, al_value,
      prefixed_varint_encode, wrap_unsigned]

theorem al_roundtrip_one_of_int (z : ℤ) :
    al_roundtrip 1 (fval.num (z : ℚ)) = if z = 0 then fval.num 0 else fval.num 1 := by
  by_cases hz : z = 0
  · simp [al_roundtrip, allele_encoder_encode, hz]
  · have hq : (z : ℚ) ≠ 0 := by exact_mod_cast hz
    simp [al_roundtrip, allele_encoder_encode, allele_decoder_decode, al_value,
      prefixed_varint_encode, wrap_unsigned, hz, hq]

/-! ## Claims about the genotype codec -/

/-- A vector of zeros is serialised to no pair at all. -/
theorem serialize_alleles_from_zeros (n : Nat) :
    ∀ (dist last_pos : Nat),
      serialize_alleles_from 1 (List.replicate n (fval.num 0)) dist last_pos = [] := by
  induction n with
  | zero => intro _ _; rfl
  | succ k ih =>
    intro dist last_pos
    rw [List.replicate_succ]
    unfold serialize_alleles_from
    have h0 : ¬ allele_encoder_encode 1 (fval.num 0) ≥ 0 := by
      simp [allele_encoder_encode]
    simp only [h0, if_false]
    exact ih _ _

/-- What `write_alleles` emits for one sample and a vector of `n` zeros. -/
theorem write_alleles_zeros (n : Nat) :
    write_alleles 1 (List.replicate n (fval.num 0))
      = some ⟨((n / 1) &&& 0xFFFFFFFF) % 2 ^ 32, 0, []⟩ := by
  unfold write_alleles
  rw [if_neg (by decide), List.length_replicate, List.count_replicate_self, Nat.sub_self,
    serialize_alleles, serialize_alleles_from_zeros]

theorem nil_ne_replicate (n : Nat) (hn : n ≠ 0) (x : fval) :
    ([] : List fval) ≠ List.replicate n x := by
  intro h
  have h2 := congrArg List.length h
  rw [List.length_replicate, List.length_nil] at h2
  exact hn h2.symm

/-- C1 fails on the code for a ploidy that does not fit the writer's 32-bit ploidy field:
for one sample and the vector of `2 ^ 32` zeros (ploidy `2 ^ 32`), `write_alleles` emits
the ploidy `(2 ^ 32) & 0xFFFFFFFF = 0`, the nonzero count 0 and no pair, and the decode
yields the empty vector, whose length is not `2 ^ 32`. -/
theorem write_alleles_ploidy_counterexample :
    (List.replicate (2 ^ 32) (fval.num 0)).length = 1 * 2 ^ 32 ∧
    (∀ x ∈ List.replicate (2 ^ 32) (fval.num 0),
      x = fval.num 0 ∨ x = fval.num 1 ∨ x = fval.nan) ∧
    write_alleles 1 (List.replicate (2 ^ 32) (fval.num 0)) = some ⟨0, 0, []⟩ ∧
    read_genotypes (plain_reader 1 fmt.allele fmt.allele) ⟨0, 0, []⟩ [] = some [] ∧
    ([] : List fval) ≠ List.replicate (2 ^ 32) (fval.num 0) := by
  refine ⟨?_, ?_, ?_, by decide, ?_⟩
  · rw [List.length_replicate, Nat.one_mul]
  · intro x hx
    exact Or.inl (List.eq_of_mem_replicate hx)
  · have hpl : ((2 ^ 32 / 1) &&& 0xFFFFFFFF) % 2 ^ 32 = 0 := by decide
    rw [write_alleles_zeros, hpl]
  · exact nil_ne_replicate _ (by decide) _

/-- C1 as amended: for `s ≥ 1` samples, a ploidy below `2 ^ 32` (the range of the writer's
32-bit ploidy field) and a vector `v` of `s * ploidy` entries that are 0, 1 or NaN (fewer
than `2 ^ 64` of them, as in every `std::vector`), `write_alleles` emits a payload (ploidy, nonzero count, pairs) from which
`read_genotypes_al<1>`, reached through `read_genotypes` with allele format requested on
an allele-format file and no sample subset, rebuilds exactly `v` (same length, same
entries, NaN exactly where `v` has NaN), whatever the destination held before; every
position the decoder stores at is below `s * ploidy`. -/
theorem write_alleles_read_genotypes_al (s ploidy : Nat) (v dest : List fval)
    (hs : 1 ≤ s) (hp : ploidy < 2 ^ 32) (hlen : v.length = s * ploidy)
    (hsize : v.length < 2 ^ 64)
    (hv : ∀ x ∈ v, x = fval.num 0 ∨ x = fval.num 1 ∨ x = fval.nan) :
    ∃ payload, write_alleles s v = some payload ∧
      payload.ploidy = ploidy ∧
      payload.sz = payload.pairs.length ∧
      read_genotypes_al 1 (plain_reader s fmt.allele fmt.allele) payload [] = some v ∧
      read_genotypes (plain_reader s fmt.allele fmt.allele) payload dest = some v ∧
      ∀ pos ∈ decoded_positions (payload.pairs.take payload.sz) 0, pos < s * ploidy := by
  obtain ⟨payload, hw, hpl, hpairs, hsz, hread⟩ :=
    read_al_write_genotypes fmt.allele s ploidy v dest (Or.inl rfl) hs hp hlen hsize
  have hmap : v.map (al_roundtrip 1) = v := by
    conv_rhs => rw [← List.map_id v]
    exact List.map_congr_left (fun x hx => al_roundtrip_one_of_biallelic x (hv x hx))
  have hw2 : write_alleles s v = some payload := by
    simpa [write_genotypes] using hw
  simp only [if_neg (by decide : ¬ fmt.allele = fmt.haplotype_dosage)] at hread
  rw [hmap] at hread
  have hal : read_genotypes_al 1 (plain_reader s fmt.allele fmt.allele) payload [] = some v := by
    simpa [read_genotypes, plain_reader, resize_zero] using hread
  refine ⟨payload, hw2, hpl, hsz, hal, hread, ?_⟩
  have hloop : decode_loop 1 fval.nan (store_al 1) (payload.pairs.take payload.sz) 0
      (List.replicate (s * ploidy) (fval.num 0)) = some v := by
    have h := hal
    simp only [read_genotypes_al, plain_reader, List.length_nil, ne_eq, not_true_eq_false,
      if_false, resize_nil, hpl] at h
    rwa [u64_of_lt (by rw [← hlen]; exact hsize)] at h
  have hpos := (decoded_positions_lt 1 _ 0 _ _ hloop).2
  simpa using hpos

/-- C1 as amended, on the first record of scenario S1: 4 samples of ploidy 2 and the haplotype
vector `[0,1,0,0,1,1,0,0]`. -/
theorem write_alleles_read_genotypes_al_witness :
    ∃ payload, write_alleles 4
        [fval.num 0, fval.num 1, fval.num 0, fval.num 0,
         fval.num 1, fval.num 1, fval.num 0, fval.num 0] = some payload ∧
      payload.ploidy = 2 ∧
      payload.sz = payload.pairs.length ∧
      read_genotypes_al 1 (plain_reader 4 fmt.allele fmt.allele) payload []
        = some [fval.num 0, fval.num 1, fval.num 0, fval.num 0,
                fval.num 1, fval.num 1, fval.num 0, fval.num 0] ∧
      read_genotypes (plain_reader 4 fmt.allele fmt.allele) payload [fval.nan]
        = some [fval.num 0, fval.num 1, fval.num 0, fval.num 0,
                fval.num 1, fval.num 1, fval.num 0, fval.num 0] ∧
      ∀ pos ∈ decoded_positions (payload.pairs.take payload.sz) 0, pos < 4 * 2 :=
  write_alleles_read_genotypes_al 4 2
    [fval.num 0, fval.num 1, fval.num 0, fval.num 0,
     fval.num 1, fval.num 1, fval.num 0, fval.num 0] [fval.nan]
    (by decide) (by decide) (by decide) (by decide) (by simp)

/-- C2 fails on the code: one sample of ploidy 1 with the integer genotype 2, written in
allele format, is read back as 1. -/
theorem write_alleles_int_counterexample :
    write_alleles 1 [fval.num 2] = some ⟨1, 1, [(1, 0)]⟩ ∧
      read_genotypes (plain_reader 1 fmt.allele fmt.allele) ⟨1, 1, [(1, 0)]⟩ []
        = some [fval.num 1] ∧
      [fval.num 1] ≠ [fval.num 2] := by
  refine ⟨?_, ?_, ?_⟩
  · decide
  · decide
  · decide

/-- C2 as amended: for every integer-valued genotype vector written in allele (GT, N=1)
format, of `s ≥ 1` samples and a ploidy below `2 ^ 32` (fewer than `2 ^ 64` entries, as in
every `std::vector`), reading the record back in allele format returns the written vector
with every nonzero entry replaced by 1 and every zero entry kept. -/
theorem write_alleles_int_readback (s ploidy : Nat) (zs : List ℤ) (dest : List fval)
    (hs : 1 ≤ s) (hp : ploidy < 2 ^ 32) (hlen : zs.length = s * ploidy)
    (hsize : zs.length < 2 ^ 64) :
    ∃ payload, write_alleles s (zs.map (fun z : ℤ => fval.num (z : ℚ))) = some payload ∧
      read_genotypes (plain_reader s fmt.allele fmt.allele) payload dest
        = some (zs.map (fun z : ℤ => if z = 0 then fval.num 0 else fval.num 1)) := by
  obtain ⟨payload, hw, _, _, _, hread⟩ :=
    read_al_write_genotypes fmt.allele s ploidy (zs.map (fun z : ℤ => fval.num (z : ℚ))) dest
      (Or.inl rfl) hs hp (by simpa using hlen) (by simpa using hsize)
  refine ⟨payload, by simpa [write_genotypes] using hw, ?_⟩
  simp only [if_neg (by decide : ¬ fmt.allele = fmt.haplotype_dosage)] at hread
  rw [hread, List.map_map]
  congr 1
  apply List.map_congr_left
  intro z _
  exact al_roundtrip_one_of_int z

/-- C2 as amended, on one sample of ploidy 3 with genotypes `[2, 0, -1]`. -/
theorem write_alleles_int_readback_witness :
    ∃ payload, write_alleles 1 ([2, 0, -1].map (fun z : ℤ => fval.num (z : ℚ))) = some payload ∧
      read_genotypes (plain_reader 1 fmt.allele fmt.allele) payload []
        = some ([2, 0, -1].map (fun z : ℤ => if z = 0 then fval.num 0 else fval.num 1)) :=
  write_alleles_int_readback 1 3 [2, 0, -1] [] (by decide) (by decide) (by decide) (by decide)

end sav
end savvy

namespace savvy
namespace sav

/-- Two slots `a * p + r` and `b * p + h` with `r, h < p` coincide only when quotient and
remainder do. -/
theorem slot_eq_iff {p a b r h : Nat} (hr : r < p) (hh : h < p) :
    a * p + r = b * p + h ↔ a = b ∧ r = h := by
  constructor
  · intro e
    have hp : 0 < p := by omega
    have h1 : (a * p + r) / p = a := by
      rw [Nat.add_comm, Nat.add_mul_div_right _ _ hp, Nat.div_eq_of_lt hr, Nat.zero_add]
    have h2 : (b * p + h) / p = b := by
      rw [Nat.add_comm, Nat.add_mul_div_right _ _ hp, Nat.div_eq_of_lt hh, Nat.zero_add]
    have hab : a = b := by rw [← h1, ← h2, e]
    subst hab
    exact ⟨rfl, by omega⟩
  · rintro ⟨rfl, rfl⟩; rfl

/-- The subset loop follows the full loop pair by pair: whenever the full decode of some
pairs succeeds, so does the subset decode, and the slots of the kept samples keep holding
what the full decode holds for them. -/
theorem subset_follows_full (BitWidth : Nat) (subset_map : List Nat) (p subset_size : Nat)
    (hp : 0 < p)
    (hbound : ∀ (i m : Nat), subset_map[i]? = some m → m ≠ absent → m < subset_size)
    (hinj : ∀ (i j m : Nat), subset_map[i]? = some m → subset_map[j]? = some m → m ≠ absent → i = j)
    (hss : subset_size * p < 2 ^ 64) (pairs : List (Nat × Nat)) :
    ∀ (total_offset : Nat) (full dest full_result : List fval),
      full.length = subset_map.length * p → dest.length = subset_size * p →
      (∀ (i m : Nat), subset_map[i]? = some m → m ≠ absent →
        ∀ h, h < p → dest[m * p + h]? = full[i * p + h]?) →
      decode_loop BitWidth fval.nan (store_al BitWidth) pairs total_offset full
        = some full_result →
      ∃ dest_result,
        decode_loop BitWidth fval.nan (store_al_subset BitWidth subset_map p) pairs
          total_offset dest = some dest_result ∧
        dest_result.length = subset_size * p ∧
        ∀ (i m : Nat), subset_map[i]? = some m → m ≠ absent →
          ∀ h, h < p → dest_result[m * p + h]? = full_result[i * p + h]? := by
  induction pairs with
  | nil =>
    intro t full dest fr hfl hdl hinv hrun
    simp only [decode_loop, Option.some.injEq] at hrun
    subst hrun
    exact ⟨dest, by simp [decode_loop], hdl, hinv⟩
  | cons pr rest ih =>
    intro t full dest fr hfl hdl hinv hrun
    obtain ⟨a, off⟩ := pr
    simp only [decode_loop, store_al] at hrun
    by_cases hlt : u64 (t + off) < full.length
    swap
    · simp [hlt] at hrun
    simp only [hlt, if_true] at hrun
    set pos := u64 (t + off) with hpos
    set y := al_value BitWidth (allele_decoder_decode BitWidth fval.nan a) with hy
    have hp0 : p ≠ 0 := by omega
    have hsi : pos / p < subset_map.length := by
      rw [Nat.div_lt_iff_lt_mul hp]; rw [hfl] at hlt; exact hlt
    have hpos_eq : pos / p * p + pos % p = pos := by
      rw [Nat.mul_comm]; exact Nat.div_add_mod pos p
    have hmod : pos % p < p := Nat.mod_lt _ hp
    obtain ⟨m, hm⟩ : ∃ m, subset_map[pos / p]? = some m :=
      ⟨subset_map[pos / p], List.getElem?_eq_getElem hsi⟩
    by_cases hkeep : m ≠ absent
    · have hmb : m < subset_size := hbound _ _ hm hkeep
      have hslot_lt : m * p + pos % p < subset_size * p := by
        have : (m + 1) * p ≤ subset_size * p := Nat.mul_le_mul_right p hmb
        have h2 : (m + 1) * p = m * p + p := by ring
        omega
      have hmp : u64 (m * p) = m * p := u64_of_lt (by omega)
      have hslot : u64 (u64 (m * p) + pos % p) = m * p + pos % p := by
        rw [hmp]; exact u64_of_lt (by omega)
      have hstep : ∀ (i m' : Nat), subset_map[i]? = some m' → m' ≠ absent →
          ∀ h, h < p → (dest.set (m * p + pos % p) y)[m' * p + h]?
            = (full.set pos y)[i * p + h]? := by
        intro i m' hm' hk' h hh
        rw [List.getElem?_set, List.getElem?_set]
        have hiff : (m * p + pos % p = m' * p + h) ↔ (pos = i * p + h) := by
          constructor
          · intro e
            obtain ⟨e1, e2⟩ := (slot_eq_iff hmod hh).1 e
            subst e1
            have hi : pos / p = i := hinj _ _ _ hm hm' hkeep
            rw [← hi, ← e2]; exact hpos_eq.symm
          · intro e
            have e' : pos / p * p + pos % p = i * p + h := by rw [hpos_eq]; exact e
            obtain ⟨e1, e2⟩ := (slot_eq_iff hmod hh).1 e'
            rw [e1] at hm
            have : m = m' := by rw [hm'] at hm; exact (Option.some.inj hm).symm
            rw [this, e2]
        by_cases hc : pos = i * p + h
        · have hc' := hiff.2 hc
          rw [if_pos hc', if_pos hc]
          have h1 : m * p + pos % p < dest.length := by rw [hdl]; exact hslot_lt
          rw [if_pos h1, if_pos hlt]
        · have hc' : ¬ (m * p + pos % p = m' * p + h) := fun e => hc (hiff.1 e)
          rw [if_neg hc', if_neg hc]
          exact hinv i m' hm' hk' h hh
      obtain ⟨dr, hdr, hlen, hres⟩ := ih (u64 (pos + 1)) (full.set pos y)
        (dest.set (m * p + pos % p) y) fr (by simpa using hfl) (by simpa using hdl) hstep hrun
      refine ⟨dr, ?_, hlen, hres⟩
      have h1 : m * p + pos % p < dest.length := by rw [hdl]; exact hslot_lt
      simp only [decode_loop, store_al_subset, hp0, if_false, ← hpos, hm, hkeep, ne_eq,
        not_false_eq_true, if_true, hslot, h1, ← hy]
      exact hdr
    · have habs : m = absent := by simpa using hkeep
      have hstep : ∀ (i m' : Nat), subset_map[i]? = some m' → m' ≠ absent →
          ∀ h, h < p → dest[m' * p + h]? = (full.set pos y)[i * p + h]? := by
        intro i m' hm' hk' h hh
        rw [List.getElem?_set]
        have hc : ¬ pos = i * p + h := by
          intro e
          have e' : pos / p * p + pos % p = i * p + h := by rw [hpos_eq]; exact e
          obtain ⟨e1, _⟩ := (slot_eq_iff hmod hh).1 e'
          rw [e1, hm'] at hm
          exact hk' ((Option.some.inj hm).trans habs)
        rw [if_neg hc]
        exact hinv i m' hm' hk' h hh
      obtain ⟨dr, hdr, hlen, hres⟩ := ih (u64 (pos + 1)) (full.set pos y) dest fr
        (by simpa using hfl) hdl hstep hrun
      refine ⟨dr, ?_, hlen, hres⟩
      simp only [decode_loop, store_al_subset, hp0, if_false, ← hpos, hm, habs, ne_eq,
        not_true_eq_false]
      exact hdr

/-- The ploidy field of a payload the writer produced fits 32 bits, and the writer has at
least one sample. -/
theorem write_genotypes_some (data_format : fmt) (s : Nat) (v : List fval)
    (payload : genotype_payload) (hw : write_genotypes data_format s v = some payload) :
    1 ≤ s ∧ payload.ploidy < 2 ^ 32 := by
  have hs : s ≠ 0 := by
    intro h0
    subst h0
    unfold write_genotypes write_hap_dosages write_alleles at hw
    simp at hw
  refine ⟨by omega, ?_⟩
  unfold write_genotypes write_hap_dosages write_alleles at hw
  by_cases hf : data_format = fmt.haplotype_dosage
  · rw [if_pos hf, if_neg hs] at hw
    have := Option.some.inj hw
    rw [← this]
    exact Nat.mod_lt _ (by norm_num)
  · rw [if_neg hf, if_neg hs] at hw
    have := Option.some.inj hw
    rw [← this]
    exact Nat.mod_lt _ (by norm_num)

/-- C9: for every genotype payload of ploidy `p ≥ 1` that the writer produces (allele or
haplotype-dosage file format) for `s` samples, from a vector of `s * p` entries (source
and destination of fewer than `2 ^ 64` entries, as every `std::vector`), and every subset
map with one entry per file sample whose kept entries are distinct new
indices below `subset_size`, `read_genotypes_al` (reached through `read_genotypes` with
allele format requested) with the subset configured succeeds, returns a vector of length
`subset_size * p`, and agrees with the decode without subset on the kept samples:
`dest[map[i] * p + h] = full[i * p + h]` for every kept sample `i` and `h < p`. With
samples A, B, C, D, ploidy 2, vector `[0,1,1,0,0,0,1,1]` and subset {B, D} the result
is `[1,0,1,1]`. -/
theorem read_genotypes_al_subset :
    (∀ (data_format : fmt) (s p subset_size : Nat) (v dest0 : List fval)
        (subset_map : List Nat) (payload : genotype_payload),
      (data_format = fmt.allele ∨ data_format = fmt.haplotype_dosage) →
      1 ≤ p → v.length = s * p → v.length < 2 ^ 64 →
      write_genotypes data_format s v = some payload → payload.ploidy = p →
      subset_map.length = s →
      (∀ (i m : Nat), subset_map[i]? = some m → m ≠ absent → m < subset_size) →
      (∀ (i j m : Nat), subset_map[i]? = some m → subset_map[j]? = some m →
        m ≠ absent → i = j) →
      subset_size * p < 2 ^ 64 →
      ∃ full dest,
        read_genotypes (plain_reader s data_format fmt.allele) payload dest0 = some full ∧
        read_genotypes (subset_reader s subset_map subset_size data_format fmt.allele)
          payload dest0 = some dest ∧
        full.length = s * p ∧
        dest.length = subset_size * p ∧
        ∀ (i m : Nat), subset_map[i]? = some m → m ≠ absent →
          ∀ h, h < p → dest[m * p + h]? = full[i * p + h]?) ∧
    (write_genotypes fmt.allele 4
        [fval.num 0, fval.num 1, fval.num 1, fval.num 0,
         fval.num 0, fval.num 0, fval.num 1, fval.num 1]
        = some ⟨2, 4, [(1, 1), (1, 0), (1, 3), (1, 0)]⟩ ∧
      read_genotypes (subset_reader 4 [absent, 0, absent, 1] 2 fmt.allele fmt.allele)
        ⟨2, 4, [(1, 1), (1, 0), (1, 3), (1, 0)]⟩ []
        = some [fval.num 1, fval.num 0, fval.num 1, fval.num 1]) := by
  constructor
  · intro data_format s p subset_size v dest0 subset_map payload hf hp1 hlen hsize hw0 hpl0
      hmap hbound hinj hss
    obtain ⟨hs, hp⟩ := write_genotypes_some data_format s v payload hw0
    rw [hpl0] at hp
    obtain ⟨payload', hw, hpl, hpairs, hsz, hread⟩ :=
      read_al_write_genotypes data_format s p v dest0 hf hs hp hlen hsize
    have hpe : payload' = payload := by
      rw [hw] at hw0; exact Option.some.inj hw0
    subst hpe
    have hbw : (if data_format = fmt.allele then 1 else 7)
        = (if data_format = fmt.haplotype_dosage then 7 else 1) := by
      rcases hf with h | h <;> simp [h]
    have hsp : s * p < 2 ^ 64 := by rw [← hlen]; exact hsize
    have hfull : decode_loop (if data_format = fmt.haplotype_dosage then 7 else 1) fval.nan
        (store_al (if data_format = fmt.haplotype_dosage then 7 else 1))
        (payload'.pairs.take payload'.sz) 0 (List.replicate (s * p) (fval.num 0))
        = some (v.map (al_roundtrip (if data_format = fmt.haplotype_dosage then 7 else 1))) := by
      have h := hread
      simp only [read_genotypes, plain_reader, resize_zero, if_true, read_genotypes_al,
        List.length_nil, ne_eq, not_true_eq_false, if_false, hbw, hpl, resize_nil] at h
      rwa [u64_of_lt hsp] at h
    have hinit : ∀ (i m : Nat), subset_map[i]? = some m → m ≠ absent →
        ∀ h, h < p → (List.replicate (subset_size * p) (fval.num 0))[m * p + h]?
          = (List.replicate (s * p) (fval.num 0))[i * p + h]? := by
      intro i m hm hk h hh
      have hi : i < s := by
        rw [← hmap]
        exact (List.getElem?_eq_some_iff.1 hm).1
      have hmb : m < subset_size := hbound i m hm hk
      have h1 : m * p + h < subset_size * p := by
        have : (m + 1) * p ≤ subset_size * p := Nat.mul_le_mul_right p hmb
        have h2 : (m + 1) * p = m * p + p := by ring
        omega
      have h3 : i * p + h < s * p := by
        have : (i + 1) * p ≤ s * p := Nat.mul_le_mul_right p hi
        have h2 : (i + 1) * p = i * p + p := by ring
        omega
      rw [List.getElem?_replicate, List.getElem?_replicate, if_pos h1, if_pos h3]
    obtain ⟨dest, hdest, hdlen, hagree⟩ :=
      subset_follows_full (if data_format = fmt.haplotype_dosage then 7 else 1) subset_map p
        subset_size (by omega) hbound hinj hss (payload'.pairs.take payload'.sz) 0
        (List.replicate (s * p) (fval.num 0)) (List.replicate (subset_size * p) (fval.num 0))
        _ (by simp [hmap]) (by simp) hinit hfull
    refine ⟨_, dest, hread, ?_, by simp [hlen], hdlen, hagree⟩
    have hne : subset_map.length ≠ 0 := by omega
    simp only [read_genotypes, subset_reader, resize_zero, if_true, read_genotypes_al,
      ne_eq, hne, not_false_eq_true, hbw, hpl, resize_nil]
    rw [u64_of_lt hss]
    exact hdest
  · exact ⟨by decide, by decide⟩

/-- C9, on four samples of ploidy 2 with the subset that keeps the second and the fourth
sample. -/
theorem read_genotypes_al_subset_witness :
    ∃ full dest,
      read_genotypes (plain_reader 4 fmt.allele fmt.allele)
        ⟨2, 4, [(1, 1), (1, 0), (1, 3), (1, 0)]⟩ [] = some full ∧
      read_genotypes (subset_reader 4 [absent, 0, absent, 1] 2 fmt.allele fmt.allele)
        ⟨2, 4, [(1, 1), (1, 0), (1, 3), (1, 0)]⟩ [] = some dest ∧
      full.length = 4 * 2 ∧
      dest.length = 2 * 2 ∧
      ∀ (i m : Nat), [absent, 0, absent, 1][i]? = some m → m ≠ absent →
        ∀ h, h < 2 → dest[m * 2 + h]? = full[i * 2 + h]? :=
  read_genotypes_al_subset.1 fmt.allele 4 2 2
    [fval.num 0, fval.num 1, fval.num 1, fval.num 0,
     fval.num 0, fval.num 0, fval.num 1, fval.num 1] [] [absent, 0, absent, 1]
    ⟨2, 4, [(1, 1), (1, 0), (1, 3), (1, 0)]⟩
    (Or.inl rfl) (by decide) (by decide) (by decide) (by decide) (by decide) (by decide)
    (by
      intro i m hm hk
      match i, hm with
      | 0, hm => simp at hm; exact absurd hm.symm hk
      | 1, hm => simp at hm; omega
      | 2, hm => simp at hm; exact absurd hm.symm hk
      | 3, hm => simp at hm; omega
      | n + 4, hm => simp at hm)
    (by
      intro i j m hi hj hk
      match i, j, hi, hj with
      | 0, _, hi, _ => simp at hi; exact absurd hi.symm hk
      | 2, _, hi, _ => simp at hi; exact absurd hi.symm hk
      | _, 0, _, hj => simp at hj; exact absurd hj.symm hk
      | _, 2, _, hj => simp at hj; exact absurd hj.symm hk
      | 1, 1, _, _ => rfl
      | 3, 3, _, _ => rfl
      | 1, 3, hi, hj => simp at hi hj; omega
      | 3, 1, hi, hj => simp at hi hj; omega
      | n + 4, _, hi, _ => simp at hi
      | _, n + 4, _, hj => simp at hj)
    (by decide)

end sav
end savvy

namespace savvy
namespace sav

theorem multiplier_seven : multiplier 7 = 128 := by decide

theorem wrap_signed_eight_of_range (z : ℤ) (h0 : -128 ≤ z) (h1 : z ≤ 127) :
    wrap_signed 8 z = z := by
  unfold wrap_signed
  norm_num
  rw [Int.emod_eq_of_lt (by omega) (by omega)]
  ring

theorem wrap_unsigned_eight_of_range (z : ℤ) (h0 : 0 ≤ z) (h1 : z ≤ 255) :
    wrap_unsigned 8 z = z.toNat := by
  unfold wrap_unsigned
  norm_num
  rw [Int.emod_eq_of_lt (by omega) (by omega)]

/-- The HDS code of a dosage: decoding the code `r - 1 ≥ 0` gives `r / 128`. -/
theorem allele_decoder_decode_seven (r : ℤ) (h1 : 1 ≤ r) (h2 : r ≤ 128) :
    allele_decoder_decode 7 fval.nan (prefixed_varint_encode 7 (wrap_unsigned 8 (r - 1)) 0).1
      = fval.num ((r : ℚ) / 128) := by
  have hu := wrap_unsigned_eight_of_range (r - 1) (by omega) (by omega)
  have hcast : (((r - 1).toNat : ℕ) : ℚ) = (r : ℚ) - 1 := by
    have h : (((r - 1).toNat : ℕ) : ℤ) = r - 1 := Int.toNat_of_nonneg (by omega)
    have h2 := congrArg (fun z : ℤ => (z : ℚ)) h
    simpa using h2
  simp only [allele_decoder_decode, prefixed_varint_encode, hu, hcast, multiplier_seven]
  congr 1
  push_cast
  ring

/-- The HDS read-back of a dosage in `[0, 1]` is the dosage rounded to the nearest
multiple of 1/128 (halves upwards). -/
theorem hds_roundtrip_eq (x : ℚ) (h0 : 0 ≤ x) (h1 : x ≤ 1) :
    hds_roundtrip (fval.num x) = fval.num ((⌊x * 128 + 1 / 2⌋ : ℤ) / 128) := by
  have hr0 : (0 : ℤ) ≤ ⌊x * 128 + 1 / 2⌋ := Int.floor_nonneg.2 (by linarith)
  have hr1 : ⌊x * 128 + 1 / 2⌋ ≤ (128 : ℤ) := by
    have : ⌊x * 128 + 1 / 2⌋ < (129 : ℤ) := by
      rw [Int.floor_lt]; push_cast; linarith
    omega
  have hc : fval.cround (x * 128) = ⌊x * 128 + 1 / 2⌋ := by
    unfold fval.cround
    rw [if_pos (by linarith)]
  generalize ⌊x * 128 + 1 / 2⌋ = r at hr0 hr1 hc
  have henc : allele_encoder_encode 7 (fval.num x) = r - 1 := by
    simp only [allele_encoder_encode, multiplier_seven]
    push_cast
    rw [hc, wrap_signed_eight_of_range (r - 1) (by omega) (by omega)]
  unfold hds_roundtrip
  simp only [henc]
  by_cases hz : r = 0
  · subst hz
    norm_num
  · have hge : r - 1 ≥ 0 := by omega
    rw [if_pos hge]
    exact allele_decoder_decode_seven r (by omega) hr1

/-- C10: for every dosage `x` with `0 ≤ x ≤ 1`, in exact rational arithmetic with
rounding half away from zero, the value `y` obtained by encoding `x` with
`allele_encoder<7>` and decoding the code with `allele_decoder<7>` (`y = 0` when the
encoder omits `x` because its code is negative) satisfies `|x - y| ≤ 1/128`; the dosages
0.5 and 1.0 come back exactly. -/
theorem hds_roundtrip_error (x : ℚ) (h0 : 0 ≤ x) (h1 : x ≤ 1) :
    ∃ y : ℚ, hds_roundtrip (fval.num x) = fval.num y ∧ |x - y| ≤ 1 / 128 ∧
      (x = 1 / 2 ∨ x = 1 → y = x) := by
  refine ⟨(⌊x * 128 + 1 / 2⌋ : ℤ) / 128, hds_roundtrip_eq x h0 h1, ?_, ?_⟩
  · have hfl : ((⌊x * 128 + 1 / 2⌋ : ℤ) : ℚ) ≤ x * 128 + 1 / 2 := Int.floor_le _
    have hfu : x * 128 + 1 / 2 < ((⌊x * 128 + 1 / 2⌋ : ℤ) : ℚ) + 1 := Int.lt_floor_add_one _
    rw [abs_le]
    constructor <;> linarith
  · rintro (rfl | rfl)
    · norm_num
    · norm_num

/-- C10, at the dosage 1/4. -/
theorem hds_roundtrip_error_witness :
    (0 : ℚ) ≤ 1 / 4 ∧ (1 / 4 : ℚ) ≤ 1 ∧
    ∃ y : ℚ, hds_roundtrip (fval.num (1 / 4)) = fval.num y ∧ |1 / 4 - y| ≤ 1 / 128 ∧
      ((1 / 4 : ℚ) = 1 / 2 ∨ (1 / 4 : ℚ) = 1 → y = 1 / 4) :=
  ⟨by norm_num, by norm_num, hds_roundtrip_error (1 / 4) (by norm_num) (by norm_num)⟩

end sav
end savvy

namespace savvy

/-! ## Claims about `compressed_vector` -/

/-- C6 on the code: in a `compressed_vector<int>` of size 10 that stores the single pair
(offset 5, value 7), the mutable `operator[](5)` does not find the stored offset, because
`std::upper_bound` steps past it: it inserts a second pair with offset 5 and returns the
new slot, which holds 0. -/
theorem index_mut_stored_offset_inserts :
    compressed_vector.strictly_increasing (⟨[7], [5], 10⟩ : compressed_vector Int) ∧
    compressed_vector.index_mut (⟨[7], [5], 10⟩ : compressed_vector Int) 5
      = (⟨[7, 0], [5, 5], 10⟩, 1) := by
  constructor
  · simp [compressed_vector.strictly_increasing]
  · decide

/-- C7 on the code: from the empty `compressed_vector<int>`, `resize(10)` followed by two
calls of the mutable `operator[](5)` leaves the offsets `[5, 5]`, which are not strictly
increasing. -/
theorem mutations_store_offset_twice :
    (compressed_vector.apply_mutations (compressed_vector.empty : compressed_vector Int)
        [.resize 10 0, .index 5, .index 5]).offsets_ = [5, 5] ∧
    ¬ compressed_vector.strictly_increasing
        (compressed_vector.apply_mutations (compressed_vector.empty : compressed_vector Int)
          [.resize 10 0, .index 5, .index 5]) := by
  have h : (compressed_vector.apply_mutations
      (compressed_vector.empty : compressed_vector Int)
      [.resize 10 0, .index 5, .index 5]).offsets_ = [5, 5] := by decide
  refine ⟨h, ?_⟩
  unfold compressed_vector.strictly_increasing
  rw [h]
  simp

/-- C8 on the code: in a `compressed_vector<int>` of size 10 that stores the single pair
(offset 5, value 7), the const `operator[](5)` returns 0 and not the stored 7. -/
theorem index_const_stored_offset_zero :
    compressed_vector.strictly_increasing (⟨[7], [5], 10⟩ : compressed_vector Int) ∧
    compressed_vector.index_const (⟨[7], [5], 10⟩ : compressed_vector Int) 5 = 0 := by
  constructor
  · simp [compressed_vector.strictly_increasing]
  · decide

/-! ## Claims about `typed_value` -/

/-- C3 on the code: the `std::vector<int32_t>` `[MISSING, 1]` is stored with the int8
type as `[0x80, 1]`, and `get` into a `std::vector<int32_t>` returns true with the
destination `[-128, 1]`: the sentinel comes back as the number -128, not as the int32
MISSING pattern. -/
theorem get_dense_missing_not_restored :
    typed_value.init_dense typed_value.int32 [typed_value.missing_value typed_value.int32, 1]
      = ⟨typed_value.int8, 0, 2, 0, none, some [-128, 1]⟩ ∧
    typed_value.get typed_value.int32
      (typed_value.init_dense typed_value.int32
        [typed_value.missing_value typed_value.int32, 1]) []
      = some (true, [-128, 1]) ∧
    typed_value.missing_value typed_value.int32 = -2147483648 := by
  refine ⟨?_, ?_, ?_⟩
  · decide
  · decide
  · decide

/-- C5 on the code: for the `std::vector<int16_t>` `[-127]` the chosen value type is int8,
although -127 is below the bound `-(2^7) + 2 = -126` that the claim sets for 8 bits; the
stored byte is the int8 END_OF_VECTOR pattern. -/
theorem init_dense_width_admits_reserved :
    (typed_value.init_dense typed_value.int16 [-127]).val_type_ = typed_value.int8 ∧
    ¬ ((-127 : Int) ≥ -(2 ^ (8 - 1)) + 2) ∧
    (typed_value.init_dense typed_value.int16 [-127]).val_ptr_
      = some [typed_value.end_of_vector_value typed_value.int8] := by
  refine ⟨?_, ?_, ?_⟩
  · decide
  · decide
  · decide

/-! ## Claims about the PBWT -/

set_option maxRecDepth 20000 in
/-- C4 on the code: from the empty state, `pbwt_sort` of the int8 site `[0, 0x80]` (a
reference allele and a MISSING one) indexes `counts` with the negative value -128
converted to `std::size_t`, far outside the vector: the behaviour is undefined and no
sorted site results, while `pbwt_unsort` indexes with the unsigned byte and handles the
same values. -/
theorem pbwt_sort_negative_value_undefined :
    pbwt.pbwt_sort 8 [0, -128] pbwt.init = none ∧
    pbwt.sort_chain 8 [[0, -128]] pbwt.init = none ∧
    to_size_t (-128) = 2 ^ 64 - 128 := by
  refine ⟨?_, ?_, ?_⟩
  · decide
  · decide
  · decide

end savvy

namespace savvy
namespace sav

/-! ## Claims about the HDS codec (continued) -/

/-- C11 fails on the code: a NaN dosage is encoded with the payload 63, the payload of the
dosage 0.5, and the 7-bit decoder returns 0.5 for it; written for one haploid sample in
HDS format and read back as haplotype dosages, the NaN comes back as 0.5. -/
theorem hds_nan_counterexample :
    allele_encoder_encode 7 fval.nan = 63 ∧
    allele_encoder_encode 7 (fval.num (1 / 2)) = 63 ∧
    allele_decoder_decode 7 fval.nan 63 = fval.num (1 / 2) ∧
    hds_roundtrip fval.nan = fval.num (1 / 2) ∧
    write_hap_dosages 1 [fval.nan] = some ⟨1, 1, [(63, 0)]⟩ ∧
    read_genotypes (plain_reader 1 fmt.haplotype_dosage fmt.haplotype_dosage)
      ⟨1, 1, [(63, 0)]⟩ [] = some [fval.num (1 / 2)] ∧
    fval.num (1 / 2) ≠ fval.nan := by
  have hm : multiplier 7 = 128 := by decide
  have e1 : allele_encoder_encode 7 fval.nan = 63 := by
    simp only [allele_encoder_encode, hm, fval.cround, wrap_signed]
    norm_num
  have e2 : allele_encoder_encode 7 (fval.num (1 / 2)) = 63 := by
    simp only [allele_encoder_encode, hm, fval.cround, wrap_signed]
    norm_num
  have d1 : allele_decoder_decode 7 fval.nan 63 = fval.num (1 / 2) := by
    simp only [allele_decoder_decode, hm]
    norm_num
  have hw : wrap_unsigned 8 63 = 63 := by decide
  have hf : (List.filter (fun x => decide (allele_encoder_encode 7 x ≥ 0)) [fval.nan]).length
      = 1 := by
    simp [List.filter, e1]
  refine ⟨e1, e2, d1, ?_, ?_, ?_, by simp⟩
  · simp only [hds_roundtrip, e1, prefixed_varint_encode, hw]
    simpa using d1
  · have hu : u64 (0 + 2 ^ 64 - 0) = 0 := by decide
    have hp : ((1 / 1) &&& 0xFFFFFFFF) % 2 ^ 32 = 1 := by decide
    simp only [write_hap_dosages, serialize_alleles, serialize_alleles_from, e1,
      prefixed_varint_encode, hw, hf, List.length_singleton, hu, hp]
    simp
  · have h1 : (fmt.haplotype_dosage = fmt.allele) = False := by simp
    have h2 : (fmt.haplotype_dosage = fmt.genotype) = False := by simp
    have h3 : (fmt.haplotype_dosage = fmt.dosage) = False := by simp
    have hu0 : u64 (0 + 0) = 0 := by decide
    have hu1 : u64 (1 * 1) = 1 := by decide
    simp only [read_genotypes, plain_reader, h1, h2, h3, if_false, if_true,
      read_genotypes_hds, List.length_nil, ne_eq, not_true_eq_false, resize, decode_loop,
      store_al, al_value, d1, hu0, hu1, List.take, List.length_replicate, List.take_nil,
      List.nil_append, Nat.sub_zero]
    simp

/-- C11 as amended: a NaN (missing) dosage written in HDS (N=7) format is encoded with the
payload `round(0.5 * 128) - 1 = 63` and decodes to the dosage 0.5 on read-back; the 7-bit
decoder returns `(p + 1) / 128` for every payload `p` and NaN for none. -/
theorem hds_nan_reads_back_half :
    hds_roundtrip fval.nan = fval.num (1 / 2) ∧
    ∀ (missing_value : fval) (p : Nat),
      allele_decoder_decode 7 missing_value p = fval.num (((p : ℚ) + 1) / 128) ∧
      allele_decoder_decode 7 missing_value p ≠ fval.nan := by
  have hm : multiplier 7 = 128 := by decide
  constructor
  · have e1 : allele_encoder_encode 7 fval.nan = 63 := by
      simp only [allele_encoder_encode, hm, fval.cround, wrap_signed]
      norm_num
    have hw : wrap_unsigned 8 63 = 63 := by decide
    simp only [hds_roundtrip, e1, prefixed_varint_encode, hw, allele_decoder_decode, hm]
    norm_num
  · intro mv p
    have h : allele_decoder_decode 7 mv p = fval.num (((p : ℚ) + 1) / 128) := by
      simp only [allele_decoder_decode, hm]
      norm_num
    exact ⟨h, by rw [h]; simp⟩

end sav

/-! ## Claims about `typed_value` (continued) -/

/-- C12 on the code: in the `std::vector<int32_t>` `[-127, 5]` the element -127 is an
ordinary value (neither MISSING nor END_OF_VECTOR of int32), the chosen type is int8, and
the element is stored as `0x81`, the int8 END_OF_VECTOR pattern. -/
theorem init_dense_stores_reserved_pattern :
    typed_value.is_missing typed_value.int32 (-127) = false ∧
    typed_value.is_end_of_vector typed_value.int32 (-127) = false ∧
    typed_value.init_dense typed_value.int32 [-127, 5]
      = ⟨typed_value.int8, 0, 2, 0, none,
          some [typed_value.end_of_vector_value typed_value.int8, 5]⟩ := by
  refine ⟨?_, ?_, ?_⟩
  · decide
  · decide
  · decide

/-- C13: for all signed integer types `T` and `U` among int8, int16, int32 and int64
(type codes 1 to 4), `reserved_transformation<U, T>` maps MISSING(T), the signed minimum
of `T`, to MISSING(U), END_OF_VECTOR(T), the signed minimum plus one, to
END_OF_VECTOR(U), and every other value `x` of `T` to the numeric cast `U(x)`. -/
theorem reserved_transformation_spec (T U : Nat) (hT : 1 ≤ T ∧ T ≤ 4) (hU : 1 ≤ U ∧ U ≤ 4) :
    typed_value.reserved_transformation U T (int_min T) = int_min U ∧
    typed_value.reserved_transformation U T (int_min T + 1) = int_min U + 1 ∧
    ∀ x : Int, int_min T ≤ x → x ≤ int_max T → x ≠ int_min T → x ≠ int_min T + 1 →
      typed_value.reserved_transformation U T x = wrap_signed (type_bits U) x := by
  have hTc : T = 1 ∨ T = 2 ∨ T = 3 ∨ T = 4 := by omega
  have hUc : U = 1 ∨ U = 2 ∨ U = 3 ∨ U = 4 := by omega
  have hmT : typed_value.missing_value T = int_min T := by
    rcases hTc with rfl | rfl | rfl | rfl <;> decide
  have heT : typed_value.end_of_vector_value T = int_min T + 1 := by
    rcases hTc with rfl | rfl | rfl | rfl <;> decide
  have hmU : typed_value.missing_value U = int_min U := by
    rcases hUc with rfl | rfl | rfl | rfl <;> decide
  have heU : typed_value.end_of_vector_value U = int_min U + 1 := by
    rcases hUc with rfl | rfl | rfl | rfl <;> decide
  refine ⟨?_, ?_, ?_⟩
  · simp [typed_value.reserved_transformation, typed_value.is_missing, hmU]
  · have hne : ¬ (int_min T + 1 = int_min T) := by omega
    simp [typed_value.reserved_transformation, typed_value.is_missing,
      typed_value.is_end_of_vector, heT, heU, hne]
  · intro x _ _ h1 h2
    simp [typed_value.reserved_transformation, typed_value.is_missing,
      typed_value.is_end_of_vector, heT, h1, h2]

/-- C13, from int32 to int8 at the value 5. -/
theorem reserved_transformation_spec_witness :
    typed_value.reserved_transformation 1 3 (int_min 3) = int_min 1 ∧
    typed_value.reserved_transformation 1 3 (int_min 3 + 1) = int_min 1 + 1 ∧
    typed_value.reserved_transformation 1 3 5 = wrap_signed (type_bits 1) 5 :=
  ⟨(reserved_transformation_spec 3 1 (by decide) (by decide)).1,
   (reserved_transformation_spec 3 1 (by decide) (by decide)).2.1,
   (reserved_transformation_spec 3 1 (by decide) (by decide)).2.2 5
     (by decide) (by decide) (by decide) (by decide)⟩

end savvy

namespace savvy
namespace sav

/-! ## Claims about the index values -/

/-- The low 16 bits of an index value hold the record count minus one, whatever the file
position. -/
theorem index_value_eq (file_pos n : Nat) (hn : 1 ≤ n) (hn2 : n ≤ 65536) :
    index_value file_pos n = 2 ^ 16 * (file_pos * 2 ^ 16 % 2 ^ 64 / 2 ^ 16) + (n - 1) := by
  unfold index_value
  have h2 : u64 (n + 2 ^ 64 - 1) % 2 ^ 16 = n - 1 := by
    have : n + 2 ^ 64 - 1 = (n - 1) + 2 ^ 64 := by omega
    unfold u64
    rw [this, Nat.add_mod_right, Nat.mod_eq_of_lt (by omega), Nat.mod_eq_of_lt (by omega)]
  have h1 : u64 (file_pos <<< 16) = 2 ^ 16 * (file_pos * 2 ^ 16 % 2 ^ 64 / 2 ^ 16) := by
    unfold u64
    rw [Nat.shiftLeft_eq]
    have hd : (2 : Nat) ^ 16 ∣ file_pos * 2 ^ 16 % 2 ^ 64 := by
      have h64 : (2 : Nat) ^ 64 = 2 ^ 16 * 2 ^ 48 := by norm_num
      rw [h64, Nat.mul_comm file_pos, Nat.mul_mod_mul_left]
      exact Dvd.intro _ rfl
    exact (Nat.mul_div_cancel' hd).symm
  rw [h1, h2, Nat.mul_add_lt_is_or (by omega)]

theorem total_in_block_index_value (file_pos n : Nat) (hn : 1 ≤ n) (hn2 : n ≤ 65536) :
    total_in_block (index_value file_pos n) = n := by
  rw [index_value_eq file_pos n hn hn2]
  unfold total_in_block
  have hmask : (0xFFFF : Nat) = 2 ^ 16 - 1 := by norm_num
  rw [hmask, Nat.land_comm, Nat.and_pow_two_sub_one_eq_mod, Nat.mul_add_mod,
    Nat.mod_eq_of_lt (by omega : n - 1 < 2 ^ 16), Nat.mod_eq_of_lt (by omega),
    Nat.mod_eq_of_lt (by omega)]
  omega

/-- C14: for every file offset `f ≤ 2^48 - 1` and every block record count `n` with
`1 ≤ n ≤ 65,536`, the index value `(f << 16) | uint16(n - 1)` that the writer builds is
decoded by the indexed reader as seek offset `(value >> 16) & 0xFFFFFFFFFFFF = f` and
record count `(value & 0xFFFF) + 1 = n`. -/
theorem index_value_roundtrip (f n : Nat) (hf : f ≤ 2 ^ 48 - 1) (hn : 1 ≤ n)
    (hn2 : n ≤ 65536) :
    seek_offset (index_value f n) = f ∧ total_in_block (index_value f n) = n := by
  refine ⟨?_, total_in_block_index_value f n hn hn2⟩
  rw [index_value_eq f n hn hn2]
  have hlt : f * 2 ^ 16 < 2 ^ 64 := by
    have : f < 2 ^ 48 := by omega
    calc f * 2 ^ 16 < 2 ^ 48 * 2 ^ 16 := Nat.mul_lt_mul_of_pos_right this (by norm_num)
      _ = 2 ^ 64 := by norm_num
  rw [Nat.mod_eq_of_lt hlt, Nat.mul_div_cancel _ (by norm_num : 0 < 2 ^ 16)]
  unfold seek_offset
  have hmask : (0x0000FFFFFFFFFFFF : Nat) = 2 ^ 48 - 1 := by norm_num
  rw [hmask, Nat.and_pow_two_sub_one_eq_mod, Nat.shiftRight_eq_div_pow,
    Nat.mul_add_div (by norm_num : 2 ^ 16 > 0),
    Nat.div_eq_of_lt (by omega : n - 1 < 2 ^ 16), Nat.add_zero]
  exact Nat.mod_eq_of_lt (by omega)

/-- C14, at the file offset 1000 and a full block of 65,536 records. -/
theorem index_value_roundtrip_witness :
    (1000 : Nat) ≤ 2 ^ 48 - 1 ∧ 1 ≤ 65536 ∧
    seek_offset (index_value 1000 65536) = 1000 ∧
    total_in_block (index_value 1000 65536) = 65536 :=
  ⟨by decide, by decide, index_value_roundtrip 1000 65536 (by decide) (by decide) (by decide)⟩

end sav
end savvy

namespace savvy
namespace sav

/-! ## Claims about truncated genotype input -/

/-- The decoding loop keeps the length of the destination when its store statement does. -/
theorem decode_loop_length (BitWidth : Nat) (missing_value : fval)
    (store : Nat → fval → List fval → Option (List fval))
    (hstore : ∀ (t : Nat) (a : fval) (d d1 : List fval), store t a d = some d1 →
      d1.length = d.length)
    (pairs : List (Nat × Nat)) :
    ∀ (total_offset : Nat) (destination result : List fval),
      decode_loop BitWidth missing_value store pairs total_offset destination = some result →
      result.length = destination.length := by
  induction pairs with
  | nil =>
    intro t d r h
    simp only [decode_loop, Option.some.injEq] at h
    rw [← h]
  | cons pr rest ih =>
    intro t d r h
    obtain ⟨a, off⟩ := pr
    simp only [decode_loop] at h
    cases hs : store (u64 (t + off)) (allele_decoder_decode BitWidth missing_value a) d with
    | none => rw [hs] at h; simp at h
    | some d1 =>
      rw [hs] at h
      rw [ih _ _ _ h, hstore _ _ _ _ hs]

theorem store_al_length (BitWidth t : Nat) (a : fval) (d d1 : List fval)
    (h : store_al BitWidth t a d = some d1) : d1.length = d.length := by
  unfold store_al at h
  split at h
  · rw [← Option.some.inj h, List.length_set]
  · simp at h

theorem store_al_subset_length (BitWidth : Nat) (m : List Nat) (p t : Nat) (a : fval)
    (d d1 : List fval) (h : store_al_subset BitWidth m p t a d = some d1) :
    d1.length = d.length := by
  unfold store_al_subset at h
  by_cases hp : p = 0
  · simp [hp] at h
  · simp only [hp, if_false] at h
    cases hm : m[t / p]? with
    | none => simp [hm] at h
    | some new_index =>
      simp only [hm] at h
      by_cases hk : new_index ≠ absent
      · rw [if_pos hk] at h
        by_cases hl : u64 (u64 (new_index * p) + t % p) < d.length
        · simp only [hl, if_true] at h
          rw [← Option.some.inj h, List.length_set]
        · simp [hl] at h
      · rw [if_neg hk] at h
        rw [← Option.some.inj h]

theorem store_sum_length (rounded : Bool) (p t : Nat) (a : fval) (d d1 : List fval)
    (h : store_sum rounded p t a d = some d1) : d1.length = d.length := by
  unfold store_sum at h
  by_cases hp : p = 0
  · simp [hp] at h
  · simp only [hp, if_false] at h
    cases hm : d[t / p]? with
    | none => simp [hm] at h
    | some old =>
      simp only [hm] at h
      rw [← Option.some.inj h, List.length_set]

theorem store_sum_subset_length (rounded : Bool) (m : List Nat) (p t : Nat) (a : fval)
    (d d1 : List fval) (h : store_sum_subset rounded m p t a d = some d1) :
    d1.length = d.length := by
  unfold store_sum_subset at h
  by_cases hp : p = 0
  · simp [hp] at h
  · simp only [hp, if_false] at h
    cases hm : m[t / p]? with
    | none => simp [hm] at h
    | some new_index =>
      simp only [hm] at h
      by_cases hk : new_index ≠ absent
      · rw [if_pos hk] at h
        cases hd : d[new_index]? with
        | none => simp [hd] at h
        | some old =>
          simp only [hd] at h
          rw [← Option.some.inj h, List.length_set]
      · rw [if_neg hk] at h
        rw [← Option.some.inj h]

theorem resize_length (d : List fval) (n : Nat) : (resize d n).length = n := by
  unfold resize
  rw [List.length_append, List.length_take, List.length_replicate]
  omega

/-- A run of the decoding loop over a list of pairs that succeeds also succeeds on every
prefix of that list. -/
theorem decode_loop_prefix (BitWidth : Nat) (missing_value : fval)
    (store : Nat → fval → List fval → Option (List fval)) (l1 l2 : List (Nat × Nat)) :
    ∀ (total_offset : Nat) (destination result : List fval),
      decode_loop BitWidth missing_value store (l1 ++ l2) total_offset destination
        = some result →
      ∃ r1, decode_loop BitWidth missing_value store l1 total_offset destination = some r1 := by
  induction l1 with
  | nil => intro t d r _; exact ⟨d, by simp [decode_loop]⟩
  | cons pr rest ih =>
    intro t d r h
    obtain ⟨a, off⟩ := pr
    simp only [List.cons_append, decode_loop] at h ⊢
    cases hs : store (u64 (t + off)) (allele_decoder_decode BitWidth missing_value a) d with
    | none => rw [hs] at h; simp at h
    | some d1 =>
      rw [hs] at h
      exact ih _ _ _ h

end sav
end savvy

namespace savvy
namespace sav

/-- The loop on the bytes of the input is the decoding loop over the pairs it obtains
from the decoder. -/
theorem read_loop_eq_decode_loop (BitWidth : Nat) (missing_value : fval)
    (store : Nat → fval → List fval → Option (List fval)) :
    ∀ (n : Nat) (input : List Nat) (total_offset : Nat) (destination : List fval),
      read_loop BitWidth missing_value store n input total_offset destination
        = decode_loop BitWidth missing_value store (read_loop_pairs BitWidth n input)
            total_offset destination := by
  intro n
  induction n with
  | zero => intro input t d; simp [read_loop, read_loop_pairs, decode_loop]
  | succ k ih =>
    intro input t d
    cases input with
    | nil => simp [read_loop, read_loop_pairs, decode_loop]
    | cons b rest =>
      simp only [read_loop, read_loop_pairs, decode_loop]
      cases hs : store (u64 (t + (prefixed_varint_decode BitWidth rest).2.2))
          (allele_decoder_decode BitWidth missing_value
            (prefixed_varint_decode BitWidth rest).2.1) d with
      | none => rfl
      | some d1 => exact ih _ _ _

/-- The loop on the bytes of the input keeps the length of the destination when the
statement `store` does. -/
theorem read_loop_length (BitWidth : Nat) (missing_value : fval)
    (store : Nat → fval → List fval → Option (List fval))
    (hstore : ∀ t a d d1, store t a d = some d1 → d1.length = d.length)
    (n : Nat) (input : List Nat) (total_offset : Nat) (destination result : List fval)
    (h : read_loop BitWidth missing_value store n input total_offset destination
      = some result) :
    result.length = destination.length := by
  rw [read_loop_eq_decode_loop] at h
  exact decode_loop_length _ _ _ hstore _ _ _ _ h

/-- On the pairs the serialiser wrote for `xs` from position `dist`, cut after `k` of
them and followed by one more pair whose offset does not exceed that of the pair cut off,
the decoding loop without subset stays inside a destination of `dist + xs.length`
entries. -/
theorem decode_loop_cut_defined (BitWidth M : Nat) (xs : List fval) :
    ∀ (dist last_pos k a o : Nat) (dest : List fval),
      last_pos ≤ dist → dest.length = dist + xs.length → dest.length < 2 ^ 64 →
      k < (serialize_alleles_from BitWidth xs dist last_pos).length →
      o ≤ ((serialize_alleles_from BitWidth xs dist last_pos).getD k (0, 0)).2 →
      ∃ r, decode_loop BitWidth fval.nan (store_al M)
        ((serialize_alleles_from BitWidth xs dist last_pos).take k ++ [(a, o)]) last_pos dest
        = some r := by
  induction xs with
  | nil =>
    intro dist last_pos k a o dest _ _ _ hk _
    simp [serialize_alleles_from] at hk
  | cons x rest ih =>
    intro dist last_pos k a o dest hle hlen hlt hk ho
    simp only [List.length_cons] at hlen
    by_cases hx : allele_encoder_encode BitWidth x ≥ 0
    · have hoff : u64 (dist + 2 ^ 64 - last_pos) = dist - last_pos :=
        u64_sub_of_le hle (by omega)
      have hnext : u64 (dist + 1) = dist + 1 := u64_of_lt (by omega)
      simp only [serialize_alleles_from, hx, if_true, prefixed_varint_encode, hoff, hnext]
        at hk ho ⊢
      cases k with
      | zero =>
        simp only [List.getD_cons_zero] at ho
        have htot : u64 (last_pos + o) = last_pos + o := u64_of_lt (by omega)
        have hin : last_pos + o < dest.length := by omega
        simp only [List.take_zero, List.nil_append, decode_loop, htot, store_al, hin, if_true]
        exact ⟨_, rfl⟩
      | succ j =>
        simp only [List.getD_cons_succ] at ho
        simp only [List.length_cons, Nat.add_lt_add_iff_right] at hk
        have htot : u64 (last_pos + (dist - last_pos)) = dist := by
          rw [u64_of_lt (by omega)]; omega
        have hin : dist < dest.length := by omega
        simp only [List.take_succ_cons, List.cons_append, decode_loop, htot, store_al, hin,
          if_true, hnext]
        exact ih (dist + 1) (dist + 1) j a o _ (le_refl _)
          (by rw [List.length_set]; omega) (by rw [List.length_set]; exact hlt) hk ho
    · simp only [serialize_alleles_from, hx, if_false] at hk ho ⊢
      exact ih (dist + 1) last_pos k a o dest (by omega) (by omega) hlt hk ho

/-- The length of the destination after `read_genotypes` on the bytes of the input, once
the ploidy has been read, for each of the four supported requested formats. -/
theorem read_genotypes_bytes_length (r : reader_base) (input : List Nat)
    (destination result : List fval) (hp : (varint_decode input).1 ≠ [])
    (hfmt : r.requested_data_format_ = fmt.allele ∨ r.requested_data_format_ = fmt.genotype ∨
      r.requested_data_format_ = fmt.dosage ∨ r.requested_data_format_ = fmt.haplotype_dosage)
    (h : r.read_genotypes input destination = some result) :
    result.length = r.resized_length (varint_decode input).2 := by
  unfold reader_base.read_genotypes at h
  unfold reader_base.resized_length
  rcases hfmt with hf | hf | hf | hf
  · simp only [hf, if_true] at h
    unfold reader_base.read_genotypes_al at h
    simp only [hp, if_false] at h
    by_cases hs : r.subset_map_.length ≠ 0
    · rw [if_pos hs] at h
      rw [read_loop_length _ _ _ (store_al_subset_length _ _ _) _ _ _ _ _ h, resize_length]
      simp [hf, hs]
    · rw [if_neg hs] at h
      rw [read_loop_length _ _ _ (store_al_length _) _ _ _ _ _ h, resize_length]
      simp [hf, hs]
  · have h1 : ¬ fmt.genotype = fmt.allele := by decide
    have h2 : ¬ fmt.genotype = fmt.haplotype_dosage := by decide
    simp only [hf, h1, if_false, if_true] at h
    unfold reader_base.read_genotypes_gt at h
    simp only [hp, if_false] at h
    by_cases hs : r.subset_map_.length ≠ 0
    · rw [if_pos hs] at h
      rw [read_loop_length _ _ _ (store_sum_subset_length _ _ _) _ _ _ _ _ h, resize_length]
      simp [hf, hs]
    · rw [if_neg hs] at h
      rw [read_loop_length _ _ _ (store_sum_length _ _) _ _ _ _ _ h, resize_length]
      simp [hf, hs]
  · have h1 : ¬ fmt.dosage = fmt.allele := by decide
    have h2 : ¬ fmt.dosage = fmt.genotype := by decide
    simp only [hf, h1, h2, if_false, if_true] at h
    unfold reader_base.read_genotypes_ds at h
    simp only [hp, if_false] at h
    by_cases hs : r.subset_map_.length ≠ 0
    · rw [if_pos hs] at h
      rw [read_loop_length _ _ _ (store_sum_subset_length _ _ _) _ _ _ _ _ h, resize_length]
      simp [hf, hs]
    · rw [if_neg hs] at h
      rw [read_loop_length _ _ _ (store_sum_length _ _) _ _ _ _ _ h, resize_length]
      simp [hf, hs]
  · have h1 : ¬ fmt.haplotype_dosage = fmt.allele := by decide
    have h2 : ¬ fmt.haplotype_dosage = fmt.genotype := by decide
    have h3 : ¬ fmt.haplotype_dosage = fmt.dosage := by decide
    simp only [hf, h1, h2, h3, if_false, if_true] at h
    unfold reader_base.read_genotypes_hds at h
    simp only [hp, if_false] at h
    by_cases hs : r.subset_map_.length ≠ 0
    · rw [if_pos hs] at h
      rw [read_loop_length _ _ _ (store_al_subset_length _ _ _) _ _ _ _ _ h, resize_length]
      simp [hf, hs]
    · rw [if_neg hs] at h
      rw [read_loop_length _ _ _ (store_al_length _) _ _ _ _ _ h, resize_length]
      simp [hf, hs]

/-- When the input ends within the ploidy field, `read_genotypes` on the bytes of the
input sets the bad bit and leaves the destination empty. -/
theorem read_genotypes_bytes_no_ploidy (r : reader_base) (input : List Nat)
    (destination : List fval) (hp : (varint_decode input).1 = []) :
    r.read_genotypes input destination = some [] := by
  unfold reader_base.read_genotypes reader_base.read_genotypes_al
    reader_base.read_genotypes_gt reader_base.read_genotypes_ds
    reader_base.read_genotypes_hds
  simp only [hp, if_true, resize_zero]
  split_ifs <;> rfl

/-- The two descriptions of `read_genotypes` agree on a complete record: when the
decoders read the ploidy, the nonzero count and the `sz` pairs of the genotype part
`payload` from the bytes of the input, `read_genotypes` on the bytes gives what
`read_genotypes` on `payload` gives. -/
theorem read_genotypes_bytes_eq (r : reader_base) (input : List Nat)
    (payload : genotype_payload) (destination : List fval)
    (hin : (varint_decode input).1 ≠ [])
    (hpl : (varint_decode input).2 = payload.ploidy)
    (hsz : (varint_decode (varint_decode input).1.tail).2 = payload.sz)
    (hdec : read_loop_pairs (if r.file_data_format_ = fmt.allele then 1 else 7) payload.sz
      (varint_decode (varint_decode input).1.tail).1 = payload.pairs.take payload.sz) :
    r.read_genotypes input destination = read_genotypes r payload destination := by
  simp only [reader_base.read_genotypes, reader_base.read_genotypes_al,
    reader_base.read_genotypes_gt, reader_base.read_genotypes_ds,
    reader_base.read_genotypes_hds, read_genotypes, read_genotypes_al, read_genotypes_gt,
    read_genotypes_ds, read_genotypes_hds, hin, if_false, hpl, hsz,
    read_loop_eq_decode_loop, hdec]

/-- C19 fails on the code: for one sample of an allele-format file, take the input
`[2, 2, 1]`: ploidy 2, nonzero count 2, and the single pair (code 1, offset 0), after
which the input ends. The loop decodes that pair, runs once more on the exhausted input
and returns; the destination then has its full decode length in all four requested
formats (`[1, NaN]` per haplotype, `[NaN]` per sample), never length 0. On the input
`[2, 2, 0x81]`, which ends inside the first pair, the allele decode leaves `[1, 0]`. -/
theorem read_genotypes_truncated_counterexample :
    varint_decode [2, 2, 1] = ([2, 2, 1], 2) ∧
    varint_decode [2, 1] = ([2, 1], 2) ∧
    prefixed_varint_decode 1 [1] = ([1], 1, 0) ∧
    read_loop_input 1 2 [2, 1] = [] ∧
    (plain_reader 1 fmt.allele fmt.allele).read_genotypes [2, 2, 1] []
      = some [fval.num 1, fval.nan] ∧
    (plain_reader 1 fmt.allele fmt.haplotype_dosage).read_genotypes [2, 2, 1] []
      = some [fval.num 1, fval.nan] ∧
    (plain_reader 1 fmt.allele fmt.genotype).read_genotypes [2, 2, 1] [] = some [fval.nan] ∧
    (plain_reader 1 fmt.allele fmt.dosage).read_genotypes [2, 2, 1] [] = some [fval.nan] ∧
    read_loop_input 1 2 [2, 0x81] = [] ∧
    (plain_reader 1 fmt.allele fmt.allele).read_genotypes [2, 2, 0x81] []
      = some [fval.num 1, fval.num 0] := by
  refine ⟨by decide, by decide, by decide, by decide, by decide, by decide, by decide,
    by decide, by decide, by decide⟩

/-- C19 as amended: `read_genotypes` on an input that ends early leaves the destination
at the length its decoder resized it to, and empty only when no decoder got that far.
First, for every reader,
input and requested format among allele, genotype, dosage and haplotype dosage: once the
ploidy has been read, the destination that `read_genotypes` returns has the length the
decoder gave it before its loop, whether or not the input ends before the nonzero count
is reached: sample count (or subset size) times ploidy for the per-haplotype formats,
sample count (or subset size) for the per-sample formats. Second, when the input ends
within the ploidy field the destination is empty, and so it is when the requested format
is the unsupported `genotype_probability`. Third, `read_genotypes` does return on a cut
payload of the writer: take a payload that the writer produced (`s ≥ 1` samples,
ploidy below `2 ^ 32`) and an input on which the decoders read its ploidy, its nonzero
count, its first `k` pairs and then one more pair whose offset does not exceed that of
pair `k` (what the decoder forms when the input ends before or inside pair `k`); read in
allele format without subset, the decode is defined and has `s * ploidy` entries. -/
theorem read_genotypes_truncated_length :
    (∀ (r : reader_base) (input : List Nat) (destination result : List fval),
      (varint_decode input).1 ≠ [] →
      (r.requested_data_format_ = fmt.allele ∨ r.requested_data_format_ = fmt.genotype ∨
        r.requested_data_format_ = fmt.dosage ∨
        r.requested_data_format_ = fmt.haplotype_dosage) →
      r.read_genotypes input destination = some result →
      result.length = r.resized_length (varint_decode input).2) ∧
    (∀ (r : reader_base) (input : List Nat) (destination : List fval),
      ((varint_decode input).1 = [] ∨ r.requested_data_format_ = fmt.genotype_probability) →
      r.read_genotypes input destination = some []) ∧
    (∀ (data_format : fmt) (s ploidy k a o : Nat) (v destination : List fval)
        (payload : genotype_payload) (input : List Nat),
      (data_format = fmt.allele ∨ data_format = fmt.haplotype_dosage) →
      1 ≤ s → ploidy < 2 ^ 32 → v.length = s * ploidy → v.length < 2 ^ 64 →
      write_genotypes data_format s v = some payload → k < payload.sz →
      (varint_decode input).1 ≠ [] →
      (varint_decode input).2 = payload.ploidy →
      (varint_decode (varint_decode input).1.tail).2 = payload.sz →
      read_loop_pairs (if data_format = fmt.allele then 1 else 7) payload.sz
        (varint_decode (varint_decode input).1.tail).1 = payload.pairs.take k ++ [(a, o)] →
      o ≤ (payload.pairs.getD k (0, 0)).2 →
      ∃ result,
        (plain_reader s data_format fmt.allele).read_genotypes input destination
          = some result ∧
        result.length = s * ploidy) := by
  refine ⟨?_, ?_, ?_⟩
  · intro r input destination result hp hfmt h
    exact read_genotypes_bytes_length r input destination result hp hfmt h
  · intro r input destination hp
    rcases hp with hp | hp
    · exact read_genotypes_bytes_no_ploidy r input destination hp
    · simp [reader_base.read_genotypes, hp, resize_zero]
  · intro data_format s ploidy k a o v destination payload input hf hs hp hlen hsize hw hk
      hin hpl hsz hdec ho
    obtain ⟨payload1, hw1, hpl1, hpairs, hsz1⟩ :=
      write_genotypes_eq data_format s ploidy v hs hp hlen
    have hpe : payload1 = payload := by
      rw [hw1] at hw; exact Option.some.inj hw
    subst hpe
    have hbw : (if data_format = fmt.allele then 1 else 7)
        = (if data_format = fmt.haplotype_dosage then 7 else 1) := by
      rcases hf with h | h <;> simp [h]
    have hsp : s * ploidy < 2 ^ 64 := by rw [← hlen]; exact hsize
    rw [hsz1] at hk
    rw [hpairs, serialize_alleles] at hk ho hdec
    obtain ⟨r1, hr1⟩ := decode_loop_cut_defined
      (if data_format = fmt.haplotype_dosage then 7 else 1)
      (if data_format = fmt.haplotype_dosage then 7 else 1) v 0 0 k a o
      (List.replicate (s * ploidy) (fval.num 0)) (le_refl _)
      (by rw [List.length_replicate, hlen]; omega)
      (by rw [List.length_replicate]; exact hsp) hk ho
    refine ⟨r1, ?_, ?_⟩
    · simp only [reader_base.read_genotypes, plain_reader, resize_zero, if_true,
        reader_base.read_genotypes_al, hin, if_false, List.length_nil, ne_eq,
        not_true_eq_false, hpl, hpl1, hsz, resize_nil, read_loop_eq_decode_loop, hdec]
      rw [u64_of_lt hsp, hbw]
      exact hr1
    · rw [decode_loop_length _ _ _ (store_al_length _) _ _ _ _ hr1, List.length_replicate]

/-- C19 as amended, for one sample of ploidy 2 on the input `[2, 2, 1]`, which ends after
the first of the two pairs that the writer produced for `[1, 1]`. -/
theorem read_genotypes_truncated_length_witness :
    ([fval.num 1, fval.nan] : List fval).length
      = (plain_reader 1 fmt.allele fmt.allele).resized_length (varint_decode [2, 2, 1]).2 ∧
    ∃ result,
      (plain_reader 1 fmt.allele fmt.allele).read_genotypes [2, 2, 1] [] = some result ∧
      result.length = 1 * 2 :=
  ⟨read_genotypes_truncated_length.1 (plain_reader 1 fmt.allele fmt.allele) [2, 2, 1] []
     [fval.num 1, fval.nan] (by decide) (Or.inl rfl) (by decide),
   read_genotypes_truncated_length.2.2 fmt.allele 1 2 1 0 0 [fval.num 1, fval.num 1] []
     ⟨2, 2, [(1, 0), (1, 0)]⟩ [2, 2, 1] (Or.inl rfl) (by decide) (by decide) (by decide)
     (by decide) (by decide) (by decide) (by decide) (by decide) (by decide) (by decide)
     (by decide)⟩

end sav
end savvy

namespace savvy
namespace sav

/-! ## Claims about the block writer -/

theorem write_genotypes_isSome (data_format : fmt) (s : Nat) (data : List fval) (hs : s ≠ 0) :
    ∃ genotypes, write_genotypes data_format s data = some genotypes := by
  unfold write_genotypes write_hap_dosages write_alleles
  by_cases hf : data_format = fmt.haplotype_dosage
  · rw [if_pos hf, if_neg hs]; exact ⟨_, rfl⟩
  · rw [if_neg hf, if_neg hs]; exact ⟨_, rfl⟩

theorem good_failbit (w : writer) (hg : w.good = true) : w.failbit = false := by
  unfold writer.good at hg
  cases hfb : w.failbit
  · rfl
  · rw [hfb] at hg; simp at hg

theorem good_badbit (w : writer) (hg : w.good = true) : w.badbit = false := by
  unfold writer.good at hg
  cases hbb : w.badbit
  · rfl
  · rw [hbb] at hg; simp at hg

/-- The writer that a `write` call with matching data size leaves: the open block closed
first when `needs_flush` holds, then the record appended. -/
theorem write_eq_of_multiple (w : writer) (file_pos : Nat) (annotations : site_info)
    (data : List fval) (hg : w.good = true) (hs : w.sample_size_ ≠ 0)
    (hm : data.length % w.sample_size_ = 0) :
    ∃ genotypes,
      w.write file_pos annotations data
        = some ((if w.needs_flush annotations then w.flush_block file_pos annotations
            else w).append_record annotations genotypes) := by
  have hsz : (if w.needs_flush annotations then w.flush_block file_pos annotations
      else w).sample_size_ = w.sample_size_ := by
    by_cases hn : w.needs_flush annotations = true
    · rw [if_pos hn]
      unfold writer.flush_block
      cases w.index_file_ with
      | none => rfl
      | some ix =>
        by_cases hr : w.record_count_in_block_ ≠ 0
        · simp only [hr, if_true, ne_eq, not_false_eq_true]
        · simp only [hr, if_false]
    · rw [if_neg hn]
  obtain ⟨g, hgeno⟩ := write_genotypes_isSome
    (if w.needs_flush annotations then w.flush_block file_pos annotations else w).data_format_
    w.sample_size_ data hs
  refine ⟨g, ?_⟩
  unfold writer.write
  rw [if_pos hg, if_neg hs, if_neg (by simpa using hm)]
  simp only [hsz, hgeno]

end sav
end savvy

namespace savvy
namespace sav

/-! ## The writer invariant -/

theorem frames_append_one (out : List output_item) (x : output_item) :
    frames (out ++ [x]) = frames_step (frames out) x := by
  simp [frames, List.foldl_append]

theorem open_block_append_flush (out : List output_item) :
    open_block (out ++ [output_item.flush]) = [] := by
  simp [open_block, frames_append_one, frames_step]

theorem closed_blocks_append_flush (out : List output_item) :
    closed_blocks (out ++ [output_item.flush])
      = if open_block out = [] then closed_blocks out
        else closed_blocks out ++ [open_block out] := by
  simp [closed_blocks, open_block, frames_append_one, frames_step]

theorem open_block_append_record (out : List output_item) (a : site_info) (info : List String)
    (g : genotype_payload) :
    open_block (out ++ [output_item.record a info g]) = open_block out ++ [a] := by
  simp [open_block, frames_append_one, frames_step]

theorem closed_blocks_append_record (out : List output_item) (a : site_info)
    (info : List String) (g : genotype_payload) :
    closed_blocks (out ++ [output_item.record a info g]) = closed_blocks out := by
  simp [closed_blocks, frames_append_one, frames_step]

theorem written_sites_append (l1 l2 : List output_item) :
    written_sites (l1 ++ l2) = written_sites l1 ++ written_sites l2 := by
  induction l1 with
  | nil => rfl
  | cons x rest ih =>
    cases x with
    | preamble h s => simpa [written_sites] using ih
    | record a i g => simp [written_sites, ih]
    | flush => simpa [written_sites] using ih

/-- The closed blocks and the open block, put end to end, are the records written. -/
theorem blocks_join (out : List output_item) :
    (closed_blocks out).flatten ++ open_block out = written_sites out := by
  induction out using List.reverseRecOn with
  | nil => rfl
  | append_singleton l x ih =>
    rw [written_sites_append, ← ih]
    cases x with
    | preamble h s =>
      simp [closed_blocks, open_block, frames_append_one, frames_step, written_sites]
    | record a i g =>
      rw [open_block_append_record, closed_blocks_append_record]
      simp [written_sites]
    | flush =>
      rw [open_block_append_flush, closed_blocks_append_flush]
      by_cases ho : open_block l = []
      · simp [ho, written_sites]
      · simp [ho, written_sites]

theorem all_blocks_join (out : List output_item) :
    (all_blocks out).flatten = written_sites out := by
  rw [← blocks_join]
  unfold all_blocks
  by_cases ho : open_block out = []
  · simp [ho]
  · simp [ho]

theorem block_min_append (run : List site_info) (a : site_info) :
    block_min (run ++ [a]) = min (block_min run) (writer.pos32 a) := by
  simp [block_min, List.foldl_append]

theorem block_max_append (run : List site_info) (a : site_info) :
    block_max (run ++ [a]) = max (block_max run) (writer.span_end32 a) := by
  simp [block_max, List.foldl_append]

/-- The remainder of a count that has advanced by one. -/
theorem succ_mod_cases (c b : Nat) (hb : b ≠ 0) :
    (c + 1) % b = 0 ∨ (c + 1) % b = c % b + 1 := by
  have hlt : c % b < b := Nat.mod_lt _ (by omega)
  by_cases h : c % b + 1 = b
  · left
    have h1 : (c + 1) % b = (c % b + 1) % b := (Nat.mod_add_mod c b 1).symm
    rw [h1, h, Nat.mod_self]
  · right
    have h1 : (c + 1) % b = (c % b + 1) % b := (Nat.mod_add_mod c b 1).symm
    rw [h1, Nat.mod_eq_of_lt (by omega)]

end sav
end savvy

namespace savvy
namespace sav

/-- The data members after `flush_block`. -/
theorem flush_block_fields (w : writer) (file_pos : Nat) (a : site_info) :
    (w.flush_block file_pos a).output_stream_ = w.output_stream_ ++ [output_item.flush] ∧
    (w.flush_block file_pos a).block_size_ = w.block_size_ ∧
    (w.flush_block file_pos a).record_count_ = w.record_count_ ∧
    (w.flush_block file_pos a).record_count_in_block_ = 0 ∧
    (w.flush_block file_pos a).current_block_min_ = 2 ^ 32 - 1 ∧
    (w.flush_block file_pos a).current_block_max_ = 0 ∧
    (w.flush_block file_pos a).current_chromosome_ = a.chromosome ∧
    (w.flush_block file_pos a).failbit = w.failbit ∧
    (w.flush_block file_pos a).index_file_.isSome = w.index_file_.isSome ∧
    (w.flush_block file_pos a).index_entries
      = (if w.index_file_.isSome = true ∧ w.record_count_in_block_ ≠ 0 then
          w.index_entries ++ [(w.current_chromosome_, w.block_entry (u64 file_pos))]
        else w.index_entries) := by
  unfold writer.flush_block writer.index_entries
  cases hix : w.index_file_ with
  | none => simp [hix]
  | some ix =>
    by_cases hr : w.record_count_in_block_ = 0
    · simp [hr, hix]
    · simp [hr, hix, s1r_writer.write]

/-- The data members after `append_record`. -/
theorem append_record_fields (w : writer) (a : site_info) (g : genotype_payload) :
    (w.append_record a g).output_stream_
      = w.output_stream_ ++ [output_item.record a (w.property_fields_.map a.prop) g] ∧
    (w.append_record a g).block_size_ = w.block_size_ ∧
    (w.append_record a g).record_count_ = w.record_count_ + 1 ∧
    (w.append_record a g).record_count_in_block_ = w.record_count_in_block_ + 1 ∧
    (w.append_record a g).current_block_min_ = min w.current_block_min_ (writer.pos32 a) ∧
    (w.append_record a g).current_block_max_ = max w.current_block_max_ (writer.span_end32 a) ∧
    (w.append_record a g).current_chromosome_ = w.current_chromosome_ ∧
    (w.append_record a g).failbit = w.failbit ∧
    (w.append_record a g).badbit = w.badbit ∧
    (w.append_record a g).index_file_ = w.index_file_ ∧
    (w.append_record a g).index_entries = w.index_entries := by
  simp [writer.append_record, writer.index_entries]

/-- The entry built for an open block of the invariant matches that block. -/
theorem block_entry_matches (w : writer) (file_pos : Nat) (hinv : writer_invariant w)
    (hne : w.record_count_in_block_ ≠ 0) :
    entry_matches w.block_size_ (w.current_chromosome_, w.block_entry file_pos)
      (open_block w.output_stream_) := by
  obtain ⟨hbs, hcnt, hmin, hmax, hchr, _⟩ := hinv
  refine ⟨?_, hmin, hmax, ?_⟩
  · intro h0
    rw [h0] at hcnt
    exact hne hcnt
  · intro hb
    obtain ⟨h1, h2, _, _⟩ := hchr hb
    refine ⟨h1, ?_⟩
    show total_in_block (index_value file_pos w.record_count_in_block_) = _
    rw [total_in_block_index_value _ _ (by omega) (by omega), hcnt]

/-- Closing the open block keeps the invariant. -/
theorem flush_block_invariant (w : writer) (file_pos : Nat) (a : site_info)
    (hinv : writer_invariant w) : writer_invariant (w.flush_block file_pos a) := by
  obtain ⟨ho, hb, hc, hr, hmin, hmax, hch, _, hsome, hent⟩ := flush_block_fields w file_pos a
  have hinv0 := hinv
  obtain ⟨hbs, hcnt, _, _, hchr, hfor⟩ := hinv
  unfold writer_invariant
  rw [ho, hb, hc, hr, hmin, hmax, hch, hsome, hent, open_block_append_flush,
    closed_blocks_append_flush]
  refine ⟨hbs, rfl, rfl, rfl, ?_, ?_⟩
  · intro hb0
    obtain ⟨h1, _, _, h4⟩ := hchr hb0
    refine ⟨by simp, by omega, fun _ => Nat.zero_le _, ?_⟩
    by_cases hopen : open_block w.output_stream_ = []
    · rw [if_pos hopen]; exact h4
    · rw [if_neg hopen]
      intro run hrun
      rw [List.mem_append] at hrun
      rcases hrun with hrun | hrun
      · exact h4 run hrun
      · rw [List.mem_singleton] at hrun
        subst hrun
        intro x hx y hy
        rw [h1 x hx, h1 y hy]
  · intro his
    have hfor1 := hfor his
    by_cases hopen : open_block w.output_stream_ = []
    · have h0 : w.record_count_in_block_ = 0 := by rw [hcnt, hopen]; rfl
      rw [if_pos hopen, if_neg (by simp [h0])]
      exact hfor1
    · have h0 : w.record_count_in_block_ ≠ 0 := by
        rw [hcnt]
        intro h
        exact hopen (List.length_eq_zero.1 h)
      rw [if_neg hopen, if_pos ⟨his, h0⟩]
      exact List.rel_append hfor1
        (List.Forall₂.cons (block_entry_matches w _ hinv0 h0) List.Forall₂.nil)

/-- Appending a record keeps the invariant, provided the record belongs to the open block:
for a non-zero block size its chromosome is the current one, and the block has just been
opened when the record count is a multiple of the block size. -/
theorem append_record_invariant (w : writer) (a : site_info) (g : genotype_payload)
    (hinv : writer_invariant w)
    (hjoin : w.block_size_ ≠ 0 →
      a.chromosome = w.current_chromosome_ ∧
      (w.record_count_ % w.block_size_ = 0 → w.record_count_in_block_ = 0)) :
    writer_invariant (w.append_record a g) := by
  obtain ⟨ho, hb, hc, hr, hmin, hmax, hch, _, _, hix, hent⟩ := append_record_fields w a g
  obtain ⟨hbs, hcnt, hmn, hmx, hchr, hfor⟩ := hinv
  unfold writer_invariant
  rw [ho, hb, hc, hr, hmin, hmax, hch, hix, hent, open_block_append_record,
    closed_blocks_append_record, block_min_append, block_max_append, ← hmn, ← hmx]
  refine ⟨hbs, by rw [hcnt, List.length_append]; rfl, rfl, rfl, ?_, hfor⟩
  intro hb0
  obtain ⟨h1, h2, h3, h4⟩ := hchr hb0
  obtain ⟨hj1, hj2⟩ := hjoin hb0
  have hlt : w.record_count_ % w.block_size_ < w.block_size_ := Nat.mod_lt _ (by omega)
  refine ⟨?_, ?_, ?_, h4⟩
  · intro x hx
    rw [List.mem_append, List.mem_singleton] at hx
    rcases hx with hx | hx
    · exact h1 x hx
    · rw [hx]; exact hj1
  · by_cases hz : w.record_count_ % w.block_size_ = 0
    · rw [hj2 hz]; omega
    · have := h3 hz; omega
  · intro hnz
    rcases succ_mod_cases w.record_count_ w.block_size_ hb0 with h | h
    · exact absurd h hnz
    · rw [h]
      by_cases hz : w.record_count_ % w.block_size_ = 0
      · rw [hj2 hz]; omega
      · have := h3 hz; omega

theorem needs_flush_false (w : writer) (a : site_info) (h : ¬ w.needs_flush a = true)
    (hb : w.block_size_ ≠ 0) :
    a.chromosome = w.current_chromosome_ ∧ w.record_count_ % w.block_size_ ≠ 0 := by
  unfold writer.needs_flush at h
  simp only [Bool.and_eq_true, bne_iff_ne, ne_eq, Bool.or_eq_true, beq_iff_eq, not_and,
    not_or, not_not] at h
  exact ⟨(h hb).2, (h hb).1⟩

/-- One `write` call keeps the invariant. -/
theorem write_invariant (w w1 : writer) (file_pos : Nat) (a : site_info) (data : List fval)
    (hinv : writer_invariant w) (hw : w.write file_pos a data = some w1) :
    writer_invariant w1 := by
  by_cases hg : w.good = true
  swap
  · unfold writer.write at hw
    rw [if_neg hg] at hw
    rw [← Option.some.inj hw]; exact hinv
  by_cases hs : w.sample_size_ = 0
  · unfold writer.write at hw
    rw [if_pos hg, if_pos hs] at hw
    simp at hw
  by_cases hm : data.length % w.sample_size_ = 0
  swap
  · unfold writer.write at hw
    rw [if_pos hg, if_neg hs, if_pos hm] at hw
    rw [← Option.some.inj hw]
    exact hinv
  obtain ⟨g, hwe⟩ := write_eq_of_multiple w file_pos a data hg hs hm
  rw [hwe] at hw
  rw [← Option.some.inj hw]
  by_cases hn : w.needs_flush a = true
  · rw [if_pos hn]
    apply append_record_invariant _ _ _ (flush_block_invariant w file_pos a hinv)
    intro _
    obtain ⟨_, _, _, hr, _, _, hch, _⟩ := flush_block_fields w file_pos a
    exact ⟨hch.symm, fun _ => hr⟩
  · rw [if_neg hn]
    apply append_record_invariant _ _ _ hinv
    intro hb
    obtain ⟨h1, h2⟩ := needs_flush_false w a hn hb
    exact ⟨h1, fun h => absurd h h2⟩

/-- A sequence of `write` calls keeps the invariant. -/
theorem write_all_invariant (calls : List (Nat × site_info × List fval)) :
    ∀ (w w1 : writer), writer_invariant w → writer.write_all w calls = some w1 →
      writer_invariant w1 := by
  induction calls with
  | nil =>
    intro w w1 hinv h
    simp only [writer.write_all, Option.some.injEq] at h
    rw [← h]; exact hinv
  | cons c rest ih =>
    intro w w1 hinv h
    simp only [writer.write_all] at h
    cases hw : w.write c.1 c.2.1 c.2.2 with
    | none => rw [hw] at h; simp at h
    | some w2 =>
      rw [hw] at h
      exact ih w2 w1 (write_invariant w w2 _ _ _ hinv hw) h

/-- A freshly constructed writer satisfies the invariant. -/
theorem create_invariant (opts : writer_options) (samples : List String)
    (headers : List (String × String)) (data_format : fmt) (parse_header_id : String → String) :
    writer_invariant (writer.create opts samples headers data_format parse_header_id) := by
  unfold writer_invariant writer.create
  refine ⟨Nat.mod_lt _ (by norm_num), rfl, rfl, rfl, ?_, ?_⟩
  · intro _
    refine ⟨?_, Nat.zero_le _, ?_, ?_⟩
    · intro a ha
      simp [open_block, frames, frames_step] at ha
    · intro h
      simp at h
    · intro run hrun
      simp [closed_blocks, frames, frames_step] at hrun
  · intro _
    by_cases hp : opts.index_path.length ≠ 0
    · simp [writer.index_entries, hp, closed_blocks, frames, frames_step]
    · simp [writer.index_entries, hp, closed_blocks, frames, frames_step]

end sav
end savvy

namespace savvy
namespace sav

/-- A `write` call on a writer with at least one sample returns, and keeps the sample
count, the block size and the presence of the index. -/
theorem write_returns (w : writer) (file_pos : Nat) (a : site_info) (data : List fval)
    (hs : w.sample_size_ ≠ 0) :
    ∃ w1, w.write file_pos a data = some w1 ∧ w1.sample_size_ = w.sample_size_ ∧
      w1.block_size_ = w.block_size_ ∧ w1.index_file_.isSome = w.index_file_.isSome := by
  by_cases hg : w.good = true
  swap
  · exact ⟨w, by unfold writer.write; rw [if_neg hg], rfl, rfl, rfl⟩
  by_cases hm : data.length % w.sample_size_ = 0
  swap
  · exact ⟨{ w with failbit := true },
      by unfold writer.write; rw [if_pos hg, if_neg hs, if_pos hm], rfl, rfl, rfl⟩
  obtain ⟨g, hwe⟩ := write_eq_of_multiple w file_pos a data hg hs hm
  refine ⟨_, hwe, ?_, ?_, ?_⟩
  · by_cases hn : w.needs_flush a = true
    · rw [if_pos hn]
      unfold writer.append_record writer.flush_block
      cases w.index_file_ with
      | none => rfl
      | some ix =>
        by_cases hr : w.record_count_in_block_ ≠ 0
        · simp only [hr, if_true, ne_eq, not_false_eq_true]
        · simp only [hr, if_false]
    · rw [if_neg hn]; rfl
  · by_cases hn : w.needs_flush a = true
    · rw [if_pos hn, (append_record_fields _ a g).2.1, (flush_block_fields w file_pos a).2.1]
    · rw [if_neg hn, (append_record_fields _ a g).2.1]
  · by_cases hn : w.needs_flush a = true
    · rw [if_pos hn, (append_record_fields _ a g).2.2.2.2.2.2.2.2.2.1]
      exact (flush_block_fields w file_pos a).2.2.2.2.2.2.2.2.1
    · rw [if_neg hn, (append_record_fields _ a g).2.2.2.2.2.2.2.2.2.1]

/-- A sequence of `write` calls on a writer with at least one sample returns. -/
theorem write_all_returns (calls : List (Nat × site_info × List fval)) :
    ∀ (w : writer), w.sample_size_ ≠ 0 →
      ∃ w1, writer.write_all w calls = some w1 ∧ w1.sample_size_ = w.sample_size_ ∧
        w1.block_size_ = w.block_size_ ∧ w1.index_file_.isSome = w.index_file_.isSome := by
  induction calls with
  | nil => intro w _; exact ⟨w, rfl, rfl, rfl, rfl⟩
  | cons c rest ih =>
    intro w hs
    obtain ⟨w2, hw, h1, h2, h3⟩ := write_returns w c.1 c.2.1 c.2.2 hs
    obtain ⟨w1, hw1, h4, h5, h6⟩ := ih w2 (by rw [h1]; exact hs)
    refine ⟨w1, ?_, by rw [h4, h1], by rw [h5, h2], by rw [h6, h3]⟩
    simp only [writer.write_all, hw, hw1]

/-- After the destructor, with an index, every block of the output stream has its entry,
in order. -/
theorem close_entries (w : writer) (file_pos : Nat) (hinv : writer_invariant w)
    (his : w.index_file_.isSome = true) :
    List.Forall₂ (entry_matches w.block_size_) (w.close file_pos).index_entries
      (all_blocks w.output_stream_) := by
  have hinv0 := hinv
  obtain ⟨_, hcnt, _, _, _, hfor⟩ := hinv
  have hfor1 := hfor his
  unfold all_blocks
  cases hix : w.index_file_ with
  | none => rw [hix] at his; simp at his
  | some ix =>
    by_cases hopen : open_block w.output_stream_ = []
    · have h0 : w.record_count_in_block_ = 0 := by rw [hcnt, hopen]; rfl
      have hc : (w.close file_pos).index_entries = w.index_entries := by
        simp [writer.close, hix, h0]
      rw [hc, if_pos hopen, List.append_nil]
      exact hfor1
    · have h0 : w.record_count_in_block_ ≠ 0 := by
        rw [hcnt]
        intro h
        exact hopen (List.length_eq_zero.1 h)
      have hc : (w.close file_pos).index_entries
          = w.index_entries ++ [(w.current_chromosome_, w.block_entry (u64 file_pos))] := by
        simp [writer.close, hix, h0, writer.index_entries, s1r_writer.write]
      rw [hc, if_neg hopen]
      exact List.rel_append hfor1
        (List.Forall₂.cons (block_entry_matches w _ hinv0 h0) List.Forall₂.nil)

end sav
end savvy

namespace savvy
namespace sav

theorem create_fields (opts : writer_options) (samples : List String)
    (headers : List (String × String)) (data_format : fmt) (parse_header_id : String → String) :
    (writer.create opts samples headers data_format parse_header_id).sample_size_
      = samples.length ∧
    (writer.create opts samples headers data_format parse_header_id).block_size_
      = opts.block_size % 2 ^ 16 ∧
    (writer.create opts samples headers data_format parse_header_id).index_file_.isSome
      = decide (opts.index_path.length ≠ 0) := by
  refine ⟨rfl, rfl, ?_⟩
  unfold writer.create
  by_cases hp : opts.index_path.length ≠ 0
  · simp [hp]
  · simp [hp]

/-- Every writer reached from the constructor by `write` calls, for at least one sample:
the calls return, and the state satisfies the invariant. -/
theorem reachable_invariant (opts : writer_options) (samples : List String)
    (headers : List (String × String)) (data_format : fmt) (parse_header_id : String → String)
    (calls : List (Nat × site_info × List fval)) (hs : samples ≠ []) :
    ∃ w, writer.write_all (writer.create opts samples headers data_format parse_header_id)
        calls = some w ∧
      writer_invariant w ∧
      w.sample_size_ = samples.length ∧
      w.block_size_ = opts.block_size % 2 ^ 16 ∧
      w.index_file_.isSome = decide (opts.index_path.length ≠ 0) := by
  obtain ⟨c1, c2, c3⟩ := create_fields opts samples headers data_format parse_header_id
  have hs0 : (writer.create opts samples headers data_format parse_header_id).sample_size_
      ≠ 0 := by
    rw [c1]
    intro h
    exact hs (List.length_eq_zero.1 h)
  obtain ⟨w, hw, h1, h2, h3⟩ := write_all_returns calls _ hs0
  exact ⟨w, hw, write_all_invariant calls _ w (create_invariant _ _ _ _ _) hw,
    by rw [h1, c1], by rw [h2, c2], by rw [h3, c3]⟩

end sav
end savvy

namespace savvy
namespace sav

/-- C16 fails on the code for block size 0: with an index, a record on chromosome "1"
followed by a record on chromosome "2" is written without any flush, both records are in
the same open block, the current chromosome is never set, and the entry that close emits
for the block is filed under the empty chromosome name. -/
theorem block_size_zero_mixes_chromosomes :
    (writer.write_all (writer.create ⟨0, "out.s1r"⟩ ["A"] [] fmt.allele id)
        [(0, ⟨"1", 100, "A", "C", []⟩, [fval.num 1]),
         (0, ⟨"2", 50, "A", "C", []⟩, [fval.num 1])]).map
      (fun w => (w.good, w.current_chromosome_,
        (open_block w.output_stream_).map (fun a => a.chromosome),
        (closed_blocks w.output_stream_).length,
        (w.close 0).index_entries.map (fun filed => filed.1)))
      = some (true, "", ["1", "2"], 0, [""]) := by
  decide

/-- C16 as amended: for every block size from 1 to 65,535 and every sequence of writes
(at least one sample), a block contains records of exactly one chromosome: all records of
the open block have the current chromosome, the records of every block share their
chromosome, and, with an index, every entry, emitted at a flush or at close, is filed
under the chromosome of all the records of its block; a write on a good writer whose
chromosome differs from the current one puts a flush into the output stream before its
record. -/
theorem blocks_hold_one_chromosome (opts : writer_options) (samples : List String)
    (headers : List (String × String)) (data_format : fmt) (parse_header_id : String → String)
    (calls : List (Nat × site_info × List fval)) (file_pos : Nat)
    (hs : samples ≠ []) (hb1 : 1 ≤ opts.block_size) (hb2 : opts.block_size ≤ 65535) :
    ∃ w, writer.write_all (writer.create opts samples headers data_format parse_header_id)
        calls = some w ∧
      (∀ a ∈ open_block w.output_stream_, a.chromosome = w.current_chromosome_) ∧
      (∀ run ∈ all_blocks w.output_stream_, ∀ a ∈ run, ∀ b ∈ run,
        a.chromosome = b.chromosome) ∧
      (opts.index_path.length ≠ 0 →
        List.Forall₂ (fun filed run => run ≠ [] ∧ ∀ a ∈ run, a.chromosome = filed.1)
          (w.close file_pos).index_entries (all_blocks w.output_stream_)) ∧
      (∀ (pos : Nat) (a : site_info) (data : List fval),
        w.good = true → data.length % samples.length = 0 →
        a.chromosome ≠ w.current_chromosome_ →
        ∃ w1 info genotypes, w.write pos a data = some w1 ∧
          w1.output_stream_ = w.output_stream_ ++
            [output_item.flush, output_item.record a info genotypes]) := by
  obtain ⟨w, hw, hinv, hsz, hbs, his⟩ :=
    reachable_invariant opts samples headers data_format parse_header_id calls hs
  have hbs1 : w.block_size_ = opts.block_size := by
    rw [hbs]; exact Nat.mod_eq_of_lt (by omega)
  have hb0 : w.block_size_ ≠ 0 := by omega
  have hinv0 := hinv
  obtain ⟨_, _, _, _, hchr, _⟩ := hinv
  obtain ⟨h1, _, _, h4⟩ := hchr hb0
  refine ⟨w, hw, h1, ?_, ?_, ?_⟩
  · intro run hrun
    unfold all_blocks at hrun
    rw [List.mem_append] at hrun
    rcases hrun with hrun | hrun
    · exact h4 run hrun
    · by_cases hopen : open_block w.output_stream_ = []
      · rw [if_pos hopen] at hrun; simp at hrun
      · rw [if_neg hopen, List.mem_singleton] at hrun
        subst hrun
        intro x hx y hy
        rw [h1 x hx, h1 y hy]
  · intro hix
    have hsome : w.index_file_.isSome = true := by rw [his]; simpa using hix
    refine List.Forall₂.imp ?_ (close_entries w file_pos hinv0 hsome)
    intro filed run hm
    exact ⟨hm.1, (hm.2.2.2 hb0).1⟩
  · intro pos a data hg hm hne
    have hs0 : w.sample_size_ ≠ 0 := by
      rw [hsz]; intro h; exact hs (List.length_eq_zero.1 h)
    obtain ⟨g, hwe⟩ := write_eq_of_multiple w pos a data hg hs0 (by rw [hsz]; exact hm)
    have hn : w.needs_flush a = true := by
      unfold writer.needs_flush
      simp [hb0, hne]
    rw [if_pos hn] at hwe
    refine ⟨_, (w.flush_block pos a).property_fields_.map a.prop, g, hwe, ?_⟩
    rw [(append_record_fields _ a g).1, (flush_block_fields w pos a).1, List.append_assoc]
    rfl

/-- C16 as amended, on three records of chromosome 1 and one of chromosome 2 with block
size 10 and an index. -/
theorem blocks_hold_one_chromosome_witness :
    ∃ w, writer.write_all (writer.create ⟨10, "out.s1r"⟩ ["A"] [] fmt.allele id)
        [(0, ⟨"1", 100, "A", "C", []⟩, [fval.num 1]),
         (0, ⟨"1", 200, "A", "C", []⟩, [fval.num 0]),
         (0, ⟨"1", 300, "A", "C", []⟩, [fval.num 1]),
         (0, ⟨"2", 50, "A", "C", []⟩, [fval.num 1])] = some w ∧
      (∀ a ∈ open_block w.output_stream_, a.chromosome = w.current_chromosome_) ∧
      (∀ run ∈ all_blocks w.output_stream_, ∀ a ∈ run, ∀ b ∈ run,
        a.chromosome = b.chromosome) ∧
      (("out.s1r" : String).length ≠ 0 →
        List.Forall₂ (fun filed run => run ≠ [] ∧ ∀ a ∈ run, a.chromosome = filed.1)
          (w.close 0).index_entries (all_blocks w.output_stream_)) ∧
      (∀ (pos : Nat) (a : site_info) (data : List fval),
        w.good = true → data.length % ["A"].length = 0 →
        a.chromosome ≠ w.current_chromosome_ →
        ∃ w1 info genotypes, w.write pos a data = some w1 ∧
          w1.output_stream_ = w.output_stream_ ++
            [output_item.flush, output_item.record a info genotypes]) :=
  blocks_hold_one_chromosome ⟨10, "out.s1r"⟩ ["A"] [] fmt.allele id _ 0
    (by decide) (by decide) (by decide)

/-- With block size 0 every `write` of matching size on a good writer appends its record
to the open block, whatever the number of records the block already holds. -/
theorem write_all_block_size_zero (call : Nat × site_info × List fval) (n : Nat) :
    ∀ (w : writer), w.good = true → w.block_size_ = 0 → w.sample_size_ ≠ 0 →
      call.2.2.length % w.sample_size_ = 0 →
      ∃ w1, writer.write_all w (List.replicate n call) = some w1 ∧ w1.good = true ∧
        w1.record_count_in_block_ = w.record_count_in_block_ + n ∧
        w1.index_file_ = w.index_file_ := by
  induction n with
  | zero => intro w hg _ _ _; exact ⟨w, rfl, hg, rfl, rfl⟩
  | succ k ih =>
    intro w hg hb hs hm
    obtain ⟨g, hwe⟩ := write_eq_of_multiple w call.1 call.2.1 call.2.2 hg hs hm
    have hn : ¬ w.needs_flush call.2.1 = true := by
      unfold writer.needs_flush
      simp [hb]
    rw [if_neg hn] at hwe
    obtain ⟨_, f2, _, f4, _, _, _, f8, f9, f10, _⟩ := append_record_fields w call.2.1 g
    have hg1 : (w.append_record call.2.1 g).good = true := by
      unfold writer.good at hg ⊢
      rw [f8, f9, f10]; exact hg
    obtain ⟨w1, hw1, hg2, hc, hi⟩ := ih (w.append_record call.2.1 g) hg1 (by rw [f2, hb])
      (by unfold writer.append_record; exact hs) (by unfold writer.append_record; exact hm)
    refine ⟨w1, ?_, hg2, by rw [hc, f4]; omega, by rw [hi, f10]⟩
    rw [List.replicate_succ]
    simp only [writer.write_all, hwe, hw1]

/-- C17 on the code: on a good writer with an index, one sample and block size 0, 65,537
writes on the same chromosome all succeed. The 65,537th write does not fail and its record
goes into the output stream: the writer is still good, no flush has happened, and the open
block holds 65,537 records, above the bound of 65,536 that the comment
`Max records per block: 64*1024` and the `assert` in `~writer` state. The entry that
`~writer` files for that block decodes to a record count of 1. -/
theorem block_size_zero_unbounded_block :
    ∃ w, writer.write_all (writer.create ⟨0, "out.s1r"⟩ ["A"] [] fmt.allele id)
        (List.replicate 65537 (0, ⟨"1", 100, "A", "C", []⟩, [fval.num 1])) = some w ∧
      w.good = true ∧
      w.fail = false ∧
      w.record_count_in_block_ = 65537 ∧
      (open_block w.output_stream_).length = 65537 ∧
      closed_blocks w.output_stream_ = [] ∧
      total_in_block (w.block_entry 0).value = 1 ∧
      (w.close 0).index_entries.map (fun filed => total_in_block filed.2.value) = [1] := by
  obtain ⟨w, hw, hg, hc, hi⟩ := write_all_block_size_zero
    (0, ⟨"1", 100, "A", "C", []⟩, [fval.num 1]) 65537
    (writer.create ⟨0, "out.s1r"⟩ ["A"] [] fmt.allele id)
    (by decide) (by decide) (by decide) (by decide)
  have hc1 : w.record_count_in_block_ = 65537 := by
    rw [hc]; rfl
  obtain ⟨w2, hw2, hinv, _, _, _⟩ := reachable_invariant ⟨0, "out.s1r"⟩ ["A"] [] fmt.allele id
    (List.replicate 65537 (0, ⟨"1", 100, "A", "C", []⟩, [fval.num 1])) (by decide)
  have hww : w2 = w := by
    rw [hw] at hw2; exact (Option.some.inj hw2).symm
  subst hww
  obtain ⟨_, hcnt, _, _, _, hidx⟩ := hinv
  have hentry : total_in_block (index_value 0 65537) = 1 := by decide
  have hix : w2.index_file_ = some ⟨[], true⟩ := by rw [hi]; rfl
  refine ⟨w2, hw, hg, ?_, hc1, by rw [← hcnt, hc1], ?_, ?_, ?_⟩
  · unfold writer.fail
    rw [good_failbit w2 hg, good_badbit w2 hg]; rfl
  · have h := hidx (by rw [hix]; rfl)
    unfold writer.index_entries at h
    rw [hix] at h
    exact List.forall₂_nil_left_iff.1 h
  · show total_in_block (index_value 0 w2.record_count_in_block_) = 1
    rw [hc1]
    exact hentry
  · unfold writer.close writer.index_entries
    rw [hix]
    have hne : w2.record_count_in_block_ ≠ 0 := by rw [hc1]; decide
    simp only [hne, if_true, ne_eq, not_false_eq_true, s1r_writer.write, List.nil_append,
      List.map_cons, List.map_nil, writer.block_entry, hc1]
    show [total_in_block (index_value (u64 0) 65537)] = [1]
    rw [show u64 0 = 0 from rfl, hentry]

/-- For every block size from 1 to 65,535, in every writer state reached by `write` calls
(at least one sample), the open block holds as many records as `record_count_in_block_`
says, at most `block_size` of them and so never more than 65,535: there the flush
condition keeps the bound that block size 0 loses. -/
theorem open_block_bounded (opts : writer_options) (samples : List String)
    (headers : List (String × String)) (data_format : fmt) (parse_header_id : String → String)
    (calls : List (Nat × site_info × List fval))
    (hs : samples ≠ []) (hb1 : 1 ≤ opts.block_size) (hb2 : opts.block_size ≤ 65535) :
    ∃ w, writer.write_all (writer.create opts samples headers data_format parse_header_id)
        calls = some w ∧
      (open_block w.output_stream_).length = w.record_count_in_block_ ∧
      w.record_count_in_block_ ≤ opts.block_size ∧
      w.record_count_in_block_ ≤ 65535 := by
  obtain ⟨w, hw, hinv, _, hbs, _⟩ :=
    reachable_invariant opts samples headers data_format parse_header_id calls hs
  have hbs1 : w.block_size_ = opts.block_size := by
    rw [hbs]; exact Nat.mod_eq_of_lt (by omega)
  obtain ⟨_, hcnt, _, _, hchr, _⟩ := hinv
  obtain ⟨_, h2, _, _⟩ := hchr (by omega)
  exact ⟨w, hw, hcnt.symm, by rw [← hbs1]; exact h2, by omega⟩

/-- The bound on the open block, on three writes with block size 2. -/
theorem open_block_bounded_witness :
    ∃ w, writer.write_all (writer.create ⟨2, ""⟩ ["A"] [] fmt.allele id)
        [(0, ⟨"1", 100, "A", "C", []⟩, [fval.num 1]),
         (0, ⟨"1", 200, "A", "C", []⟩, [fval.num 0]),
         (0, ⟨"1", 300, "A", "C", []⟩, [fval.num 1])] = some w ∧
      (open_block w.output_stream_).length = w.record_count_in_block_ ∧
      w.record_count_in_block_ ≤ 2 ∧
      w.record_count_in_block_ ≤ 65535 :=
  open_block_bounded ⟨2, ""⟩ ["A"] [] fmt.allele id _ (by decide) (by decide) (by decide)

end sav
end savvy

namespace savvy
namespace sav

/-- A writer that is not good ignores every further `write`. -/
theorem write_all_not_good (calls : List (Nat × site_info × List fval)) :
    ∀ (w w1 : writer), ¬ w.good = true → writer.write_all w calls = some w1 → w1 = w := by
  induction calls with
  | nil =>
    intro w w1 _ h
    simp only [writer.write_all, Option.some.injEq] at h
    exact h.symm
  | cons c rest ih =>
    intro w w1 hg h
    have hw : w.write c.1 c.2.1 c.2.2 = some w := by
      unfold writer.write; rw [if_neg hg]
    simp only [writer.write_all, hw] at h
    exact ih w w1 hg h

/-- When the writer is good after a sequence of `write` calls, every call was carried out:
the records written are those that were there before, followed by one per call. -/
theorem write_all_good_written (calls : List (Nat × site_info × List fval)) :
    ∀ (w w1 : writer), w.sample_size_ ≠ 0 → writer.write_all w calls = some w1 →
      w1.good = true →
      written_sites w1.output_stream_
        = written_sites w.output_stream_ ++ calls.map (fun call => call.2.1) := by
  induction calls with
  | nil =>
    intro w w1 _ h _
    simp only [writer.write_all, Option.some.injEq] at h
    rw [← h]; simp
  | cons c rest ih =>
    intro w w1 hs h hg1
    by_cases hg : w.good = true
    swap
    · have := write_all_not_good _ w w1 hg h
      rw [this] at hg1
      exact absurd hg1 hg
    by_cases hm : c.2.2.length % w.sample_size_ = 0
    swap
    · have hw : w.write c.1 c.2.1 c.2.2 = some { w with failbit := true } := by
        unfold writer.write; rw [if_pos hg, if_neg hs, if_pos hm]
      simp only [writer.write_all, hw] at h
      have hbad : ¬ ({ w with failbit := true } : writer).good = true := by
        simp [writer.good]
      have := write_all_not_good _ _ w1 hbad h
      rw [this] at hg1
      exact absurd hg1 hbad
    obtain ⟨g, hwe⟩ := write_eq_of_multiple w c.1 c.2.1 c.2.2 hg hs hm
    simp only [writer.write_all, hwe] at h
    obtain ⟨w2, hw2, hsz, _, _⟩ := write_returns w c.1 c.2.1 c.2.2 hs
    rw [hwe] at hw2
    have hs2 : ((if w.needs_flush c.2.1 = true then w.flush_block c.1 c.2.1
        else w).append_record c.2.1 g).sample_size_ ≠ 0 := by
      rw [Option.some.inj hw2, hsz]; exact hs
    rw [ih _ w1 hs2 h hg1]
    have hout : written_sites ((if w.needs_flush c.2.1 = true then w.flush_block c.1 c.2.1
        else w).append_record c.2.1 g).output_stream_
        = written_sites w.output_stream_ ++ [c.2.1] := by
      rw [(append_record_fields _ c.2.1 g).1, written_sites_append]
      by_cases hn : w.needs_flush c.2.1 = true
      · rw [if_pos hn, (flush_block_fields w c.1 c.2.1).1, written_sites_append]
        simp [written_sites]
      · rw [if_neg hn]
        simp [written_sites]
    rw [hout]
    simp

/-- Entries whose decoded counts are the lengths of their blocks: the counts add up to the
number of records of all blocks. -/
theorem counts_sum (entries : List (String × s1r_entry)) (runs : List (List site_info))
    (h : List.Forall₂ (fun filed run => total_in_block filed.2.value = run.length)
      entries runs) :
    (entries.map (fun filed => total_in_block filed.2.value)).sum = runs.flatten.length := by
  induction h with
  | nil => rfl
  | cons hhead _ ih =>
    simp only [List.map_cons, List.sum_cons, List.flatten, List.length_append]
    rw [ih, hhead]

/-- C18: for every block size from 1 to 65,535, with an index configured and at least one
sample, after every sequence of successful writes (the writer is still good) followed by
close, the index entries emitted, at flushes and at close, taken in order, split the
written records into consecutive non-empty runs: each entry is filed under the chromosome
of all records of its run, its decoded record count `(value & 0xFFFF) + 1` is the length
of the run, and the counts sum to the number of records written. Writing 3 records on
chromosome "1" and then 1 on chromosome "2" with block size 10 gives exactly two entries,
filed under "1" and "2", with counts 3 and 1. -/
theorem index_entries_split_records :
    (∀ (opts : writer_options) (samples : List String) (headers : List (String × String))
        (data_format : fmt) (parse_header_id : String → String)
        (calls : List (Nat × site_info × List fval)) (file_pos : Nat),
      samples ≠ [] → 1 ≤ opts.block_size → opts.block_size ≤ 65535 →
      opts.index_path.length ≠ 0 →
      ∃ w, writer.write_all (writer.create opts samples headers data_format parse_header_id)
          calls = some w ∧
        (w.good = true →
          ∃ runs : List (List site_info),
            runs.flatten = calls.map (fun call => call.2.1) ∧
            List.Forall₂
              (fun filed run => run ≠ [] ∧ (∀ a ∈ run, a.chromosome = filed.1) ∧
                total_in_block filed.2.value = run.length)
              (w.close file_pos).index_entries runs ∧
            ((w.close file_pos).index_entries.map
              (fun filed => total_in_block filed.2.value)).sum = calls.length)) ∧
    (writer.write_all (writer.create ⟨10, "out.s1r"⟩ ["A"] [] fmt.allele id)
        [(0, ⟨"1", 100, "A", "C", []⟩, [fval.num 1]),
         (0, ⟨"1", 200, "A", "C", []⟩, [fval.num 0]),
         (0, ⟨"1", 300, "A", "C", []⟩, [fval.num 1]),
         (0, ⟨"2", 50, "A", "C", []⟩, [fval.num 1])]).map
      (fun w => (w.good,
        (w.close 0).index_entries.map (fun filed => (filed.1, total_in_block filed.2.value))))
      = some (true, [("1", 3), ("2", 1)]) := by
  constructor
  · intro opts samples headers data_format parse_header_id calls file_pos hs hb1 hb2 hix
    obtain ⟨w, hw, hinv, hsz, hbs, his⟩ :=
      reachable_invariant opts samples headers data_format parse_header_id calls hs
    refine ⟨w, hw, ?_⟩
    intro hg
    have hbs1 : w.block_size_ = opts.block_size := by
      rw [hbs]; exact Nat.mod_eq_of_lt (by omega)
    have hb0 : w.block_size_ ≠ 0 := by omega
    have hsome : w.index_file_.isSome = true := by rw [his]; simpa using hix
    have hs0 : (writer.create opts samples headers data_format parse_header_id).sample_size_
        ≠ 0 := by
      rw [(create_fields opts samples headers data_format parse_header_id).1]
      intro h
      exact hs (List.length_eq_zero.1 h)
    have hwritten := write_all_good_written calls _ w hs0 hw hg
    have hcreate : written_sites
        (writer.create opts samples headers data_format parse_header_id).output_stream_ = [] := by
      simp [writer.create, written_sites]
    rw [hcreate, List.nil_append] at hwritten
    have hfor := close_entries w file_pos hinv hsome
    have hflat : (all_blocks w.output_stream_).flatten = calls.map (fun call => call.2.1) := by
      rw [all_blocks_join, hwritten]
    refine ⟨all_blocks w.output_stream_, hflat, ?_, ?_⟩
    · refine List.Forall₂.imp ?_ hfor
      intro filed run hm
      exact ⟨hm.1, (hm.2.2.2 hb0).1, (hm.2.2.2 hb0).2⟩
    · have hcnt : List.Forall₂ (fun filed run => total_in_block filed.2.value = run.length)
          (w.close file_pos).index_entries (all_blocks w.output_stream_) := by
        refine List.Forall₂.imp ?_ hfor
        intro filed run hm
        exact (hm.2.2.2 hb0).2
      rw [counts_sum _ _ hcnt, hflat, List.length_map]
  · decide

/-- C18, on scenario S4: three records on chromosome "1" and one on chromosome "2" with
block size 10. -/
theorem index_entries_split_records_witness :
    ∃ w, writer.write_all (writer.create ⟨10, "out.s1r"⟩ ["A"] [] fmt.allele id)
        [(0, ⟨"1", 100, "A", "C", []⟩, [fval.num 1]),
         (0, ⟨"1", 200, "A", "C", []⟩, [fval.num 0]),
         (0, ⟨"1", 300, "A", "C", []⟩, [fval.num 1]),
         (0, ⟨"2", 50, "A", "C", []⟩, [fval.num 1])] = some w ∧
      (w.good = true →
        ∃ runs : List (List site_info),
          runs.flatten
            = [(0, (⟨"1", 100, "A", "C", []⟩ : site_info), [fval.num 1]),
               (0, ⟨"1", 200, "A", "C", []⟩, [fval.num 0]),
               (0, ⟨"1", 300, "A", "C", []⟩, [fval.num 1]),
               (0, ⟨"2", 50, "A", "C", []⟩, [fval.num 1])].map (fun call => call.2.1) ∧
          List.Forall₂
            (fun filed run => run ≠ [] ∧ (∀ a ∈ run, a.chromosome = filed.1) ∧
              total_in_block filed.2.value = run.length)
            (w.close 0).index_entries runs ∧
          ((w.close 0).index_entries.map
            (fun filed => total_in_block filed.2.value)).sum
            = [(0, (⟨"1", 100, "A", "C", []⟩ : site_info), [fval.num 1]),
               (0, ⟨"1", 200, "A", "C", []⟩, [fval.num 0]),
               (0, ⟨"1", 300, "A", "C", []⟩, [fval.num 1]),
               (0, ⟨"2", 50, "A", "C", []⟩, [fval.num 1])].length) :=
  index_entries_split_records.1 ⟨10, "out.s1r"⟩ ["A"] [] fmt.allele id _ 0
    (by decide) (by decide) (by decide) (by decide)

end sav
end savvy

namespace savvy

/-! ## Reserved constants, widths of sparse offsets -/

/-- C26 on the code: the namespace-level constants `missing_int64` and
`end_of_vector_int64` are written `0x8000000080000000` and `0x8000000080000001`; they
are the signed 64-bit minimum plus `2 ^ 31` and plus `2 ^ 31 + 1`, not the minimum and the
minimum plus one, and differ from `typed_value::missing_value<std::int64_t>()` and
`typed_value::end_of_vector_value<std::int64_t>()`. The constants of 8, 16 and 32 bits are
the minimum and the minimum plus one and agree with the `typed_value` functions. -/
theorem missing_int64_not_signed_minimum :
    missing_int64 = int_min typed_value.int64 + 2 ^ 31 ∧
    end_of_vector_int64 = int_min typed_value.int64 + 2 ^ 31 + 1 ∧
    missing_int64 ≠ typed_value.missing_value typed_value.int64 ∧
    end_of_vector_int64 ≠ typed_value.end_of_vector_value typed_value.int64 ∧
    typed_value.missing_value typed_value.int64 = int_min typed_value.int64 ∧
    typed_value.end_of_vector_value typed_value.int64 = int_min typed_value.int64 + 1 ∧
    (missing_int8 = int_min typed_value.int8 ∧ missing_int16 = int_min typed_value.int16 ∧
      missing_int32 = int_min typed_value.int32) ∧
    (end_of_vector_int8 = int_min typed_value.int8 + 1 ∧
      end_of_vector_int16 = int_min typed_value.int16 + 1 ∧
      end_of_vector_int32 = int_min typed_value.int32 + 1) := by
  refine ⟨?_, ?_, ?_, ?_, ?_, ?_, ⟨?_, ?_, ?_⟩, ⟨?_, ?_, ?_⟩⟩ <;> decide

/-- C25 on the code: the int32 vector `[1]` is stored with the int8 type, but after
inserting an END_OF_VECTOR element the vector `[1, END_OF_VECTOR]` is stored with the
int32 type: the scan of `init` skips MISSING only, so the reserved element takes part in
the minimum. Inserting MISSING leaves the int8 type. -/
theorem init_dense_end_of_vector_widens :
    (typed_value.init_dense typed_value.int32 [1]).val_type_ = typed_value.int8 ∧
    (typed_value.init_dense typed_value.int32
      [1, typed_value.end_of_vector_value typed_value.int32]).val_type_
        = typed_value.int32 ∧
    typed_value.is_end_of_vector typed_value.int32
      (typed_value.end_of_vector_value typed_value.int32) = true ∧
    (typed_value.init_dense typed_value.int32
      [1, typed_value.missing_value typed_value.int32]).val_type_ = typed_value.int8 := by
  refine ⟨?_, ?_, ?_, ?_⟩ <;> decide

end savvy

namespace savvy

theorem init_offset_max_eq (offsets : List Nat) :
    ∀ (last_off offset_max : Nat), offsets.Pairwise (· < ·) →
      (∀ o ∈ offsets, last_off ≤ o ∧ o < 2 ^ 63) →
      typed_value.init_offset_max offsets last_off offset_max
        = (typed_value.relative_offsets offsets last_off).foldl max offset_max := by
  induction offsets with
  | nil => intro _ _ _ _; rfl
  | cons o rest ih =>
    intro last_off offset_max hp hb
    have ho := hb o (List.mem_cons_self _ _)
    have hoff : u64 (o + 2 ^ 64 - last_off) = o - last_off :=
      u64_sub_of_le ho.1 (by omega)
    have hnext : u64 (o + 1) = o + 1 := u64_of_lt (by omega)
    have hp2 := List.pairwise_cons.1 hp
    have hrest : ∀ o2 ∈ rest, o + 1 ≤ o2 ∧ o2 < 2 ^ 63 := by
      intro o2 h2
      exact ⟨hp2.1 o2 h2, (hb o2 (List.mem_cons_of_mem _ h2)).2⟩
    simp only [typed_value.init_offset_max, typed_value.relative_offsets, hoff, hnext,
      List.foldl_cons]
    rw [ih (o + 1) _ hp2.2 hrest]
    congr 1
    by_cases hgt : o - last_off > offset_max
    · rw [if_pos hgt]; omega
    · rw [if_neg hgt]; omega

theorem relative_offsets_le (offsets : List Nat) :
    ∀ (next bound : Nat), (∀ o ∈ offsets, o < bound) →
      ∀ r ∈ typed_value.relative_offsets offsets next, r < bound := by
  induction offsets with
  | nil => intro _ _ _ r hr; simp [typed_value.relative_offsets] at hr
  | cons o rest ih =>
    intro next bound hb r hr
    simp only [typed_value.relative_offsets, List.mem_cons] at hr
    rcases hr with rfl | hr
    · have := hb o (List.mem_cons_self _ _); omega
    · exact ih (o + 1) bound (fun o2 h2 => hb o2 (List.mem_cons_of_mem _ h2)) r hr

theorem foldl_max_lt (l : List Nat) :
    ∀ (a bound : Nat), a < bound → (∀ r ∈ l, r < bound) → l.foldl max a < bound := by
  induction l with
  | nil => intro a bound ha _; simpa using ha
  | cons x rest ih =>
    intro a bound ha hb
    simp only [List.foldl_cons]
    apply ih
    · have := hb x (List.mem_cons_self _ _)
      exact max_lt ha this
    · intro r hr; exact hb r (List.mem_cons_of_mem _ hr)

theorem wrap_signed_64_of_lt (n : Nat) (h : n < 2 ^ 63) : wrap_signed 64 (n : Int) = n := by
  unfold wrap_signed
  have h1 : ((n : Int) + 2 ^ (64 - 1)) % 2 ^ 64 = (n : Int) + 2 ^ (64 - 1) := by
    apply Int.emod_eq_of_lt
    · positivity
    · have : (n : Int) < 2 ^ 63 := by exact_mod_cast h
      norm_num
      linarith
  rw [h1]; ring

/-- C24 on the code: for a `compressed_vector` that stores the single offset 200, whose
largest relative offset is 200, the sparse initialisation chooses the 2-byte offset type
`int16`, although 200 lies in the unsigned 1-byte range, which `offset_type_code` would
give. -/
theorem init_off_type_signed_counterexample :
    typed_value.init_off_type (⟨[1], [200], 201⟩ : compressed_vector Int)
      = typed_value.int16 ∧
    typed_value.max_relative_offset [200] = 200 ∧
    typed_value.offset_type_code 200 = typed_value.int8 := by
  refine ⟨?_, ?_, ?_⟩ <;> decide

/-- C24, amended: for every sparse source vector with as many offsets as values, whose
offsets are strictly increasing and below `2 ^ 63`, the offset type that the sparse
initialisation chooses is the smallest code `t` among 1, 2, 3, 4 whose signed range
(at most 127, 32,767, `2 ^ 31 - 1`, `2 ^ 63 - 1`) contains the largest stored relative
offset: that offset is at most `int_max t` and exceeds `int_max c` for every smaller
code `c`. -/
theorem init_off_type_smallest_signed {T : Type} (vec : compressed_vector T)
    (hlen : vec.offsets_.length = vec.values_.length)
    (hinc : vec.strictly_increasing)
    (hlt : ∀ o ∈ vec.offsets_, o < 2 ^ 63) :
    1 ≤ typed_value.init_off_type vec ∧ typed_value.init_off_type vec ≤ 4 ∧
    (typed_value.max_relative_offset vec.offsets_ : Int)
      ≤ int_max (typed_value.init_off_type vec) ∧
    ∀ c, 1 ≤ c → c < typed_value.init_off_type vec →
      int_max c < (typed_value.max_relative_offset vec.offsets_ : Int) := by
  have hit : vec.iterate.map Prod.fst = vec.offsets_ := by
    unfold compressed_vector.iterate
    exact List.map_fst_zip _ _ (le_of_eq hlen)
  have hpw : vec.offsets_.Pairwise (· < ·) := List.chain'_iff_pairwise.1 hinc
  have hmax : typed_value.init_offset_max vec.offsets_ 0 0
      = typed_value.max_relative_offset vec.offsets_ := by
    unfold typed_value.max_relative_offset
    exact init_offset_max_eq _ 0 0 hpw (fun o ho => ⟨Nat.zero_le _, hlt o ho⟩)
  have hb : typed_value.max_relative_offset vec.offsets_ < 2 ^ 63 := by
    unfold typed_value.max_relative_offset
    exact foldl_max_lt _ 0 _ (by norm_num) (relative_offsets_le _ 0 _ hlt)
  have ht : typed_value.init_off_type vec
      = typed_value.type_code_ignore_missing typed_value.int64
          (typed_value.max_relative_offset vec.offsets_ : Int) := by
    unfold typed_value.init_off_type
    rw [hit, hmax, wrap_signed_64_of_lt _ hb]
  rw [ht]
  generalize typed_value.max_relative_offset vec.offsets_ = mx at hb ⊢
  have h8 : int_max typed_value.int8 = 127 := by decide
  have h16 : int_max typed_value.int16 = 32767 := by decide
  have h32 : int_max typed_value.int32 = 2147483647 := by decide
  have h64 : int_max typed_value.int64 = 9223372036854775807 := by decide
  have m8 : int_min typed_value.int8 = -128 := by decide
  have m16 : int_min typed_value.int16 = -32768 := by decide
  have m32 : int_min typed_value.int32 = -2147483648 := by decide
  have hmx0 : (0 : Int) ≤ (mx : Int) := Int.ofNat_nonneg _
  have hmx1 : (mx : Int) < 9223372036854775808 := by exact_mod_cast hb
  have hcond : typed_value.int16 ≤ typed_value.int64
      ∧ typed_value.int64 ≤ typed_value.int64 := by decide
  unfold typed_value.type_code_ignore_missing
  rw [if_pos hcond, h8, h16, h32, m8, m16, m32]
  have i1 : int_max 1 = 127 := h8
  have i2 : int_max 2 = 32767 := h16
  have i3 : int_max 3 = 2147483647 := h32
  have i4 : int_max 4 = 9223372036854775807 := h64
  by_cases c1 : (mx : Int) ≤ 127
  · rw [if_pos ⟨c1, by omega⟩]
    refine ⟨by decide, by decide, by rw [h8]; exact c1, ?_⟩
    intro c hc1 hc2
    have : typed_value.int8 = 1 := rfl
    omega
  · rw [if_neg (fun h => c1 h.1)]
    by_cases c2 : (mx : Int) ≤ 32767
    · rw [if_pos ⟨c2, by omega⟩]
      refine ⟨by decide, by decide, by rw [h16]; exact c2, ?_⟩
      intro c hc1 hc2
      have : typed_value.int16 = 2 := rfl
      have hc : c = 1 := by omega
      subst hc; rw [i1]; omega
    · rw [if_neg (fun h => c2 h.1)]
      by_cases c3 : (mx : Int) ≤ 2147483647
      · rw [if_pos ⟨c3, by omega⟩]
        refine ⟨by decide, by decide, by rw [h32]; exact c3, ?_⟩
        intro c hc1 hc2
        have : typed_value.int32 = 3 := rfl
        have hc : c = 1 ∨ c = 2 := by omega
        rcases hc with hc | hc
        · subst hc; rw [i1]; omega
        · subst hc; rw [i2]; omega
      · rw [if_neg (fun h => c3 h.1)]
        refine ⟨by decide, by decide, by rw [h64]; omega, ?_⟩
        intro c hc1 hc2
        have : typed_value.int64 = 4 := rfl
        have hc : c = 1 ∨ c = 2 ∨ c = 3 := by omega
        rcases hc with hc | hc | hc
        · subst hc; rw [i1]; omega
        · subst hc; rw [i2]; omega
        · subst hc; rw [i3]; omega

/-- C24, amended, on the vector of size 1000 that stores the offsets 3 and 204: the
largest relative offset is 200 and the chosen offset type is the 2-byte type. -/
theorem init_off_type_smallest_signed_witness :
    typed_value.max_relative_offset [3, 204] = 200 ∧
    typed_value.init_off_type (⟨[1, 1], [3, 204], 1000⟩ : compressed_vector Int) = 2 ∧
    (1 ≤ typed_value.init_off_type (⟨[1, 1], [3, 204], 1000⟩ : compressed_vector Int) ∧
      typed_value.init_off_type (⟨[1, 1], [3, 204], 1000⟩ : compressed_vector Int) ≤ 4 ∧
      (typed_value.max_relative_offset
          (⟨[1, 1], [3, 204], 1000⟩ : compressed_vector Int).offsets_ : Int)
        ≤ int_max (typed_value.init_off_type
            (⟨[1, 1], [3, 204], 1000⟩ : compressed_vector Int)) ∧
      ∀ c, 1 ≤ c →
        c < typed_value.init_off_type (⟨[1, 1], [3, 204], 1000⟩ : compressed_vector Int) →
        int_max c < (typed_value.max_relative_offset
          (⟨[1, 1], [3, 204], 1000⟩ : compressed_vector Int).offsets_ : Int)) :=
  ⟨by decide, by decide,
    init_off_type_smallest_signed (⟨[1, 1], [3, 204], 1000⟩ : compressed_vector Int)
      (by decide) (by simp [compressed_vector.strictly_increasing])
      (by intro o ho; simp at ho; rcases ho with rfl | rfl <;> norm_num)⟩

end savvy

namespace savvy

/-! ## Claims about `compressed_vector`: resize and insertion -/

theorem insertIdx_eq_take_drop {α : Type} (a : α) :
    ∀ (k : Nat) (l : List α), k ≤ l.length →
      l.insertIdx k a = l.take k ++ a :: l.drop k := by
  intro k
  induction k with
  | zero => intro l _; simp
  | succ n ih =>
    intro l hl
    cases l with
    | nil => simp at hl
    | cons x rest =>
      simp only [List.length_cons, Nat.add_le_add_iff_right] at hl
      simp [List.insertIdx_succ_cons, ih rest hl]

theorem upper_bound_le (offs : List Nat) (pos : Nat) : upper_bound offs pos ≤ offs.length := by
  induction offs with
  | nil => simp [upper_bound]
  | cons x rest ih =>
    simp only [upper_bound, List.length_cons]
    split
    · omega
    · omega

theorem lower_bound_le (offs : List Nat) (sz : Nat) : lower_bound offs sz ≤ offs.length := by
  induction offs with
  | nil => simp [lower_bound]
  | cons x rest ih =>
    simp only [lower_bound, List.length_cons]
    split
    · omega
    · omega

/-- In a nondecreasing list, the elements before the upper bound of `pos` are at most
`pos` and the elements from it on are greater. -/
theorem upper_bound_split (offs : List Nat) (pos : Nat) (hs : offs.Pairwise (· ≤ ·)) :
    (∀ o ∈ offs.take (upper_bound offs pos), o ≤ pos) ∧
    (∀ o ∈ offs.drop (upper_bound offs pos), pos < o) := by
  induction offs with
  | nil => simp [upper_bound]
  | cons x rest ih =>
    have hp := List.pairwise_cons.1 hs
    by_cases hx : pos < x
    · simp only [upper_bound, if_pos hx, List.take_zero, List.drop_zero]
      refine ⟨by simp, ?_⟩
      intro o ho
      rcases List.mem_cons.1 ho with rfl | ho
      · exact hx
      · exact lt_of_lt_of_le hx (hp.1 o ho)
    · simp only [upper_bound, if_neg hx, List.take_succ_cons, List.drop_succ_cons]
      refine ⟨?_, (ih hp.2).2⟩
      intro o ho
      rcases List.mem_cons.1 ho with rfl | ho
      · omega
      · exact (ih hp.2).1 o ho

/-- In a nondecreasing list every element is at most the last one. -/
theorem le_getLast_of_sorted (offs : List Nat) (hs : offs.Pairwise (· ≤ ·)) :
    ∀ o ∈ offs, o ≤ offs.getLast?.getD 0 := by
  induction offs with
  | nil => simp
  | cons x rest ih =>
    have hp := List.pairwise_cons.1 hs
    intro o ho
    cases rest with
    | nil =>
      simp only [List.mem_singleton] at ho
      simp [ho]
    | cons y rest2 =>
      have hlast : (x :: y :: rest2).getLast?.getD 0 = (y :: rest2).getLast?.getD 0 := by
        simp [List.getLast?_cons_cons]
      rw [hlast]
      rcases List.mem_cons.1 ho with rfl | ho
      · exact le_trans (hp.1 y (List.mem_cons_self _ _)) (ih hp.2 y (List.mem_cons_self _ _))
      · exact ih hp.2 o ho

/-- The list that the mutable `operator[]` leaves when it does not take its last branch:
`pos` is placed at the upper bound, whichever of the two inserting branches runs. -/
theorem index_mut_eq {T : Type} [Zero T] (m : compressed_vector T) (pos : Nat)
    (hs : m.offsets_.Pairwise (· ≤ ·)) :
    (m.index_mut pos = (m, upper_bound m.offsets_ pos) ∧
      ¬ (upper_bound m.offsets_ pos = m.offsets_.length
          ∨ m.offsets_.getD (upper_bound m.offsets_ pos) 0 ≠ pos)) ∨
    m.index_mut pos
      = ({ m with
            offsets_ := m.offsets_.insertIdx (upper_bound m.offsets_ pos) pos,
            values_ := m.values_.insertIdx (upper_bound m.offsets_ pos) 0 },
         upper_bound m.offsets_ pos) ∨
    (m.index_mut pos
      = ({ m with offsets_ := m.offsets_ ++ [pos], values_ := m.values_ ++ [0] },
         m.values_.length) ∧ upper_bound m.offsets_ pos = m.offsets_.length) := by
  unfold compressed_vector.index_mut
  by_cases h1 : m.offsets_.length ≠ 0 ∧ m.offsets_.getLast?.getD 0 < pos
  · right; right
    rw [if_pos h1]
    refine ⟨rfl, ?_⟩
    have hall : ∀ o ∈ m.offsets_, o ≤ pos := fun o ho =>
      le_of_lt (lt_of_le_of_lt (le_getLast_of_sorted _ hs o ho) h1.2)
    have hd := (upper_bound_split m.offsets_ pos hs).2
    by_contra hne
    have hlt : upper_bound m.offsets_ pos < m.offsets_.length :=
      lt_of_le_of_ne (upper_bound_le _ _) hne
    have hmem : m.offsets_[upper_bound m.offsets_ pos] ∈
        m.offsets_.drop (upper_bound m.offsets_ pos) := by
      rw [List.mem_drop_iff_getElem]
      exact ⟨0, by simpa using hlt, by simp⟩
    have h2 := hd _ hmem
    have h3 := hall _ (List.getElem_mem hlt)
    omega
  · rw [if_neg h1]
    by_cases h2 : upper_bound m.offsets_ pos = m.offsets_.length
        ∨ m.offsets_.getD (upper_bound m.offsets_ pos) 0 ≠ pos
    · right; left
      simp only [h2, if_true]
    · left
      refine ⟨?_, h2⟩
      dsimp only
      rw [if_neg h2]

/-- The two outcomes of the mutable `operator[]` on a vector with as many offsets as
values and nondecreasing offsets: nothing changes, or `pos` and a zero are placed at the
upper bound `k` of `pos`. The returned slot is `k` in both cases. -/
theorem index_mut_cases {T : Type} [Zero T] (m : compressed_vector T) (pos : Nat)
    (hlen : m.offsets_.length = m.values_.length)
    (hs : m.offsets_.Pairwise (· ≤ ·)) :
    (m.index_mut pos = (m, upper_bound m.offsets_ pos) ∧
      upper_bound m.offsets_ pos < m.offsets_.length ∧
      m.offsets_.getD (upper_bound m.offsets_ pos) 0 = pos) ∨
    m.index_mut pos
      = (⟨m.values_.take (upper_bound m.offsets_ pos)
            ++ 0 :: m.values_.drop (upper_bound m.offsets_ pos),
          m.offsets_.take (upper_bound m.offsets_ pos)
            ++ pos :: m.offsets_.drop (upper_bound m.offsets_ pos), m.size_⟩,
         upper_bound m.offsets_ pos) := by
  have hk : upper_bound m.offsets_ pos ≤ m.offsets_.length := upper_bound_le _ _
  have hkv : upper_bound m.offsets_ pos ≤ m.values_.length := by omega
  rcases index_mut_eq m pos hs with ⟨h0, h⟩ | h | ⟨h, hu⟩
  · left
    push_neg at h
    exact ⟨h0, lt_of_le_of_ne hk h.1, h.2⟩
  · right
    rw [h, insertIdx_eq_take_drop _ _ _ hk, insertIdx_eq_take_drop _ _ _ hkv]
  · right
    rw [h, hu]
    have hv : m.values_.length = m.offsets_.length := hlen.symm
    rw [hv]
    have h1 : m.values_.take m.offsets_.length = m.values_ :=
      List.take_of_length_le (by omega)
    have h2 : m.values_.drop m.offsets_.length = [] :=
      List.drop_of_length_le (by omega)
    simp [h1, h2]

end savvy

namespace savvy

theorem zip_take_drop_insert {α β : Type} (l1 : List α) (l2 : List β) (k : Nat) (a : α) (b : β)
    (hlen : l1.length = l2.length) :
    (l1.take k ++ a :: l1.drop k).zip (l2.take k ++ b :: l2.drop k)
      = (l1.zip l2).take k ++ (a, b) :: (l1.zip l2).drop k := by
  have h1 : (l1.take k).length = (l2.take k).length := by simp [hlen]
  rw [List.zip_append h1, List.zip_cons_cons]
  simp only [List.zip, List.take_zipWith, List.drop_zipWith]

/-- Shrinking at the lower bound keeps the pairs with an offset below `sz`. -/
theorem take_lower_bound_zip {T : Type} (sz : Nat) (offs : List Nat) :
    ∀ (vals : List T), offs.Pairwise (· ≤ ·) →
      (offs.zip vals).take (lower_bound offs sz)
        = (offs.zip vals).filter (fun p => decide (p.1 < sz)) := by
  induction offs with
  | nil => intro vals _; simp [lower_bound]
  | cons x rest ih =>
    intro vals hs
    have hp := List.pairwise_cons.1 hs
    cases vals with
    | nil => simp
    | cons v vs =>
      by_cases hx : x < sz
      · simp only [lower_bound, if_pos hx, List.zip_cons_cons, List.take_succ_cons,
          List.filter_cons, hx, decide_True, if_true]
        rw [ih vs hp.2]
      · simp only [lower_bound, if_neg hx, List.zip_cons_cons, List.take_zero,
          List.filter_cons, hx, decide_False]
        symm
        simp only [Bool.false_eq_true, if_false, List.take_zero]
        rw [List.filter_eq_nil_iff]
        intro p hp2
        have hmem : p.1 ∈ rest := (List.of_mem_zip hp2).1
        have := hp.1 p.1 hmem
        simp only [decide_eq_true_eq]
        omega

/-- C27: for every `compressed_vector` with as many offsets as values and strictly
increasing offsets, and every `sz` smaller than its size, after `resize(sz)` (with any
fill value) the stored pairs are exactly the previous pairs whose offset is below `sz`,
in the same order and with unchanged values, `size()` equals `sz`, and offsets and values
still have the same length. -/
theorem resize_shrink_keeps_pairs_below {T : Type} [Zero T] [DecidableEq T]
    (m : compressed_vector T) (sz : Nat) (val : T)
    (hlen : m.offsets_.length = m.values_.length)
    (hinc : m.strictly_increasing)
    (hsz : sz < m.size) :
    (m.resize sz val).pairs = m.pairs.filter (fun p => decide (p.1 < sz)) ∧
    (m.resize sz val).size = sz ∧
    (m.resize sz val).offsets_.length = (m.resize sz val).values_.length := by
  have hs : m.offsets_.Pairwise (· ≤ ·) :=
    (List.chain'_iff_pairwise.1 hinc).imp (fun h => le_of_lt h)
  have hk : lower_bound m.offsets_ sz ≤ m.offsets_.length := lower_bound_le _ _
  have hsz2 : sz < m.size_ := hsz
  have hl : (m.offsets_.take (lower_bound m.offsets_ sz)).length
      = lower_bound m.offsets_ sz := by
    rw [List.length_take]; omega
  have hrep : lower_bound m.offsets_ sz - m.values_.length = 0 := by omega
  have hres : m.resize sz val
      = ⟨m.values_.take (lower_bound m.offsets_ sz),
         m.offsets_.take (lower_bound m.offsets_ sz), sz⟩ := by
    unfold compressed_vector.resize
    rw [if_pos hsz2]
    simp only [hl, hrep, List.replicate_zero, List.append_nil]
  rw [hres]
  refine ⟨?_, rfl, ?_⟩
  · unfold compressed_vector.pairs
    simp only
    rw [← take_lower_bound_zip sz m.offsets_ m.values_ hs]
    simp only [List.zip, List.take_zipWith]
  · simp only [List.length_take, hlen]

/-- C27 on the vector of size 10 that stores (1, 5), (4, 6), (7, 8), shrunk to size 5. -/
theorem resize_shrink_keeps_pairs_below_witness :
    (compressed_vector.resize (⟨[5, 6, 8], [1, 4, 7], 10⟩ : compressed_vector Int) 5 0).pairs
      = (compressed_vector.pairs (⟨[5, 6, 8], [1, 4, 7], 10⟩ : compressed_vector Int)).filter
          (fun p => decide (p.1 < 5)) ∧
    (compressed_vector.resize (⟨[5, 6, 8], [1, 4, 7], 10⟩ : compressed_vector Int) 5 0).size
      = 5 ∧
    (compressed_vector.resize (⟨[5, 6, 8], [1, 4, 7], 10⟩ : compressed_vector Int)
        5 0).offsets_.length
      = (compressed_vector.resize (⟨[5, 6, 8], [1, 4, 7], 10⟩ : compressed_vector Int)
        5 0).values_.length :=
  resize_shrink_keeps_pairs_below (⟨[5, 6, 8], [1, 4, 7], 10⟩ : compressed_vector Int) 5 0
    (by decide) (by simp [compressed_vector.strictly_increasing]) (by decide)

/-- C28: for every `compressed_vector` with as many offsets as values and strictly
increasing offsets, and every position `pos` that is not stored, the mutable
`operator[](pos)` inserts exactly one pair `(pos, 0)`: the stored pairs become the `k`
pairs before the insertion point, the new pair, and the remaining pairs, all unchanged and
in their order; the offsets stay strictly increasing, `size()` is unchanged, and the
returned reference designates slot `k`, which holds the new zero. -/
theorem index_mut_inserts_new_position {T : Type} [Zero T] (m : compressed_vector T)
    (pos : Nat)
    (hlen : m.offsets_.length = m.values_.length)
    (hinc : m.strictly_increasing)
    (hpos : pos ∉ m.offsets_) :
    ∃ k, k ≤ m.pairs.length ∧
      (m.index_mut pos).2 = k ∧
      (m.index_mut pos).1.pairs = m.pairs.take k ++ (pos, 0) :: m.pairs.drop k ∧
      (m.index_mut pos).1.offsets_.length = (m.index_mut pos).1.values_.length ∧
      (m.index_mut pos).1.strictly_increasing ∧
      (m.index_mut pos).1.pairs[k]? = some (pos, 0) ∧
      (m.index_mut pos).1.size = m.size := by
  have hpw : m.offsets_.Pairwise (· < ·) := List.chain'_iff_pairwise.1 hinc
  have hs : m.offsets_.Pairwise (· ≤ ·) := hpw.imp (fun h => le_of_lt h)
  have hk : upper_bound m.offsets_ pos ≤ m.offsets_.length := upper_bound_le _ _
  have hkv : upper_bound m.offsets_ pos ≤ m.values_.length := by omega
  have hplen : m.pairs.length = m.offsets_.length := by
    simp [compressed_vector.pairs, hlen]
  have hsplit := upper_bound_split m.offsets_ pos hs
  have hmain : m.index_mut pos
      = (⟨m.values_.take (upper_bound m.offsets_ pos)
            ++ 0 :: m.values_.drop (upper_bound m.offsets_ pos),
          m.offsets_.take (upper_bound m.offsets_ pos)
            ++ pos :: m.offsets_.drop (upper_bound m.offsets_ pos), m.size_⟩,
         upper_bound m.offsets_ pos) := by
    rcases index_mut_cases m pos hlen hs with ⟨_, hlt, h2⟩ | h
    · exfalso
      apply hpos
      rw [List.getD_eq_getElem _ _ hlt] at h2
      rw [← h2]
      exact List.getElem_mem hlt
    · exact h
  refine ⟨upper_bound m.offsets_ pos, by omega, by rw [hmain], ?_, ?_, ?_, ?_, by rw [hmain]; rfl⟩
  · rw [hmain]
    exact zip_take_drop_insert _ _ _ _ _ hlen
  · rw [hmain]
    simp only [List.length_append, List.length_take, List.length_cons, List.length_drop, hlen]
  · rw [hmain]
    unfold compressed_vector.strictly_increasing
    apply List.chain'_iff_pairwise.2
    simp only
    rw [List.pairwise_append, List.pairwise_cons]
    refine ⟨hpw.sublist (List.take_sublist _ _),
      ⟨hsplit.2, hpw.sublist (List.drop_sublist _ _)⟩, ?_⟩
    intro a ha b hb
    have hale : a ≤ pos := hsplit.1 a ha
    have hane : a ≠ pos := fun h => hpos (h ▸ List.mem_of_mem_take ha)
    have halt : a < pos := lt_of_le_of_ne hale hane
    rcases List.mem_cons.1 hb with rfl | hb
    · exact halt
    · exact lt_trans halt (hsplit.2 b hb)
  · rw [hmain]
    have hz := zip_take_drop_insert m.offsets_ m.values_ (upper_bound m.offsets_ pos) pos
      (0 : T) hlen
    unfold compressed_vector.pairs
    simp only
    rw [hz]
    have hl : ((m.offsets_.zip m.values_).take (upper_bound m.offsets_ pos)).length
        = upper_bound m.offsets_ pos := by
      rw [List.length_take, List.length_zip]; omega
    rw [List.getElem?_append_right (by omega), hl]
    simp

/-- C28 on the vector of size 10 that stores (1, 5) and (7, 8), indexed at position 4. -/
theorem index_mut_inserts_new_position_witness :
    ∃ k, k ≤ (compressed_vector.pairs (⟨[5, 8], [1, 7], 10⟩ : compressed_vector Int)).length ∧
      (compressed_vector.index_mut (⟨[5, 8], [1, 7], 10⟩ : compressed_vector Int) 4).2 = k ∧
      (compressed_vector.index_mut (⟨[5, 8], [1, 7], 10⟩ : compressed_vector Int) 4).1.pairs
        = (compressed_vector.pairs (⟨[5, 8], [1, 7], 10⟩ : compressed_vector Int)).take k
          ++ (4, 0)
            :: (compressed_vector.pairs (⟨[5, 8], [1, 7], 10⟩ : compressed_vector Int)).drop k ∧
      (compressed_vector.index_mut (⟨[5, 8], [1, 7], 10⟩ : compressed_vector Int)
          4).1.offsets_.length
        = (compressed_vector.index_mut (⟨[5, 8], [1, 7], 10⟩ : compressed_vector Int)
          4).1.values_.length ∧
      (compressed_vector.index_mut (⟨[5, 8], [1, 7], 10⟩ : compressed_vector Int)
        4).1.strictly_increasing ∧
      (compressed_vector.index_mut (⟨[5, 8], [1, 7], 10⟩ : compressed_vector Int)
        4).1.pairs[k]? = some (4, 0) ∧
      (compressed_vector.index_mut (⟨[5, 8], [1, 7], 10⟩ : compressed_vector Int) 4).1.size
        = compressed_vector.size (⟨[5, 8], [1, 7], 10⟩ : compressed_vector Int) :=
  index_mut_inserts_new_position (⟨[5, 8], [1, 7], 10⟩ : compressed_vector Int) 4
    (by decide) (by simp [compressed_vector.strictly_increasing]) (by decide)

end savvy

namespace savvy

theorem lower_bound_take_lt (offs : List Nat) (sz : Nat) :
    ∀ o ∈ offs.take (lower_bound offs sz), o < sz := by
  induction offs with
  | nil => simp [lower_bound]
  | cons x rest ih =>
    by_cases hx : x < sz
    · simp only [lower_bound, if_pos hx, List.take_succ_cons]
      intro o ho
      rcases List.mem_cons.1 ho with rfl | ho
      · exact hx
      · exact ih o ho
    · simp [lower_bound, hx]

/-- The representation invariant of `compressed_vector`: as many offsets as values, every
offset below the size, offsets in nondecreasing order. -/
theorem index_mut_keeps_bounds {T : Type} [Zero T] (m : compressed_vector T) (pos : Nat)
    (hlen : m.offsets_.length = m.values_.length)
    (hb : ∀ o ∈ m.offsets_, o < m.size)
    (hs : m.offsets_.Pairwise (· ≤ ·))
    (hpos : pos < m.size) :
    (m.index_mut pos).1.offsets_.length = (m.index_mut pos).1.values_.length ∧
    (∀ o ∈ (m.index_mut pos).1.offsets_, o < (m.index_mut pos).1.size) ∧
    (m.index_mut pos).1.offsets_.Pairwise (· ≤ ·) := by
  have hsplit := upper_bound_split m.offsets_ pos hs
  rcases index_mut_cases m pos hlen hs with ⟨h, _, _⟩ | h
  · rw [h]; exact ⟨hlen, hb, hs⟩
  · rw [h]
    refine ⟨?_, ?_, ?_⟩
    · simp only [List.length_append, List.length_take, List.length_cons, List.length_drop,
        hlen]
    · intro o ho
      simp only [List.mem_append, List.mem_cons] at ho
      rcases ho with ho | rfl | ho
      · exact hb o (List.mem_of_mem_take ho)
      · exact hpos
      · exact hb o (List.mem_of_mem_drop ho)
    · simp only
      rw [List.pairwise_append, List.pairwise_cons]
      refine ⟨hs.sublist (List.take_sublist _ _),
        ⟨fun b hb2 => le_of_lt (hsplit.2 b hb2), hs.sublist (List.drop_sublist _ _)⟩, ?_⟩
      intro a ha b hb2
      have hale : a ≤ pos := hsplit.1 a ha
      rcases List.mem_cons.1 hb2 with rfl | hb2
      · exact hale
      · exact le_trans hale (le_of_lt (hsplit.2 b hb2))

theorem resize_keeps_bounds {T : Type} [Zero T] [DecidableEq T] (m : compressed_vector T)
    (sz : Nat) (val : T)
    (hlen : m.offsets_.length = m.values_.length)
    (hb : ∀ o ∈ m.offsets_, o < m.size)
    (hs : m.offsets_.Pairwise (· ≤ ·)) :
    (m.resize sz val).offsets_.length = (m.resize sz val).values_.length ∧
    (∀ o ∈ (m.resize sz val).offsets_, o < (m.resize sz val).size) ∧
    (m.resize sz val).offsets_.Pairwise (· ≤ ·) := by
  unfold compressed_vector.resize
  by_cases h1 : sz < m.size_
  · rw [if_pos h1]
    have hk : lower_bound m.offsets_ sz ≤ m.offsets_.length := lower_bound_le _ _
    refine ⟨?_, ?_, ?_⟩
    · simp only [List.length_take, List.length_append, List.length_replicate]
      omega
    · intro o ho
      exact lower_bound_take_lt m.offsets_ sz o ho
    · exact hs.sublist (List.take_sublist _ _)
  · rw [if_neg h1]
    by_cases h2 : val ≠ 0
    · rw [if_pos h2]
      refine ⟨?_, ?_, ?_⟩
      · simp only [List.length_range, List.length_take, List.length_append,
          List.length_replicate]
        omega
      · intro o ho
        exact List.mem_range.1 ho
      · exact (List.pairwise_lt_range sz).imp (fun h => le_of_lt h)
    · rw [if_neg h2]
      refine ⟨hlen, ?_, hs⟩
      intro o ho
      have := hb o ho
      have h3 : m.size = m.size_ := rfl
      show o < sz
      omega

theorem apply_mutations_keep_bounds {T : Type} [Zero T] [DecidableEq T]
    (calls : List (compressed_vector.mutation T)) :
    ∀ (m : compressed_vector T), m.offsets_.length = m.values_.length →
      (∀ o ∈ m.offsets_, o < m.size) → m.offsets_.Pairwise (· ≤ ·) →
      compressed_vector.positions_in_range m calls = true →
      ∀ k,
        (m.apply_mutations (calls.take k)).offsets_.length
          = (m.apply_mutations (calls.take k)).values_.length ∧
        (∀ o ∈ (m.apply_mutations (calls.take k)).offsets_,
          o < (m.apply_mutations (calls.take k)).size) ∧
        (m.apply_mutations (calls.take k)).offsets_.Pairwise (· ≤ ·) := by
  induction calls with
  | nil =>
    intro m hlen hb hs _ k
    simp only [List.take_nil, compressed_vector.apply_mutations, List.foldl_nil]
    exact ⟨hlen, hb, hs⟩
  | cons c rest ih =>
    intro m hlen hb hs hr k
    cases k with
    | zero =>
      simp only [List.take_zero, compressed_vector.apply_mutations, List.foldl_nil]
      exact ⟨hlen, hb, hs⟩
    | succ k =>
      simp only [List.take_succ_cons, compressed_vector.apply_mutations, List.foldl_cons]
      cases c with
      | index pos =>
        simp only [compressed_vector.positions_in_range, Bool.and_eq_true,
          decide_eq_true_eq] at hr
        obtain ⟨h1, h2, h3⟩ := index_mut_keeps_bounds m pos hlen hb hs hr.1
        exact ih _ h1 h2 h3 hr.2 k
      | resize sz val =>
        simp only [compressed_vector.positions_in_range] at hr
        obtain ⟨h1, h2, h3⟩ := resize_keeps_bounds m sz val hlen hb hs
        exact ih _ h1 h2 h3 hr k

/-- C29: for every sequence of `resize` and mutable `operator[]` calls on a
`compressed_vector` starting from the empty one, in which each `operator[]` position is
below the `size()` current at that call, after each call (after every prefix of the
sequence) offsets and values have the same length and every stored offset is less than
`size()`; the offsets are moreover in nondecreasing order, which is what
`std::upper_bound` and `std::lower_bound` require. -/
theorem mutations_keep_lengths_and_bounds {T : Type} [Zero T] [DecidableEq T]
    (calls : List (compressed_vector.mutation T))
    (hr : compressed_vector.positions_in_range (compressed_vector.empty : compressed_vector T)
      calls = true) :
    ∀ k,
      ((compressed_vector.empty : compressed_vector T).apply_mutations
          (calls.take k)).offsets_.length
        = ((compressed_vector.empty : compressed_vector T).apply_mutations
          (calls.take k)).values_.length ∧
      (∀ o ∈ ((compressed_vector.empty : compressed_vector T).apply_mutations
          (calls.take k)).offsets_,
        o < ((compressed_vector.empty : compressed_vector T).apply_mutations
          (calls.take k)).size) ∧
      ((compressed_vector.empty : compressed_vector T).apply_mutations
        (calls.take k)).offsets_.Pairwise (· ≤ ·) :=
  apply_mutations_keep_bounds calls compressed_vector.empty rfl
    (by intro o ho; simp [compressed_vector.empty] at ho)
    (by simp [compressed_vector.empty]) hr

/-- C29 on the calls `resize(10)`, `[5]`, `[5]`, `[2]`, `resize(4)`, `resize(6, 1)`, after
the fourth call. -/
theorem mutations_keep_lengths_and_bounds_witness :
    ((compressed_vector.empty : compressed_vector Int).apply_mutations
        (([.resize 10 0, .index 5, .index 5, .index 2, .resize 4 0, .resize 6 1] :
          List (compressed_vector.mutation Int)).take 4)).offsets_.length
      = ((compressed_vector.empty : compressed_vector Int).apply_mutations
        (([.resize 10 0, .index 5, .index 5, .index 2, .resize 4 0, .resize 6 1] :
          List (compressed_vector.mutation Int)).take 4)).values_.length ∧
    (∀ o ∈ ((compressed_vector.empty : compressed_vector Int).apply_mutations
        (([.resize 10 0, .index 5, .index 5, .index 2, .resize 4 0, .resize 6 1] :
          List (compressed_vector.mutation Int)).take 4)).offsets_,
      o < ((compressed_vector.empty : compressed_vector Int).apply_mutations
        (([.resize 10 0, .index 5, .index 5, .index 2, .resize 4 0, .resize 6 1] :
          List (compressed_vector.mutation Int)).take 4)).size) ∧
    ((compressed_vector.empty : compressed_vector Int).apply_mutations
      (([.resize 10 0, .index 5, .index 5, .index 2, .resize 4 0, .resize 6 1] :
        List (compressed_vector.mutation Int)).take 4)).offsets_.Pairwise (· ≤ ·) :=
  mutations_keep_lengths_and_bounds
    [.resize 10 0, .index 5, .index 5, .index 2, .resize 4 0, .resize 6 1]
    (by decide) 4

end savvy

namespace savvy
namespace sav

/-! ## Offsets, counts and stream position of a genotype payload -/

theorem emitted_positions_from_sorted (BitWidth : Nat) (xs : List fval) :
    ∀ (dist : Nat),
      (emitted_positions_from BitWidth xs dist).Pairwise (· < ·) ∧
      ∀ p ∈ emitted_positions_from BitWidth xs dist, dist ≤ p ∧ p < dist + xs.length := by
  induction xs with
  | nil => intro dist; simp [emitted_positions_from]
  | cons x rest ih =>
    intro dist
    obtain ⟨h1, h2⟩ := ih (dist + 1)
    by_cases hx : allele_encoder_encode BitWidth x ≥ 0
    · simp only [emitted_positions_from, if_pos hx, List.pairwise_cons, List.mem_cons,
        List.length_cons]
      refine ⟨⟨fun p hp => by have := h2 p hp; omega, h1⟩, ?_⟩
      intro p hp
      rcases hp with rfl | hp
      · omega
      · have := h2 p hp; omega
    · simp only [emitted_positions_from, if_neg hx, List.length_cons]
      refine ⟨h1, ?_⟩
      intro p hp
      have := h2 p hp; omega

/-- The offset fields that the serialiser writes are the relative offsets of the emitted
positions. -/
theorem serialize_alleles_from_offsets (BitWidth : Nat) (xs : List fval) :
    ∀ (dist last_pos : Nat), last_pos ≤ dist → dist + xs.length < 2 ^ 64 →
      (serialize_alleles_from BitWidth xs dist last_pos).map Prod.snd
        = typed_value.relative_offsets (emitted_positions_from BitWidth xs dist) last_pos := by
  induction xs with
  | nil => intro _ _ _ _; simp [serialize_alleles_from, emitted_positions_from,
      typed_value.relative_offsets]
  | cons x rest ih =>
    intro dist last_pos hle hlt
    simp only [List.length_cons] at hlt
    by_cases hx : allele_encoder_encode BitWidth x ≥ 0
    · have hoff : u64 (dist + 2 ^ 64 - last_pos) = dist - last_pos :=
        u64_sub_of_le hle (by omega)
      have hnext : u64 (dist + 1) = dist + 1 := u64_of_lt (by omega)
      simp only [serialize_alleles_from, emitted_positions_from, if_pos hx,
        prefixed_varint_encode, List.map_cons, typed_value.relative_offsets, hoff, hnext]
      rw [ih (dist + 1) (dist + 1) (le_refl _) (by omega)]
    · simp only [serialize_alleles_from, emitted_positions_from, if_neg hx]
      exact ih (dist + 1) last_pos (by omega) (by omega)

theorem relative_offsets_getD (ps : List Nat) :
    ∀ (next j : Nat), ps.Pairwise (· < ·) → (∀ p ∈ ps, next ≤ p) → j < ps.length →
      (((typed_value.relative_offsets ps next).getD j 0 : Nat) : Int)
        = (ps.getD j 0 : Int)
          - (if j = 0 then (next : Int) - 1 else (ps.getD (j - 1) 0 : Int)) - 1 := by
  induction ps with
  | nil => intro _ j _ _ hj; simp at hj
  | cons p rest ih =>
    intro next j hpw hb hj
    have hp := List.pairwise_cons.1 hpw
    cases j with
    | zero =>
      have := (hb p (List.mem_cons_self _ _))
      simp only [typed_value.relative_offsets, List.getD_cons_zero, if_true]
      omega
    | succ j =>
      simp only [List.length_cons, Nat.add_lt_add_iff_right] at hj
      have h := ih (p + 1) j hp.2 (fun q hq => hp.1 q hq) hj
      simp only [typed_value.relative_offsets, List.getD_cons_succ, Nat.add_sub_cancel,
        Nat.succ_ne_zero, if_false]
      rw [h]
      cases j with
      | zero => simp
      | succ j2 => simp

theorem relative_offsets_length (ps : List Nat) :
    ∀ (next : Nat), (typed_value.relative_offsets ps next).length = ps.length := by
  induction ps with
  | nil => intro _; rfl
  | cons p rest ih => intro next; simp [typed_value.relative_offsets, ih]

/-- C23: for every vector (of fewer than `2 ^ 64` elements, as every `std::vector`) and
both bit widths, the emitted positions `p_0 < p_1 < ... < p_k` are strictly increasing,
`serialize_alleles` writes one pair for each, and the offset field of the `j`-th pair is
`p_j - p_(j-1) - 1` with `p_(-1) = -1`: the first field is `p_0`, and two adjacent
emitted positions give the offset 0. -/
theorem serialize_alleles_offset_fields (BitWidth : Nat) (m : List fval)
    (hsize : m.length < 2 ^ 64) :
    (emitted_positions BitWidth m).Pairwise (· < ·) ∧
    (serialize_alleles BitWidth m).length = (emitted_positions BitWidth m).length ∧
    ∀ j, j < (emitted_positions BitWidth m).length →
      ((((serialize_alleles BitWidth m).map Prod.snd).getD j 0 : Nat) : Int)
        = ((emitted_positions BitWidth m).getD j 0 : Int)
          - (if j = 0 then -1 else ((emitted_positions BitWidth m).getD (j - 1) 0 : Int))
          - 1 := by
  have hs := emitted_positions_from_sorted BitWidth m 0
  have hoff := serialize_alleles_from_offsets BitWidth m 0 0 (le_refl _) (by omega)
  have hlen : (serialize_alleles BitWidth m).length = (emitted_positions BitWidth m).length := by
    have := congrArg List.length hoff
    simpa [relative_offsets_length, serialize_alleles, emitted_positions] using this
  refine ⟨hs.1, hlen, ?_⟩
  intro j hj
  unfold serialize_alleles emitted_positions at *
  rw [hoff]
  have h := relative_offsets_getD (emitted_positions_from BitWidth m 0) 0 j hs.1
    (fun p _ => Nat.zero_le p) hj
  rw [h]
  simp

/-- C23 on the vector `[0, 1, 1, 0, 0, NaN]` in the allele format: the emitted positions
are 1, 2 and 5 and the offset fields 1, 0 and 2. -/
theorem serialize_alleles_offset_fields_witness :
    emitted_positions 1
      [fval.num 0, fval.num 1, fval.num 1, fval.num 0, fval.num 0, fval.nan] = [1, 2, 5] ∧
    (serialize_alleles 1
      [fval.num 0, fval.num 1, fval.num 1, fval.num 0, fval.num 0, fval.nan]).map Prod.snd
      = [1, 0, 2] ∧
    ((emitted_positions 1
      [fval.num 0, fval.num 1, fval.num 1, fval.num 0, fval.num 0, fval.nan]).Pairwise
        (· < ·) ∧
    (serialize_alleles 1
      [fval.num 0, fval.num 1, fval.num 1, fval.num 0, fval.num 0, fval.nan]).length
      = (emitted_positions 1
      [fval.num 0, fval.num 1, fval.num 1, fval.num 0, fval.num 0, fval.nan]).length ∧
    ∀ j, j < (emitted_positions 1
        [fval.num 0, fval.num 1, fval.num 1, fval.num 0, fval.num 0, fval.nan]).length →
      ((((serialize_alleles 1
        [fval.num 0, fval.num 1, fval.num 1, fval.num 0, fval.num 0, fval.nan]).map
          Prod.snd).getD j 0 : Nat) : Int)
        = ((emitted_positions 1
            [fval.num 0, fval.num 1, fval.num 1, fval.num 0, fval.num 0, fval.nan]).getD
              j 0 : Int)
          - (if j = 0 then -1 else ((emitted_positions 1
            [fval.num 0, fval.num 1, fval.num 1, fval.num 0, fval.num 0, fval.nan]).getD
              (j - 1) 0 : Int))
          - 1) :=
  ⟨by decide, by decide,
    serialize_alleles_offset_fields 1
      [fval.num 0, fval.num 1, fval.num 1, fval.num 0, fval.num 0, fval.nan] (by decide)⟩

end sav
end savvy

namespace savvy
namespace sav

theorem serialize_alleles_sparse_from_length (BitWidth : Nat) (vals : List fval) :
    ∀ (idxs : List Nat) (last_pos : Nat) (pairs : List (Nat × Nat)),
      serialize_alleles_sparse_from BitWidth vals idxs last_pos = some pairs →
      pairs.length
        = ((idxs.zip vals).filter
            (fun it => decide (allele_encoder_encode BitWidth it.2 ≥ 0))).length := by
  induction vals with
  | nil =>
    intro idxs last_pos pairs h
    simp only [serialize_alleles_sparse_from, Option.some.injEq] at h
    subst h
    simp
  | cons x rest ih =>
    intro idxs last_pos pairs h
    cases idxs with
    | nil => simp [serialize_alleles_sparse_from] at h
    | cons idx idxs =>
      by_cases hx : allele_encoder_encode BitWidth x ≥ 0
      · simp only [serialize_alleles_sparse_from, if_pos hx, Option.map_eq_some'] at h
        obtain ⟨tl, htl, hp⟩ := h
        subst hp
        simp only [List.zip_cons_cons, List.filter_cons, hx, decide_True, if_true,
          List.length_cons]
        rw [ih idxs _ tl htl]
      · simp only [serialize_alleles_sparse_from, if_neg hx] at h
        simp only [List.zip_cons_cons, List.filter_cons, hx, decide_False]
        exact ih idxs _ pairs h

/-- C22 on the code: for 3 samples and the `compressed_vector` of size 6 that stores
(0, 1), (2, 0), (5, 1), one of its values an explicitly stored zero, `write_alleles`
writes the nonzero count 3 (`m.non_zero_size()`) but `serialize_alleles<1>` writes only
the 2 pairs whose allele code is not negative. The dense `write_alleles`, the dense
`write_hap_dosages` and the sparse `write_hap_dosages` write a count equal to the number
of pairs. -/
theorem write_alleles_sparse_count_exceeds_pairs :
    write_alleles_sparse 3 ⟨[fval.num 1, fval.num 0, fval.num 1], [0, 2, 5], 6⟩
      = some ⟨2, 3, [(1, 0), (1, 4)]⟩ ∧
    (∀ (s : Nat) (m : List fval) (payload : genotype_payload),
      write_alleles s m = some payload → payload.sz = payload.pairs.length) ∧
    (∀ (s : Nat) (m : List fval) (payload : genotype_payload),
      write_hap_dosages s m = some payload → payload.sz = payload.pairs.length) ∧
    (∀ (s : Nat) (m : compressed_vector fval) (payload : genotype_payload),
      write_hap_dosages_sparse s m = some payload → payload.sz = payload.pairs.length) := by
  refine ⟨by decide, ?_, ?_, ?_⟩
  · intro s m payload h
    unfold write_alleles at h
    by_cases hs : s = 0
    · rw [if_pos hs] at h; cases h
    · rw [if_neg hs] at h
      have := Option.some.inj h
      rw [← this]
      simp only [serialize_alleles, serialize_alleles_from_length, count_matches_pairs]
  · intro s m payload h
    unfold write_hap_dosages at h
    by_cases hs : s = 0
    · rw [if_pos hs] at h; cases h
    · rw [if_neg hs] at h
      have := Option.some.inj h
      rw [← this]
      simp only [serialize_alleles, serialize_alleles_from_length]
  · intro s m payload h
    unfold write_hap_dosages_sparse at h
    by_cases hs : s = 0
    · rw [if_pos hs] at h; cases h
    · rw [if_neg hs] at h
      simp only [Option.map_eq_some'] at h
      obtain ⟨pairs, hpairs, hp⟩ := h
      subst hp
      simp only [compressed_vector.iterate]
      exact (serialize_alleles_sparse_from_length 7 _ _ _ _ hpairs).symm

/-- C21 on the code: on the input that starts with the payload of one sample of ploidy 1
with one alternate allele (the bytes 1, 1, 1: ploidy 1, count 1, one pair with allele
code 1 and offset 0) and goes on with any bytes `rest`, `read_genotypes_al<1>` consumes
the three bytes and leaves `rest`, while `discard_genotypes_impl<1>` consumes two bytes
and leaves the pair in the input: its loop calls `decode(in_it, ...)` where the readers
call `decode(++in_it, ...)`, so it decodes the last byte of the count again and does not
advance. The same holds in the 7-bit format with the pair byte 127. -/
theorem discard_genotypes_leaves_pairs (rest : List Nat) :
    varint_decode (1 :: 1 :: 1 :: rest) = (1 :: 1 :: 1 :: rest, 1) ∧
    varint_decode (1 :: 1 :: rest) = (1 :: 1 :: rest, 1) ∧
    prefixed_varint_decode 1 (1 :: rest) = (1 :: rest, 1, 0) ∧
    prefixed_varint_decode 7 (127 :: rest) = (127 :: rest, 127, 0) ∧
    read_genotypes_input 1 (1 :: 1 :: 1 :: rest) = rest ∧
    discard_genotypes_impl 1 (1 :: 1 :: 1 :: rest) = 1 :: rest ∧
    read_genotypes_input 7 (1 :: 1 :: 127 :: rest) = rest ∧
    discard_genotypes_impl 7 (1 :: 1 :: 127 :: rest) = 127 :: rest := by
  have h1 : ∀ (l : List Nat), varint_decode (1 :: l) = (1 :: l, 1) := by
    intro l
    simp [varint_decode, varint_decode_from, u64]
  have h2 : prefixed_varint_decode 1 (1 :: rest) = (1 :: rest, 1, 0) := by
    simp [prefixed_varint_decode]
  have h3 : prefixed_varint_decode 7 (127 :: rest) = (127 :: rest, 127, 0) := by
    have e1 : (127 : Nat) &&& 128 = 0 := by decide
    have e2 : (127 : Nat) &&& (2 ^ 7 - 1) = 127 := by decide
    have e3 : ((127 : Nat) &&& 127) >>> 7 = 0 := by decide
    simp only [prefixed_varint_decode, e1, e2, e3, if_true]
  have h4 : ∀ (l : List Nat), prefixed_varint_decode 1 (1 :: l) = (1 :: l, 1, 0) := by
    intro l
    simp [prefixed_varint_decode]
  have h5 : ∀ (l : List Nat), prefixed_varint_decode 7 (1 :: l) = (1 :: l, 1, 0) := by
    intro l
    simp [prefixed_varint_decode]
  refine ⟨h1 _, h1 _, h2, h3, ?_, ?_, ?_, ?_⟩
  · simp [read_genotypes_input, h1, read_loop_input, h2]
  · simp [discard_genotypes_impl, h1, discard_loop, h4]
  · simp [read_genotypes_input, h1, read_loop_input, h3]
  · simp [discard_genotypes_impl, h1, discard_loop, h5]

end sav
end savvy

namespace savvy
namespace sav

/-! ## Per-sample sums of the per-haplotype decode -/

theorem fval_add_zero (x : fval) : fval.add x (fval.num 0) = x := by
  cases x <;> simp [fval.add]

theorem fval_add_comm (x y : fval) : fval.add x y = fval.add y x := by
  cases x <;> cases y <;> simp [fval.add, add_comm]

theorem fval_add_assoc (x y z : fval) :
    fval.add (fval.add x y) z = fval.add x (fval.add y z) := by
  cases x <;> cases y <;> cases z <;> simp [fval.add, add_assoc]

theorem foldl_add_shift (B : List fval) :
    ∀ (a y : fval), B.foldl fval.add (fval.add a y) = fval.add (B.foldl fval.add a) y := by
  induction B with
  | nil => intro a y; rfl
  | cons b rest ih =>
    intro a y
    simp only [List.foldl_cons]
    have h : fval.add (fval.add a y) b = fval.add (fval.add a b) y := by
      rw [fval_add_assoc, fval_add_comm y b, ← fval_add_assoc]
    rw [h, ih]

theorem foldl_add_set_zero (B : List fval) :
    ∀ (a : fval) (j : Nat) (y : fval), B[j]? = some (fval.num 0) →
      (B.set j y).foldl fval.add a = fval.add (B.foldl fval.add a) y := by
  induction B with
  | nil => intro a j y h; simp at h
  | cons b rest ih =>
    intro a j y h
    cases j with
    | zero =>
      simp only [List.getElem?_cons_zero, Option.some.injEq] at h
      subst h
      simp only [List.set_cons_zero, List.foldl_cons, fval_add_zero]
      exact foldl_add_shift rest a y
    | succ j =>
      simp only [List.getElem?_cons_succ] at h
      simp only [List.set_cons_succ, List.foldl_cons]
      exact ih _ j y h

/-- Writing `y` over a zero at position `d` adds `y` to the sum of the sample `d / p` and
leaves the sums of the other samples alone. -/
theorem haplotype_sum_set (p : Nat) (hp : 1 ≤ p) (L : List fval) (d : Nat) (y : fval)
    (hd : L[d]? = some (fval.num 0)) (i : Nat) :
    haplotype_sum p (L.set d y) i
      = if i = d / p then fval.add (haplotype_sum p L i) y else haplotype_sum p L i := by
  unfold haplotype_sum
  have hp0 : 0 < p := by omega
  by_cases hi : i = d / p
  · rw [if_pos hi]
    have h1 : i * p ≤ d := by rw [hi]; exact Nat.div_mul_le_self d p
    have h2 : d < i * p + p := by
      rw [hi]
      have := Nat.lt_div_mul_add hp0 (a := d)
      linarith [Nat.lt_div_mul_add hp0 (a := d)]
    rw [List.drop_set, if_neg (by omega), List.set_take]
    apply foldl_add_set_zero
    rw [List.getElem?_take_of_lt (by omega), List.getElem?_drop]
    have : i * p + (d - i * p) = d := by omega
    rw [this]
    exact hd
  · rw [if_neg hi]
    rw [List.drop_set]
    by_cases hlt : d < i * p
    · rw [if_pos hlt]
    · rw [if_neg hlt, List.set_take]
      have hge : i * p + p ≤ d := by
        by_contra hcon
        apply hi
        have h3 : d < (i + 1) * p := by
          have : (i + 1) * p = i * p + p := by ring
          omega
        have h4 : i * p ≤ d := by omega
        symm
        exact Nat.div_eq_of_lt_le (by simpa [Nat.mul_comm] using h4)
          (by simpa [Nat.mul_comm] using h3)
      rw [List.set_eq_of_length_le]
      rw [List.length_take]
      omega

end sav
end savvy

namespace savvy
namespace sav

theorem haplotype_sum_replicate (p n i : Nat) :
    haplotype_sum p (List.replicate n (fval.num 0)) i = fval.num 0 := by
  unfold haplotype_sum
  rw [List.drop_replicate, List.take_replicate]
  generalize min p (n - i * p) = k
  induction k with
  | zero => rfl
  | succ k ih => simpa [List.replicate_succ, fval.add] using ih

theorem append_replicate_set (pre : List fval) (n : Nat) (y : fval) :
    (pre ++ [y]) ++ List.replicate n (fval.num 0)
      = (pre ++ List.replicate (n + 1) (fval.num 0)).set pre.length y := by
  rw [List.set_append_right _ _ (le_refl _)]
  simp [List.replicate_succ]

/-- The per-haplotype loops read back, element by element, what the serialiser wrote. -/
theorem decode_store_al_serialize (N M : Nat) (xs : List fval) :
    ∀ (pre : List fval) (last_pos : Nat), last_pos ≤ pre.length →
      pre.length + xs.length < 2 ^ 64 →
      decode_loop N fval.nan (store_al M)
        (serialize_alleles_from N xs pre.length last_pos) last_pos
        (pre ++ List.replicate xs.length (fval.num 0))
        = some (pre ++ xs.map (readback N M)) := by
  induction xs with
  | nil => intro pre last_pos _ _; simp [serialize_alleles_from, decode_loop]
  | cons x rest ih =>
    intro pre last_pos hle hlt
    simp only [List.length_cons] at hlt
    by_cases hx : allele_encoder_encode N x ≥ 0
    · have hoff : u64 (pre.length + 2 ^ 64 - last_pos) = pre.length - last_pos :=
        u64_sub_of_le hle (by omega)
      have htot : u64 (last_pos + (pre.length - last_pos)) = pre.length := by
        rw [u64_of_lt (by omega)]; omega
      have hnext : u64 (pre.length + 1) = pre.length + 1 := u64_of_lt (by omega)
      have ih1 := ih (pre ++ [readback N M x]) (pre.length + 1)
        (by simp) (by simp; omega)
      simp only [List.length_append, List.length_singleton, List.append_assoc,
        List.singleton_append] at ih1
      simp only [serialize_alleles_from, hx, if_true, prefixed_varint_encode, decode_loop,
        hoff, htot, hnext, store_al, List.length_append, List.length_replicate,
        List.length_cons, List.map_cons, List.replicate_succ]
      have hlt2 : pre.length < pre.length + (rest.length + 1) := by omega
      simp only [hlt2, if_true, List.set_append_right _ _ (le_refl _), Nat.sub_self,
        List.set_cons_zero]
      simpa [readback, hx] using ih1
    · have ih1 := ih (pre ++ [fval.num 0]) last_pos (by simp; omega) (by simp; omega)
      simp only [List.length_append, List.length_singleton, List.append_assoc,
        List.singleton_append] at ih1
      simp only [serialize_alleles_from, hx, if_false, List.length_cons, List.map_cons,
        List.replicate_succ]
      simpa [readback, hx] using ih1

/-- The per-sample loops accumulate, sample by sample, the values that the per-haplotype
loops read back. -/
theorem decode_store_sum_serialize (N M : Nat) (rounded : Bool) (p s : Nat) (hp : 1 ≤ p)
    (hval : ∀ a : fval, (if rounded then fval.round a else a) = al_value M a)
    (hsp : s * p < 2 ^ 64) (xs : List fval) :
    ∀ (pre gt : List fval) (last_pos : Nat), last_pos ≤ pre.length →
      pre.length + xs.length = s * p → gt.length = s →
      (∀ i, i < s → gt[i]? = some (haplotype_sum p
        (pre ++ List.replicate xs.length (fval.num 0)) i)) →
      ∃ gt1, decode_loop N fval.nan (store_sum rounded p)
          (serialize_alleles_from N xs pre.length last_pos) last_pos gt = some gt1 ∧
        gt1.length = s ∧
        ∀ i, i < s → gt1[i]? = some (haplotype_sum p (pre ++ xs.map (readback N M)) i) := by
  induction xs with
  | nil =>
    intro pre gt last_pos _ _ hg hsum
    refine ⟨gt, by simp [serialize_alleles_from, decode_loop], hg, ?_⟩
    simpa using hsum
  | cons x rest ih =>
    intro pre gt last_pos hle hlen hg hsum
    simp only [List.length_cons] at hlen hsum
    have hp0 : p ≠ 0 := by omega
    by_cases hx : allele_encoder_encode N x ≥ 0
    · have hoff : u64 (pre.length + 2 ^ 64 - last_pos) = pre.length - last_pos :=
        u64_sub_of_le hle (by omega)
      have htot : u64 (last_pos + (pre.length - last_pos)) = pre.length := by
        rw [u64_of_lt (by omega)]; omega
      have hnext : u64 (pre.length + 1) = pre.length + 1 := u64_of_lt (by omega)
      have hslot : pre.length / p < s := by
        rw [Nat.div_lt_iff_lt_mul (by omega)]
        omega
      have hold := hsum (pre.length / p) hslot
      have hzero : (pre ++ List.replicate (rest.length + 1) (fval.num 0))[pre.length]?
          = some (fval.num 0) := by
        rw [List.getElem?_append_right (le_refl _)]
        simp
      have hrb : readback N M x
          = al_value M (allele_decoder_decode N fval.nan
              (wrap_unsigned 8 (allele_encoder_encode N x))) := by
        simp [readback, hx]
      obtain ⟨gt1, h1, h2, h3⟩ := ih (pre ++ [readback N M x])
        (gt.set (pre.length / p)
          (fval.add (haplotype_sum p (pre ++ List.replicate (rest.length + 1) (fval.num 0))
            (pre.length / p)) (readback N M x)))
        (pre.length + 1) (by simp) (by simp; omega) (by simp [hg])
        (by
          intro i hi
          rw [append_replicate_set, haplotype_sum_set p hp _ _ _ hzero, List.getElem?_set]
          by_cases hie : pre.length / p = i
          · have hi2 : pre.length / p < gt.length := by omega
            rw [if_pos hie, if_pos hi2, if_pos hie.symm, hie]
          · rw [if_neg hie, if_neg (fun h => hie h.symm)]
            exact hsum i hi)
      simp only [List.length_append, List.length_singleton] at h1
      refine ⟨gt1, ?_, h2, ?_⟩
      · simp only [serialize_alleles_from, hx, if_true, prefixed_varint_encode, decode_loop,
          hoff, htot, hnext, store_sum, if_neg hp0, hold, hval, ← hrb]
        exact h1
      · intro i hi
        have := h3 i hi
        simpa using this
    · have hrb : readback N M x = fval.num 0 := by simp [readback, hx]
      obtain ⟨gt1, h1, h2, h3⟩ := ih (pre ++ [fval.num 0]) gt last_pos
        (by simp; omega) (by simp; omega) hg
        (by
          intro i hi
          have := hsum i hi
          simpa [List.replicate_succ] using this)
      simp only [List.length_append, List.length_singleton] at h1
      refine ⟨gt1, ?_, h2, ?_⟩
      · simp only [serialize_alleles_from, hx, if_false]
        exact h1
      · intro i hi
        have := h3 i hi
        simpa [hrb] using this

end sav
end savvy

namespace savvy
namespace sav

/-- C30: for every genotype payload of ploidy `p ≥ 1` that the writer produces (allele or
haplotype-dosage file format) for `s` samples from a vector of `s * p` entries (fewer than
`2 ^ 64`, as every `std::vector`), with no sample subset, the four decoders succeed;
`read_genotypes_al` and `read_genotypes_hds` return vectors of length `s * p`,
`read_genotypes_gt` and `read_genotypes_ds` vectors of length `s`, and at each sample `i`
the result of `read_genotypes_gt` (respectively `read_genotypes_ds`) is the sum over
`h < p` of the result of `read_genotypes_al` (respectively `read_genotypes_hds`) at index
`i * p + h`. The decoders are reached through `read_genotypes` with the matching
requested format. -/
theorem read_genotypes_gt_sums_al (data_format : fmt) (s p : Nat) (v dest0 : List fval)
    (payload : genotype_payload)
    (hf : data_format = fmt.allele ∨ data_format = fmt.haplotype_dosage)
    (hp1 : 1 ≤ p) (hlen : v.length = s * p) (hsize : v.length < 2 ^ 64)
    (hw0 : write_genotypes data_format s v = some payload) (hpl0 : payload.ploidy = p) :
    ∃ al gt hds ds,
      read_genotypes (plain_reader s data_format fmt.allele) payload dest0 = some al ∧
      read_genotypes (plain_reader s data_format fmt.genotype) payload dest0 = some gt ∧
      read_genotypes (plain_reader s data_format fmt.haplotype_dosage) payload dest0
        = some hds ∧
      read_genotypes (plain_reader s data_format fmt.dosage) payload dest0 = some ds ∧
      al.length = s * p ∧ gt.length = s ∧ hds.length = s * p ∧ ds.length = s ∧
      ∀ i, i < s →
        gt[i]? = some (haplotype_sum p al i) ∧ ds[i]? = some (haplotype_sum p hds i) := by
  obtain ⟨hs, hp⟩ := write_genotypes_some data_format s v payload hw0
  rw [hpl0] at hp
  obtain ⟨payload1, hw, hpl, hpairs, hsz⟩ := write_genotypes_eq data_format s p v hs hp hlen
  have hpe : payload1 = payload := by
    rw [hw] at hw0; exact Option.some.inj hw0
  subst hpe
  have hbw : (if data_format = fmt.allele then 1 else 7)
      = (if data_format = fmt.haplotype_dosage then 7 else 1) := by
    rcases hf with h | h <;> simp [h]
  have hsp : s * p < 2 ^ 64 := by rw [← hlen]; exact hsize
  generalize hN : (if data_format = fmt.haplotype_dosage then 7 else 1) = N at hbw hpairs
  have hzero : ∀ i, i < s → (List.replicate s (fval.num 0))[i]?
      = some (haplotype_sum p ([] ++ List.replicate v.length (fval.num 0)) i) := by
    intro i hi
    rw [List.nil_append, haplotype_sum_replicate, List.getElem?_replicate, if_pos hi]
  have hal := decode_store_al_serialize N N v [] 0 (le_refl _) (by simpa using hsize)
  have hhds := decode_store_al_serialize N 1 v [] 0 (le_refl _) (by simpa using hsize)
  obtain ⟨gt, hgt1, hgt2, hgt3⟩ := decode_store_sum_serialize N N (decide (N ≠ 1)) p s hp1
    (by
      intro a
      by_cases h1 : N = 1
      · simp [al_value, h1]
      · simp [al_value, h1])
    hsp v [] (List.replicate s (fval.num 0)) 0 (le_refl _) (by simpa using hlen) (by simp)
    hzero
  obtain ⟨ds, hds1, hds2, hds3⟩ := decode_store_sum_serialize N 1 false p s hp1
    (by intro a; simp [al_value])
    hsp v [] (List.replicate s (fval.num 0)) 0 (le_refl _) (by simpa using hlen) (by simp)
    hzero
  simp only [List.length_nil, List.nil_append] at hal hhds hgt1 hds1 hgt3 hds3
  refine ⟨v.map (readback N N), gt, v.map (readback N 1), ds, ?_, ?_, ?_, ?_,
    by simp [hlen], hgt2, by simp [hlen], hds2, fun i hi => ⟨hgt3 i hi, hds3 i hi⟩⟩
  · simp only [read_genotypes, plain_reader, resize_zero, if_true, read_genotypes_al,
      List.length_nil, ne_eq, not_true_eq_false, if_false, hbw, hsz, List.take_length, hpl,
      resize_nil, hpairs, serialize_alleles]
    rw [← hlen, u64_of_lt hsize]
    exact hal
  · have hne : ¬ (fmt.genotype = fmt.allele) := by decide
    simp only [read_genotypes, plain_reader, resize_zero, hne, if_true, if_false,
      read_genotypes_gt, List.length_nil, ne_eq, not_true_eq_false, hbw, hsz,
      List.take_length, hpl, resize_nil, hpairs, serialize_alleles]
    exact hgt1
  · have hne1 : ¬ (fmt.haplotype_dosage = fmt.allele) := by decide
    have hne2 : ¬ (fmt.haplotype_dosage = fmt.genotype) := by decide
    have hne3 : ¬ (fmt.haplotype_dosage = fmt.dosage) := by decide
    simp only [read_genotypes, plain_reader, resize_zero, hne1, hne2, hne3, if_true, if_false,
      read_genotypes_hds, List.length_nil, ne_eq, not_true_eq_false, hbw, hsz,
      List.take_length, hpl, resize_nil, hpairs, serialize_alleles]
    rw [← hlen, u64_of_lt hsize]
    exact hhds
  · have hne1 : ¬ (fmt.dosage = fmt.allele) := by decide
    have hne2 : ¬ (fmt.dosage = fmt.genotype) := by decide
    simp only [read_genotypes, plain_reader, resize_zero, hne1, hne2, if_true, if_false,
      read_genotypes_ds, List.length_nil, ne_eq, not_true_eq_false, hbw, hsz,
      List.take_length, hpl, resize_nil, hpairs, serialize_alleles]
    exact hds1

end sav
end savvy

namespace savvy
namespace sav

/-- C30 on two samples of ploidy 2 with the vector `[0, 1, 1, 1]` in the allele format:
the per-sample genotypes are `[1, 2]`. -/
theorem read_genotypes_gt_sums_al_witness :
    read_genotypes (plain_reader 2 fmt.allele fmt.genotype) ⟨2, 3, [(1, 1), (1, 0), (1, 0)]⟩ []
      = some [fval.num 1, fval.num 2] ∧
    ∃ al gt hds ds,
      read_genotypes (plain_reader 2 fmt.allele fmt.allele)
        ⟨2, 3, [(1, 1), (1, 0), (1, 0)]⟩ [] = some al ∧
      read_genotypes (plain_reader 2 fmt.allele fmt.genotype)
        ⟨2, 3, [(1, 1), (1, 0), (1, 0)]⟩ [] = some gt ∧
      read_genotypes (plain_reader 2 fmt.allele fmt.haplotype_dosage)
        ⟨2, 3, [(1, 1), (1, 0), (1, 0)]⟩ [] = some hds ∧
      read_genotypes (plain_reader 2 fmt.allele fmt.dosage)
        ⟨2, 3, [(1, 1), (1, 0), (1, 0)]⟩ [] = some ds ∧
      al.length = 2 * 2 ∧ gt.length = 2 ∧ hds.length = 2 * 2 ∧ ds.length = 2 ∧
      ∀ i, i < 2 →
        gt[i]? = some (haplotype_sum 2 al i) ∧ ds[i]? = some (haplotype_sum 2 hds i) :=
  ⟨by
      simp [read_genotypes, plain_reader, read_genotypes_gt, resize, decode_loop, store_sum,
        allele_decoder_decode, u64, fval.add]
      norm_num,
    read_genotypes_gt_sums_al fmt.allele 2 2
      [fval.num 0, fval.num 1, fval.num 1, fval.num 1] []
      ⟨2, 3, [(1, 1), (1, 0), (1, 0)]⟩
      (Or.inl rfl) (by decide) (by decide) (by decide) (by decide) (by decide)⟩

end sav
end savvy

namespace savvy
namespace sav

/-! ## Headers of the writer -/

/-- C31: for every header list passed to the writer constructor and either data format,
the header list that the writer stores, and emits in the file preamble, consists of the
input headers whose key is not "FORMAT", in their original order, followed by one FORMAT
header; no other header of the list has the key "FORMAT"; the value of the FORMAT header
is `<ID=HDS,Description="Haplotype dosages">` for the haplotype-dosage format and
`<ID=GT,Description="Genotype">` otherwise. -/
theorem create_headers (opts : writer_options) (samples : List String)
    (headers : List (String × String)) (data_format : fmt)
    (parse_header_id : String → String) :
    (writer.create opts samples headers data_format parse_header_id).headers_
      = headers.filter (fun kvp => kvp.1 != "FORMAT")
        ++ [("FORMAT",
            if data_format = fmt.haplotype_dosage
            then "<ID=HDS,Description=\"Haplotype dosages\">"
            else "<ID=GT,Description=\"Genotype\">")] ∧
    (writer.create opts samples headers data_format parse_header_id).output_stream_
      = [output_item.preamble
          (writer.create opts samples headers data_format parse_header_id).headers_ samples] ∧
    ((writer.create opts samples headers data_format parse_header_id).headers_.filter
      (fun kvp => kvp.1 == "FORMAT")).length = 1 ∧
    (headers.filter (fun kvp => kvp.1 != "FORMAT")).Sublist headers := by
  refine ⟨rfl, rfl, ?_, List.filter_sublist _⟩
  have h1 : (headers.filter (fun kvp => kvp.1 != "FORMAT")).filter
      (fun kvp => kvp.1 == "FORMAT") = [] := by
    rw [List.filter_eq_nil_iff]
    intro a ha
    have := (List.mem_filter.1 ha).2
    simpa using this
  show ((headers.filter (fun kvp : String × String => kvp.1 != "FORMAT")
      ++ [("FORMAT", _)]).filter
      (fun kvp : String × String => kvp.1 == "FORMAT")).length = 1
  rw [List.filter_append, h1]
  simp

end sav

/-! ## Sparse `typed_value`: offsets and conversions -/

theorem copy_offsets_eq (bits : Nat) (offsets : List Nat) :
    ∀ (last_off : Nat), offsets.Pairwise (· < ·) →
      (∀ o ∈ offsets, last_off ≤ o ∧ o + 1 < 2 ^ 64) →
      typed_value.copy_offsets bits offsets last_off
        = (typed_value.relative_offsets offsets last_off).map (fun r => r % 2 ^ bits) := by
  induction offsets with
  | nil => intro _ _ _; rfl
  | cons o rest ih =>
    intro last_off hp hb
    have ho := hb o (List.mem_cons_self _ _)
    have hoff : u64 (o + 2 ^ 64 - last_off) = o - last_off :=
      u64_sub_of_le ho.1 (by omega)
    have hnext : u64 (o + 1) = o + 1 := u64_of_lt (by omega)
    have hp2 := List.pairwise_cons.1 hp
    have hrest : ∀ o2 ∈ rest, o + 1 ≤ o2 ∧ o2 + 1 < 2 ^ 64 := by
      intro o2 h2
      exact ⟨hp2.1 o2 h2, (hb o2 (List.mem_cons_of_mem _ h2)).2⟩
    simp only [typed_value.copy_offsets, typed_value.relative_offsets, hoff, hnext,
      List.map_cons]
    rw [ih (o + 1) hp2.2 hrest]

/-- C35 on the code: for the stored positions 3 and 5, `copy_offsets` (8-bit offsets)
stores 3 and 1: the offset stored for the second position is the distance 2 minus one. -/
theorem copy_offsets_counterexample :
    typed_value.copy_offsets 8 [3, 5] 0 = [3, 1] ∧ (5 : Nat) - 3 = 2 := by
  decide

/-- C35, amended: for every sparse source vector with stored positions
`p_0 < p_1 < ...` (below `2 ^ 64 - 1`) and every offset width of `bits` bits,
`copy_offsets` stores as many offsets as there are positions, and the offset stored for
position `p_j`, `j ≥ 1`, is the distance `p_j - p_(j-1)` minus one, reduced modulo
`2 ^ bits` by the conversion to the offset type; the first stored offset is `p_0`
reduced in the same way. -/
theorem copy_offsets_distance_minus_one (bits : Nat) (positions : List Nat)
    (hinc : positions.Pairwise (· < ·))
    (hlt : ∀ p ∈ positions, p + 1 < 2 ^ 64) :
    (typed_value.copy_offsets bits positions 0).length = positions.length ∧
    (typed_value.copy_offsets bits positions 0).head? = positions.head?.map (· % 2 ^ bits) ∧
    ∀ j, 1 ≤ j → j < positions.length →
      (typed_value.copy_offsets bits positions 0).getD j 0
        = (positions.getD j 0 - positions.getD (j - 1) 0 - 1) % 2 ^ bits := by
  have heq := copy_offsets_eq bits positions 0 hinc (fun p hp => ⟨Nat.zero_le _, hlt p hp⟩)
  rw [heq]
  refine ⟨by simp [sav.relative_offsets_length], ?_, ?_⟩
  · cases positions with
    | nil => rfl
    | cons p rest => simp [typed_value.relative_offsets]
  · intro j hj1 hj
    have hget := sav.relative_offsets_getD positions 0 j hinc (fun p _ => Nat.zero_le p) hj
    have hj0 : j ≠ 0 := by omega
    rw [if_neg hj0] at hget
    have hlen : j < (typed_value.relative_offsets positions 0).length := by
      rw [sav.relative_offsets_length]; exact hj
    rw [List.getD_eq_getElem _ _ (by simpa using hlen)]
    rw [List.getD_eq_getElem _ _ hlen] at hget
    simp only [List.getElem_map]
    congr 1
    omega

/-- C35, amended, on the stored positions 3, 5 and 300 with 8-bit offsets. -/
theorem copy_offsets_distance_minus_one_witness :
    typed_value.copy_offsets 8 [3, 5, 300] 0 = [3, 1, 38] ∧
    ((typed_value.copy_offsets 8 [3, 5, 300] 0).length = [3, 5, 300].length ∧
    (typed_value.copy_offsets 8 [3, 5, 300] 0).head?
      = ([3, 5, 300] : List Nat).head?.map (· % 2 ^ 8) ∧
    ∀ j, 1 ≤ j → j < ([3, 5, 300] : List Nat).length →
      (typed_value.copy_offsets 8 [3, 5, 300] 0).getD j 0
        = (([3, 5, 300] : List Nat).getD j 0 - ([3, 5, 300] : List Nat).getD (j - 1) 0 - 1)
          % 2 ^ 8) :=
  ⟨by decide,
    copy_offsets_distance_minus_one 8 [3, 5, 300] (by decide)
      (by intro p hp; simp at hp; rcases hp with rfl | rfl | rfl <;> norm_num)⟩

end savvy

namespace savvy

/-- C36 on the code: for the sparse int8 value of size 4 that stores 5 at position 1 and a
default-constructed destination, `copy_as_dense` returns true and fills
`dest.local_data_` with `[0, 5, 0, 0]`, but assigns no member of `dest`: its size stays 0,
its type code 0 and its value pointer null, so `dest` holds no element. -/
theorem copy_as_dense_sparse_leaves_members :
    typed_value.init_sparse typed_value.int8 ⟨[5], [1], 4⟩
      = some ⟨typed_value.int8, typed_value.int8, 4, 1, some [1], some [5]⟩ ∧
    typed_value.copy_as_dense ⟨typed_value.int8, typed_value.int8, 4, 1, some [1], some [5]⟩
        typed_value.empty
      = some (true, typed_value.empty, [0, 5, 0, 0]) ∧
    typed_value.empty.size = 0 ∧
    typed_value.empty.val_type_ = 0 ∧
    typed_value.empty.val_ptr_ = none ∧
    typed_value.size ⟨typed_value.int8, typed_value.int8, 4, 1, some [1], some [5]⟩ = 4 := by
  refine ⟨?_, ?_, ?_, ?_, ?_, ?_⟩ <;> decide

theorem copy_sparse2_out_of_range (DestT : Nat) (off : Nat) (offs : List Nat) (val : Int)
    (vals : List Int) (total_offset : Nat) (dest : List Int)
    (h : dest.length ≤ to_size_t (total_offset + wrap_signed 32 off)) :
    typed_value.copy_sparse2 DestT (off :: offs) (val :: vals) total_offset dest = none := by
  unfold typed_value.copy_sparse2
  simp only
  rw [if_neg (by omega)]

theorem get_sparse_far_offset (n : Nat) (dest : List Int)
    (h : n + 1 ≤ to_size_t (0 + wrap_signed 32 n)) :
    typed_value.get typed_value.int32
      ⟨typed_value.int8, typed_value.int64, n + 1, 1, some [n], some [1]⟩ dest = none := by
  have hlen : (typed_value.resize_int (typed_value.resize_int dest 0) (n + 1)).length
      = n + 1 := by
    simp [typed_value.resize_int]
  have h7 : ¬ (typed_value.int8 = 7) := by decide
  have h1 : typed_value.int8 = 1 ∨ typed_value.int8 = 2 ∨ typed_value.int8 = 3
      ∨ typed_value.int8 = 4 := by decide
  have h4 : typed_value.int64 = 1 ∨ typed_value.int64 = 2 ∨ typed_value.int64 = 3
      ∨ typed_value.int64 = 4 := by decide
  unfold typed_value.get
  simp only [h7, if_false, Option.isSome_some, if_true, h1]
  unfold typed_value.copy_sparse1
  simp only [h4, if_true, Option.getD_some, List.take_succ_cons, List.take_zero]
  rw [copy_sparse2_out_of_range _ _ _ _ _ _ _ (by rw [hlen]; exact h)]
  rfl

/-- C38 on the code: the sparse `std::int32_t` vector of length `2 ^ 31 + 1` that stores the
value 1 at position `2 ^ 31` becomes a sparse `typed_value` with 64-bit offsets that
stores the offset `2 ^ 31`; in `get`, `copy_sparse2` reads that offset into
`int tmp_off`, which makes it `-(2 ^ 31)`, and `total_offset`, a `std::size_t`, becomes
`2 ^ 64 - 2 ^ 31`: the write `dest[total_offset]` is far outside the destination of
`2 ^ 31 + 1` elements, so no dense expansion results. -/
theorem get_sparse_int_offset_overflow :
    typed_value.init_sparse typed_value.int32 ⟨[1], [2 ^ 31], 2 ^ 31 + 1⟩
      = some ⟨typed_value.int8, typed_value.int64, 2 ^ 31 + 1, 1, some [2 ^ 31], some [1]⟩ ∧
    wrap_signed 32 ((2 ^ 31 : Nat) : Int) = -(2 ^ 31) ∧
    to_size_t (0 + wrap_signed 32 ((2 ^ 31 : Nat) : Int)) = 2 ^ 64 - 2 ^ 31 ∧
    typed_value.get typed_value.int32
      ⟨typed_value.int8, typed_value.int64, 2 ^ 31 + 1, 1, some [2 ^ 31], some [1]⟩ []
      = none := by
  refine ⟨by decide, by decide, by decide, ?_⟩
  exact get_sparse_far_offset (2 ^ 31) [] (by decide)

/-- C37 on the code: for the dense int8 value `[1, 2, 3, 4]` (two samples, stride 2) and
the subset that keeps both samples, `get(dest, subset)` computes
`stride = size_ % subset.mask().size()`, which is 0 whenever the test before it passes,
resizes `dest` to `2 * 0 = 0` elements, and the functor, which computes its own stride 2,
writes at index 0 of an empty vector: the behaviour is undefined and `dest` never has
the 4 elements of the claim. With a subset that keeps no sample the call returns true
and `dest` is empty. -/
theorem get_subset_stride_is_remainder :
    typed_value.init_dense typed_value.int8 [1, 2, 3, 4]
      = ⟨typed_value.int8, 0, 4, 0, none, some [1, 2, 3, 4]⟩ ∧
    (4 : Nat) % ([0, 1] : List Nat).length = 0 ∧
    typed_value.get_subset typed_value.int8
      ⟨typed_value.int8, 0, 4, 0, none, some [1, 2, 3, 4]⟩ [] ⟨["A", "B"], [0, 1]⟩ = none ∧
    typed_value.subset_samples_functor typed_value.int8 typed_value.int8 [1, 2, 3, 4] [0, 1]
      [0, 0, 0, 0] = some [1, 2, 3, 4] ∧
    typed_value.get_subset typed_value.int8
      ⟨typed_value.int8, 0, 4, 0, none, some [1, 2, 3, 4]⟩ [9, 9]
      ⟨[], [2 ^ 64 - 1, 2 ^ 64 - 1]⟩ = some (true, []) := by
  refine ⟨?_, ?_, ?_, ?_, ?_⟩ <;> decide

end savvy

namespace savvy

/-! ## BCF typed vectors and genotype codes -/

/-- C40 on the code: for the `std::vector<std::int16_t>` `[1, 2]`, `serialize_typed_vec`
appends the bytes 0x22, 1, 0, 2, 0. In `deserialize_vec` no case of the switch ends in
`break`: after the int16 copy control falls into the copies for int32, int64, float and
char, which read 8, 16, 8 and 2 bytes where 4 are left, outside the buffer. When 12 more
bytes (zeros) follow in the buffer every read is inside it, and the last copy, byte by
byte, leaves the destination `[1, 0]` instead of `[1, 2]`; the returned position 5 is the
one just past the data. For `std::int8_t` `[1, 2]` the value comes back only when enough
bytes follow. -/
theorem deserialize_vec_falls_through :
    bcf.serialize_typed_vec typed_value.int16 [1, 2] = some [0x22, 1, 0, 2, 0] ∧
    bcf.deserialize_vec typed_value.int16 [0x22, 1, 0, 2, 0] 0 = none ∧
    bcf.deserialize_vec typed_value.int16
      ([0x22, 1, 0, 2, 0] ++ [0, 0, 0, 0, 0, 0, 0, 0, 0, 0, 0, 0]) 0 = some (5, [1, 0]) ∧
    bcf.copy_case typed_value.int16 [0x22, 1, 0, 2, 0] 1 2 typed_value.int16 = some [1, 2] ∧
    bcf.serialize_typed_vec typed_value.int8 [1, 2] = some [0x21, 1, 2] ∧
    bcf.deserialize_vec typed_value.int8 [0x21, 1, 2] 0 = none ∧
    bcf.deserialize_vec typed_value.int8
      ([0x21, 1, 2] ++ [0, 0, 0, 0, 0, 0, 0, 0, 0, 0, 0, 0, 0, 0]) 0 = some (3, [1, 2]) := by
  refine ⟨?_, ?_, ?_, ?_, ?_, ?_, ?_⟩ <;> decide

theorem gt_code_roundtrip (x : Int) (phased : Bool) (h0 : 0 ≤ x) (h1 : x ≤ 62) :
    (let y := wrap_signed (type_bits typed_value.int8)
        (wrap_signed (type_bits typed_value.int8)
          ((wrap_unsigned 32
            (wrap_signed (type_bits typed_value.int8)
              (2 * (x + 1) + (if phased then 1 else 0))) / 2 : Nat) : Int) - 1)
      if y = -1 then int_min typed_value.int8 else y) = x ∧
    wrap_signed (type_bits typed_value.int8) (2 * (x + 1) + (if phased then 1 else 0))
      ≠ int_min typed_value.int8 + 1 := by
  cases phased <;> interval_cases x <;> decide

theorem gt_code_roundtrip_missing (phased : Bool) :
    (let y := wrap_signed (type_bits typed_value.int8)
        (wrap_signed (type_bits typed_value.int8)
          ((wrap_unsigned 32
            (wrap_signed (type_bits typed_value.int8)
              (2 * (wrap_signed (type_bits typed_value.int8) (-1) + 1)
                + (if phased then 1 else 0))) / 2 : Nat) : Int) - 1)
      if y = -1 then int_min typed_value.int8 else y) = int_min typed_value.int8 ∧
    wrap_signed (type_bits typed_value.int8)
        (2 * (wrap_signed (type_bits typed_value.int8) (-1) + 1) + (if phased then 1 else 0))
      ≠ int_min typed_value.int8 + 1 := by
  cases phased <;> decide

/-- C39: for every int8 genotype vector whose elements before the first END_OF_VECTOR are
MISSING or allele values from 0 to 62, and for either value of the phased flag, applying
`bcf_gt_encoder::operator()(begin, end, phased)` and then
`bcf_gt_decoder::operator()(begin, end)` returns the original vector. -/
theorem bcf_gt_decode_encode (v : List Int) (phased : Bool)
    (hv : typed_value.gt_encodable v = true) :
    typed_value.bcf_gt_decoder typed_value.int8
      (typed_value.bcf_gt_encoder typed_value.int8 phased v) = v := by
  induction v with
  | nil => rfl
  | cons x rest ih =>
    simp only [typed_value.gt_encodable, Bool.or_eq_true, Bool.and_eq_true,
      decide_eq_true_eq] at hv
    by_cases hx : x = int_min typed_value.int8 + 1
    · simp only [typed_value.bcf_gt_encoder, if_pos hx, typed_value.bcf_gt_decoder]
    · rcases hv with hv | ⟨hv, hrest⟩
      · exact absurd hv hx
      · have ih1 := ih hrest
        rcases hv with hm | ⟨h0, h1⟩
        · obtain ⟨hr1, hr2⟩ := gt_code_roundtrip_missing phased
          simp only [typed_value.bcf_gt_encoder, if_neg hx, if_pos hm,
            typed_value.bcf_gt_decoder, if_neg hr2, ih1]
          simp only at hr1
          rw [hr1, hm]
        · obtain ⟨hr1, hr2⟩ := gt_code_roundtrip x phased h0 h1
          have hnm : ¬ x = int_min typed_value.int8 := by
            have : int_min typed_value.int8 = -128 := by decide
            omega
          simp only [typed_value.bcf_gt_encoder, if_neg hx, if_neg hnm,
            typed_value.bcf_gt_decoder, if_neg hr2, ih1]
          simp only at hr1
          rw [hr1]

/-- C39 on the vector `[0, MISSING, 62, END_OF_VECTOR, 100]` with the phased flag set:
the codes are 3, 1 and 127, and decoding gives the vector back. -/
theorem bcf_gt_decode_encode_witness :
    typed_value.bcf_gt_encoder typed_value.int8 true [0, -128, 62, -127, 100]
      = [3, 1, 127, -127, 100] ∧
    typed_value.bcf_gt_decoder typed_value.int8
      (typed_value.bcf_gt_encoder typed_value.int8 true [0, -128, 62, -127, 100])
      = [0, -128, 62, -127, 100] :=
  ⟨by decide, bcf_gt_decode_encode [0, -128, 62, -127, 100] true (by decide)⟩

end savvy

namespace savvy
namespace sav

/-! ## The merge loop -/

/-- C32 on the code: two inputs of 2 samples and ploidy 2 carry the vectors `[0,1,1,0]`
and `[1,1,0,0]`. When both are at the same site the merged vector has size 8 and stores
ones at 1, 2, 4, 5, which is `[0,1,1,0,1,1,0,0]`. When the first input is at position 200
and the second at position 100, only the second matches: nothing is appended for the
first, the genotypes of the second start at slot 0 instead of slot 4, and the vector has
size 4 instead of 8. When only the first matches, no zeros are appended for the second
and the size is again 4. A pass that starts from the vector the previous pass left
appends after it. -/
theorem merge_step_skips_unmatched_span :
    write_genotypes fmt.allele 2 [fval.num 0, fval.num 1, fval.num 1, fval.num 0]
      = some ⟨2, 2, [(1, 1), (1, 0)]⟩ ∧
    write_genotypes fmt.allele 2 [fval.num 1, fval.num 1, fval.num 0, fval.num 0]
      = some ⟨2, 2, [(1, 0), (1, 0)]⟩ ∧
    merge_step fmt.allele
      [⟨2, fmt.allele, true, ⟨"1", 100, "A", "C", []⟩, ⟨2, 2, [(1, 1), (1, 0)]⟩⟩,
       ⟨2, fmt.allele, true, ⟨"1", 100, "A", "C", []⟩, ⟨2, 2, [(1, 0), (1, 0)]⟩⟩]
      0 compressed_vector.empty
      = some ⟨[fval.num 1, fval.num 1, fval.num 1, fval.num 1], [1, 2, 4, 5], 8⟩ ∧
    find_min_pos
      [⟨2, fmt.allele, true, ⟨"1", 200, "A", "C", []⟩, ⟨2, 2, [(1, 1), (1, 0)]⟩⟩,
       ⟨2, fmt.allele, true, ⟨"1", 100, "A", "C", []⟩, ⟨2, 2, [(1, 0), (1, 0)]⟩⟩]
      0 (2 ^ 64 - 1) 2 = 1 ∧
    merge_matching
      [⟨2, fmt.allele, true, ⟨"1", 200, "A", "C", []⟩, ⟨2, 2, [(1, 1), (1, 0)]⟩⟩,
       ⟨2, fmt.allele, true, ⟨"1", 100, "A", "C", []⟩, ⟨2, 2, [(1, 0), (1, 0)]⟩⟩]
      1 = [false, true] ∧
    merge_step fmt.allele
      [⟨2, fmt.allele, true, ⟨"1", 200, "A", "C", []⟩, ⟨2, 2, [(1, 1), (1, 0)]⟩⟩,
       ⟨2, fmt.allele, true, ⟨"1", 100, "A", "C", []⟩, ⟨2, 2, [(1, 0), (1, 0)]⟩⟩]
      1 compressed_vector.empty
      = some ⟨[fval.num 1, fval.num 1], [0, 1], 4⟩ ∧
    merge_step fmt.allele
      [⟨2, fmt.allele, true, ⟨"1", 100, "A", "C", []⟩, ⟨2, 2, [(1, 1), (1, 0)]⟩⟩,
       ⟨2, fmt.allele, true, ⟨"1", 200, "A", "C", []⟩, ⟨2, 2, [(1, 0), (1, 0)]⟩⟩]
      0 compressed_vector.empty
      = some ⟨[fval.num 1, fval.num 1], [1, 2], 4⟩ ∧
    merge_step fmt.allele
      [⟨2, fmt.allele, true, ⟨"1", 100, "A", "C", []⟩, ⟨2, 2, [(1, 1), (1, 0)]⟩⟩,
       ⟨2, fmt.allele, true, ⟨"1", 200, "A", "C", []⟩, ⟨2, 2, [(1, 0), (1, 0)]⟩⟩]
      0 ⟨[fval.num 1, fval.num 1], [1, 2], 4⟩
      = some ⟨[fval.num 1, fval.num 1, fval.num 1, fval.num 1], [1, 2, 5, 6], 8⟩ := by
  refine ⟨?_, ?_, ?_, ?_, ?_, ?_, ?_, ?_⟩ <;> decide

end sav
end savvy

namespace savvy
namespace pbwt

/-! ## The counting sort of `pbwt_sort` -/

theorem to_size_t_of_small (x : Int) (h0 : 0 ≤ x) (h1 : x ≤ 127) : to_size_t x = x.toNat := by
  unfold to_size_t
  rw [Int.emod_eq_of_lt h0 (by norm_num; omega)]

theorem wrap_unsigned_8_of_small (x : Int) (h0 : 0 ≤ x) (h1 : x ≤ 127) :
    wrap_unsigned 8 x = x.toNat := by
  unfold wrap_unsigned
  rw [Int.emod_eq_of_lt h0 (by norm_num; omega)]

/-- The histogram loop: entry `d` counts the elements with `utype(x) + 1 = d`, and the
vector is long enough for every such `d`. -/
theorem count_loop_spec (v : List Int) :
    ∀ (acc : List Nat),
      (∀ d, acc.getD d 0 + v.countP (fun x => decide (wrap_unsigned 8 x + 1 = d)) < 2 ^ 64) →
      (∀ d, (v.foldl (sort_count_step 8) acc).getD d 0
        = acc.getD d 0 + v.countP (fun x => decide (wrap_unsigned 8 x + 1 = d))) ∧
      acc.length ≤ (v.foldl (sort_count_step 8) acc).length ∧
      ∀ x ∈ v, wrap_unsigned 8 x + 1 < (v.foldl (sort_count_step 8) acc).length := by
  induction v with
  | nil => intro acc _; simp
  | cons x rest ih =>
    intro acc hb
    simp only [List.foldl_cons]
    -- the accumulator after one step
    have hstep_len : acc.length ≤ (sort_count_step 8 acc x).length ∧
        wrap_unsigned 8 x + 1 < (sort_count_step 8 acc x).length := by
      unfold sort_count_step
      simp only [List.length_set]
      split
      · simp only [List.length_append, List.length_replicate]; omega
      · omega
    have hstep_get : ∀ d, (sort_count_step 8 acc x).getD d 0
        = acc.getD d 0 + (if wrap_unsigned 8 x + 1 = d then 1 else 0) := by
      intro d
      have hb1 := hb (wrap_unsigned 8 x + 1)
      simp only [List.countP_cons, decide_True, if_true] at hb1
      have hext : ∀ e, (if wrap_unsigned 8 x + 1 ≥ acc.length
          then acc ++ List.replicate (wrap_unsigned 8 x + 1 + 1 - acc.length) 0
          else acc).getD e 0 = acc.getD e 0 := by
        intro e
        split
        · by_cases he : e < acc.length
          · simp [List.getD_eq_getElem?_getD, List.getElem?_append_left he]
          · have he2 : acc.length ≤ e := by omega
            simp only [List.getD_eq_getElem?_getD, List.getElem?_append_right he2,
              List.getElem?_replicate]
            have : acc[e]? = none := List.getElem?_eq_none he2
            rw [this]
            split <;> rfl
        · rfl
      unfold sort_count_step
      simp only [List.getD_eq_getElem?_getD, List.getElem?_set]
      by_cases hd : wrap_unsigned 8 x + 1 = d
      · subst hd
        have hlt := hstep_len.2
        unfold sort_count_step at hlt
        simp only [List.length_set] at hlt
        rw [if_pos rfl, if_pos hlt, if_pos rfl]
        have := hext (wrap_unsigned 8 x + 1)
        simp only [List.getD_eq_getElem?_getD] at this
        simp only [Option.getD_some, this]
        rw [u64_of_lt (by
          have h2 : acc.getD (wrap_unsigned 8 x + 1) 0 = (acc[wrap_unsigned 8 x + 1]?).getD 0 :=
            List.getD_eq_getElem?_getD _ _ _
          omega)]
      · rw [if_neg hd, if_neg hd]
        have := hext d
        simp only [List.getD_eq_getElem?_getD] at this
        rw [this]; simp
    have hb2 : ∀ d, (sort_count_step 8 acc x).getD d 0
        + rest.countP (fun x => decide (wrap_unsigned 8 x + 1 = d)) < 2 ^ 64 := by
      intro d
      have := hb d
      rw [hstep_get d]
      simp only [List.countP_cons, decide_eq_true_eq] at this
      omega
    obtain ⟨h1, h2, h3⟩ := ih (sort_count_step 8 acc x) hb2
    refine ⟨?_, by omega, ?_⟩
    · intro d
      rw [h1 d, hstep_get d]
      simp only [List.countP_cons, decide_eq_true_eq]
      omega
    · intro y hy
      rcases List.mem_cons.1 hy with rfl | hy
      · omega
      · exact h3 y hy

end pbwt
end savvy

namespace savvy
namespace pbwt

theorem prefix_sum_from_spec (cs : List Nat) :
    ∀ (last k : Nat), last + cs.sum < 2 ^ 64 →
      (prefix_sum_from last cs).length = cs.length ∧
      (k < cs.length → (prefix_sum_from last cs).getD k 0 = last + (cs.take (k + 1)).sum) := by
  induction cs with
  | nil => intro _ _ _; simp [prefix_sum_from]
  | cons c rest ih =>
    intro last k hb
    simp only [List.sum_cons] at hb
    have hu : u64 (last + c) = last + c := u64_of_lt (by omega)
    simp only [prefix_sum_from, hu, List.length_cons]
    refine ⟨by rw [(ih (last + c) 0 (by omega)).1], ?_⟩
    intro hk
    cases k with
    | zero => simp
    | succ k =>
      simp only [List.getD_cons_succ, List.take_succ_cons, List.sum_cons]
      rw [(ih (last + c) k (by omega)).2 (by omega)]
      omega

theorem prefix_sum_spec (h : List Nat) (hb : h.sum < 2 ^ 64) :
    (prefix_sum h).length = h.length ∧
    ∀ k, k < h.length → (prefix_sum h).getD k 0 = (h.take (k + 1)).sum := by
  cases h with
  | nil => simp [prefix_sum]
  | cons c rest =>
    simp only [List.sum_cons] at hb
    simp only [prefix_sum, List.length_cons]
    refine ⟨by rw [(prefix_sum_from_spec rest c 0 hb).1], ?_⟩
    intro k hk
    cases k with
    | zero => simp
    | succ k =>
      simp only [List.getD_cons_succ, List.take_succ_cons, List.sum_cons]
      exact (prefix_sum_from_spec rest c k hb).2 (by omega)

theorem countP_lt_succ {α : Type} (f : α → Nat) (l : List α) (k : Nat) :
    l.countP (fun x => decide (f x < k + 1))
      = l.countP (fun x => decide (f x < k)) + l.countP (fun x => decide (f x = k)) := by
  induction l with
  | nil => rfl
  | cons a rest ih =>
    simp only [List.countP_cons, ih, decide_eq_true_eq]
    by_cases h1 : f a < k
    · have h2 : f a < k + 1 := by omega
      have h3 : ¬ f a = k := by omega
      simp [h1, h2, h3]; omega
    · by_cases h3 : f a = k
      · have h2 : f a < k + 1 := by omega
        simp [h1, h2, h3]; omega
      · have h2 : ¬ f a < k + 1 := by omega
        simp [h1, h2, h3]

/-- The sum of the first `k` histogram entries counts the elements with a smaller
shifted value. -/
theorem take_sum_hist (v : List Int) (hist : List Nat)
    (hh : ∀ d, hist.getD d 0 = v.countP (fun x => decide (wrap_unsigned 8 x + 1 = d))) :
    ∀ k, k ≤ hist.length →
      (hist.take k).sum = v.countP (fun x => decide (wrap_unsigned 8 x + 1 < k)) := by
  intro k
  induction k with
  | zero => intro _; simp
  | succ k ih =>
    intro hk
    have hk2 : k < hist.length := by omega
    rw [List.sum_take_succ hist k hk2, ih (by omega), countP_lt_succ]
    congr 1
    rw [← hh k, List.getD_eq_getElem _ _ hk2]

/-- The vector `counts` after the histogram and prefix-sum loops: as long as the
histogram, entry `k` is the number of elements with a value below `k`, and the entry of
every value present exists. -/
theorem counts_spec (v : List Int) (hv : ∀ x ∈ v, 0 ≤ x ∧ x ≤ 127) (hn : v.length < 2 ^ 64) :
    (∀ k, k < (prefix_sum (v.foldl (sort_count_step 8) [])).length →
      (prefix_sum (v.foldl (sort_count_step 8) [])).getD k 0
        = v.countP (fun x => decide (x.toNat < k))) ∧
    ∀ x ∈ v, x.toNat + 1 < (prefix_sum (v.foldl (sort_count_step 8) [])).length := by
  have hcle : ∀ (p : Int → Bool), v.countP p ≤ v.length := fun p => List.countP_le_length p
  obtain ⟨h1, _, h3⟩ := count_loop_spec v [] (by
    intro d
    have := hcle (fun x => decide (wrap_unsigned 8 x + 1 = d))
    simp only [List.getD_nil]
    omega)
  have hh : ∀ d, (v.foldl (sort_count_step 8) []).getD d 0
      = v.countP (fun x => decide (wrap_unsigned 8 x + 1 = d)) := by
    intro d
    rw [h1 d]; simp
  have hsum : (v.foldl (sort_count_step 8) []).sum < 2 ^ 64 := by
    have := take_sum_hist v _ hh (v.foldl (sort_count_step 8) []).length (le_refl _)
    rw [List.take_length] at this
    rw [this]
    have := hcle (fun x => decide (wrap_unsigned 8 x + 1
      < (v.foldl (sort_count_step 8) []).length))
    omega
  obtain ⟨hl, hg⟩ := prefix_sum_spec _ hsum
  have hconv : ∀ k, v.countP (fun x => decide (wrap_unsigned 8 x + 1 < k + 1))
      = v.countP (fun x => decide (x.toNat < k)) := by
    intro k
    apply List.countP_congr
    intro x hx
    have := hv x hx
    rw [wrap_unsigned_8_of_small x this.1 this.2]
    simp
  refine ⟨?_, ?_⟩
  · intro k hk
    rw [hl] at hk
    rw [hg k hk, take_sum_hist v _ hh (k + 1) (by omega), hconv]
  · intro x hx
    have := h3 x hx
    have hx2 := hv x hx
    rw [wrap_unsigned_8_of_small x hx2.1 hx2.2] at this
    rw [hl]; exact this

end pbwt
end savvy

namespace savvy
namespace pbwt

theorem getD_set_nat (l : List Nat) (a b x : Nat) (ha : a < l.length) :
    (l.set a x).getD b 0 = if a = b then x else l.getD b 0 := by
  simp only [List.getD_eq_getElem?_getD, List.getElem?_set]
  by_cases h : a = b
  · subst h; simp [ha]
  · simp [h]

theorem bucket_cons (v : List Int) (i : Nat) (rest : List Nat) (k : Nat) :
    bucket v (i :: rest) k
      = if key v i = k then i :: bucket v rest k else bucket v rest k := by
  unfold bucket
  by_cases h : key v i = k
  · simp [h]
  · simp [h]

/-- The placement loop writes every bucket, in order, from the position that `counts`
holds for its key, and leaves the rest of `sort_mapping` alone. -/
theorem sort_place_spec (v : List Int) (rest : List Nat) :
    ∀ (sm counts : List Nat),
      (∀ i ∈ rest, i < v.length ∧ key v i < counts.length) →
      (∀ k, k < counts.length → counts.getD k 0 + (bucket v rest k).length ≤ sm.length) →
      (∀ k1 k2, k1 < k2 → k2 < counts.length →
        counts.getD k1 0 + (bucket v rest k1).length ≤ counts.getD k2 0) →
      sm.length < 2 ^ 64 →
      ∃ sm1 counts1, sort_place v rest sm counts = some (sm1, counts1) ∧
        sm1.length = sm.length ∧
        (∀ k j, k < counts.length → j < (bucket v rest k).length →
          sm1[counts.getD k 0 + j]? = (bucket v rest k)[j]?) ∧
        (∀ t, (∀ k, k < counts.length →
            ¬ (counts.getD k 0 ≤ t ∧ t < counts.getD k 0 + (bucket v rest k).length)) →
          sm1[t]? = sm[t]?) := by
  induction rest with
  | nil =>
    intro sm counts _ _ _ _
    refine ⟨sm, counts, rfl, rfl, ?_, ?_⟩
    · intro k j _ hj; simp [bucket] at hj
    · intro t _; rfl
  | cons i rest ih =>
    intro sm counts h1 h2 h4 hlen
    have hi := h1 i (List.mem_cons_self _ _)
    have hvi : v[i]? = some (v.getD i 0) := by
      rw [List.getD_eq_getElem _ _ hi.1]
      exact List.getElem?_eq_getElem hi.1
    have hk0 : key v i < counts.length := hi.2
    have hc : counts[key v i]? = some (counts.getD (key v i) 0) := by
      rw [List.getD_eq_getElem _ _ hk0]
      exact List.getElem?_eq_getElem hk0
    have hb0 : bucket v (i :: rest) (key v i) = i :: bucket v rest (key v i) := by
      rw [bucket_cons, if_pos rfl]
    have hbne : ∀ k, k ≠ key v i → bucket v (i :: rest) k = bucket v rest k := by
      intro k hk
      rw [bucket_cons, if_neg (fun h => hk h.symm)]
    have hcl : counts.getD (key v i) 0 + ((bucket v rest (key v i)).length + 1) ≤ sm.length := by
      have := h2 (key v i) hk0
      rw [hb0] at this
      simpa using this
    have hclt : counts.getD (key v i) 0 < sm.length := by omega
    have hu : u64 (counts.getD (key v i) 0 + 1) = counts.getD (key v i) 0 + 1 :=
      u64_of_lt (by omega)
    have hget1 : ∀ k, (counts.set (key v i) (counts.getD (key v i) 0 + 1)).getD k 0
        = if key v i = k then counts.getD (key v i) 0 + 1 else counts.getD k 0 :=
      fun k => getD_set_nat counts (key v i) k _ hk0
    -- hypotheses for the rest of the loop
    have h1r : ∀ i2 ∈ rest, i2 < v.length ∧ key v i2
        < (counts.set (key v i) (counts.getD (key v i) 0 + 1)).length := by
      intro i2 hi2
      have := h1 i2 (List.mem_cons_of_mem _ hi2)
      simpa using this
    have h2r : ∀ k, k < (counts.set (key v i) (counts.getD (key v i) 0 + 1)).length →
        (counts.set (key v i) (counts.getD (key v i) 0 + 1)).getD k 0
          + (bucket v rest k).length ≤ (sm.set (counts.getD (key v i) 0) i).length := by
      intro k hk
      simp only [List.length_set] at hk ⊢
      rw [hget1 k]
      by_cases hke : key v i = k
      · rw [if_pos hke, ← hke]; omega
      · rw [if_neg hke]
        have := h2 k hk
        rw [hbne k (fun h => hke h.symm)] at this
        exact this
    have h4r : ∀ k1 k2, k1 < k2 →
        k2 < (counts.set (key v i) (counts.getD (key v i) 0 + 1)).length →
        (counts.set (key v i) (counts.getD (key v i) 0 + 1)).getD k1 0
          + (bucket v rest k1).length
          ≤ (counts.set (key v i) (counts.getD (key v i) 0 + 1)).getD k2 0 := by
      intro k1 k2 hlt hk2
      simp only [List.length_set] at hk2
      have horig := h4 k1 k2 hlt hk2
      rw [hget1 k1, hget1 k2]
      by_cases he1 : key v i = k1
      · have he2 : ¬ key v i = k2 := by omega
        rw [if_pos he1, if_neg he2]
        rw [← he1, hb0] at horig
        simp only [List.length_cons] at horig
        rw [← he1]; omega
      · rw [if_neg he1]
        rw [hbne k1 (fun h => he1 h.symm)] at horig
        by_cases he2 : key v i = k2
        · rw [if_pos he2]; rw [← he2] at horig; omega
        · rw [if_neg he2]; exact horig
    obtain ⟨sm1, counts1, hs, hl, hA, hB⟩ :=
      ih (sm.set (counts.getD (key v i) 0) i)
        (counts.set (key v i) (counts.getD (key v i) 0 + 1)) h1r h2r h4r (by simpa using hlen)
    simp only [List.length_set] at hl hA hB
    -- the position written in this step is not written again
    have hcfix : sm1[counts.getD (key v i) 0]? = some i := by
      rw [hB (counts.getD (key v i) 0)]
      · rw [List.getElem?_set_self hclt]
      · intro k hk
        rw [hget1 k]
        by_cases hke : key v i = k
        · rw [if_pos hke]; omega
        · rw [if_neg hke]
          rcases Nat.lt_or_gt_of_ne hke with hlt | hgt
          · have := h4 (key v i) k hlt hk
            rw [hb0] at this
            simp only [List.length_cons] at this
            omega
          · have := h4 k (key v i) hgt hk0
            rw [hbne k (fun h => hke h.symm)] at this
            omega
    refine ⟨sm1, counts1, ?_, hl, ?_, ?_⟩
    · unfold sort_place
      simp only [hvi, key] at hc ⊢
      simp only [hc]
      have hclt2 := hclt
      simp only [key] at hclt2 hu hs
      rw [if_pos hclt2, hu]
      exact hs
    · intro k j hk hj
      by_cases hke : key v i = k
      · subst hke
        rw [hb0] at hj ⊢
        cases j with
        | zero => simpa using hcfix
        | succ j =>
          simp only [List.length_cons, Nat.add_lt_add_iff_right] at hj
          have := hA (key v i) j hk0 hj
          rw [hget1 (key v i), if_pos rfl] at this
          simp only [List.getElem?_cons_succ]
          rw [← this]
          congr 1
          omega
      · have hne : k ≠ key v i := fun h => hke h.symm
        rw [hbne k hne] at hj ⊢
        have := hA k j hk hj
        rw [hget1 k, if_neg hke] at this
        exact this
    · intro t ht
      have htc : t ≠ counts.getD (key v i) 0 := by
        intro h
        have := ht (key v i) hk0
        rw [hb0] at this
        simp only [List.length_cons] at this
        omega
      rw [hB t]
      · rw [List.getElem?_set_ne (fun h => htc h.symm)]
      · intro k hk
        rw [hget1 k]
        have hor := ht k hk
        by_cases hke : key v i = k
        · rw [if_pos hke]
          rw [← hke, hb0] at hor
          simp only [List.length_cons] at hor
          rw [← hke]
          omega
        · rw [if_neg hke]
          rw [hbne k (fun h => hke h.symm)] at hor
          exact hor

end pbwt
end savvy

namespace savvy
namespace pbwt

theorem getD_small (v : List Int) (hv : ∀ x ∈ v, 0 ≤ x ∧ x ≤ 127) (i : Nat) :
    0 ≤ v.getD i 0 ∧ v.getD i 0 ≤ 127 := by
  by_cases hi : i < v.length
  · rw [List.getD_eq_getElem _ _ hi]
    exact hv _ (List.getElem_mem hi)
  · rw [List.getD_eq_default _ _ (by omega)]
    omega

theorem key_eq (v : List Int) (hv : ∀ x ∈ v, 0 ≤ x ∧ x ≤ 127) (i : Nat) :
    key v i = (v.getD i 0).toNat := by
  unfold key
  exact to_size_t_of_small _ (getD_small v hv i).1 (getD_small v hv i).2

theorem range_countP (v : List Int) (q : Int → Bool) :
    (List.range v.length).countP (fun i => q (v.getD i 0)) = v.countP q := by
  have h : v = (List.range v.length).map (fun i => v.getD i 0) := by
    apply List.ext_getElem
    · simp
    · intro i h1 h2
      simp [List.getD_eq_getElem _ _ h1, List.getElem?_eq_getElem h1]
  conv_rhs => rw [h]
  rw [List.countP_map]
  rfl

theorem stable_sort_succ (v : List Int) (order : List Nat) (K : Nat) :
    stable_sort v order (K + 1) = stable_sort v order K ++ bucket v order K := by
  unfold stable_sort
  rw [List.range_succ, List.flatMap_append]
  simp

/-- The buckets below `K`, one after the other, are a rearrangement of the indices whose
key is below `K`. -/
theorem stable_sort_perm (v : List Int) (order : List Nat) (K : Nat) :
    (stable_sort v order K).Perm (order.filter (fun i => decide (key v i < K))) := by
  induction K with
  | zero => simp [stable_sort]
  | succ K ih =>
    rw [stable_sort_succ]
    have h1 : (order.filter (fun i => decide (key v i < K + 1))).filter
        (fun i => decide (key v i < K)) = order.filter (fun i => decide (key v i < K)) := by
      rw [List.filter_filter]
      apply List.filter_congr
      intro i _
      by_cases h : key v i < K
      · have : key v i < K + 1 := by omega
        simp [h, this]
      · simp [h]
    have h2 : (order.filter (fun i => decide (key v i < K + 1))).filter
        (fun i => !decide (key v i < K)) = bucket v order K := by
      unfold bucket
      rw [List.filter_filter]
      apply List.filter_congr
      intro i _
      by_cases h : key v i < K
      · have : ¬ key v i = K := by omega
        simp [h, this]
      · by_cases h3 : key v i = K
        · simp [h3]
        · have : ¬ key v i < K + 1 := by omega
          simp [h, h3, this]
    have h3 := List.filter_append_perm (fun i => decide (key v i < K))
      (order.filter (fun i => decide (key v i < K + 1)))
    rw [h1, h2] at h3
    exact (List.Perm.append_right _ ih).trans h3

theorem stable_sort_sorted (v : List Int) (order : List Nat) (K : Nat) :
    (stable_sort v order K).Pairwise (fun a b => key v a ≤ key v b) := by
  induction K with
  | zero => simp [stable_sort]
  | succ K ih =>
    rw [stable_sort_succ, List.pairwise_append]
    refine ⟨ih, ?_, ?_⟩
    · apply List.pairwise_of_forall_mem_list
      intro a ha b hb
      unfold bucket at ha hb
      simp only [List.mem_filter, decide_eq_true_eq] at ha hb
      omega
    · intro a ha b hb
      have ha2 := (stable_sort_perm v order K).mem_iff.1 ha
      simp only [List.mem_filter, decide_eq_true_eq] at ha2
      unfold bucket at hb
      simp only [List.mem_filter, decide_eq_true_eq] at hb
      omega

theorem stable_sort_bucket (v : List Int) (order : List Nat) (K k : Nat) :
    (stable_sort v order K).filter (fun i => decide (key v i = k))
      = if k < K then bucket v order k else [] := by
  induction K with
  | zero => simp [stable_sort]
  | succ K ih =>
    rw [stable_sort_succ, List.filter_append, ih]
    have hb : (bucket v order K).filter (fun i => decide (key v i = k))
        = if K = k then bucket v order K else [] := by
      unfold bucket
      rw [List.filter_filter]
      by_cases hk : K = k
      · rw [if_pos hk]
        apply List.filter_congr
        intro i _
        subst hk
        simp
      · rw [if_neg hk, List.filter_eq_nil_iff]
        intro i _
        simp only [Bool.and_eq_true, decide_eq_true_eq, not_and]
        intro h1 h2
        omega
    rw [hb]
    by_cases h1 : k < K
    · have h2 : k < K + 1 := by omega
      have h3 : ¬ K = k := by omega
      simp [h1, h2, h3]
    · by_cases h3 : K = k
      · have h2 : k < K + 1 := by omega
        simp [h1, h2, h3]
      · have h2 : ¬ k < K + 1 := by omega
        simp [h1, h2, h3]

end pbwt
end savvy

namespace savvy
namespace pbwt

theorem sort_emit_spec (v : List Int) (order : List Nat) (h : ∀ i ∈ order, i < v.length) :
    sort_emit v order = some (order.map (fun i => v.getD i 0)) := by
  induction order with
  | nil => rfl
  | cons i rest ih =>
    have hi := h i (List.mem_cons_self _ _)
    have hvi : v[i]? = some (v.getD i 0) := by
      rw [List.getD_eq_getElem _ _ hi]
      exact List.getElem?_eq_getElem hi
    simp only [sort_emit, hvi, ih (fun j hj => h j (List.mem_cons_of_mem _ hj)), List.map_cons]

/-- The placement loop of `pbwt_sort`, run on the counts of the site, leaves in
`sort_mapping` the stable sort of the previous order. -/
theorem sort_place_stable (v : List Int) (prev sm : List Nat)
    (hv : ∀ x ∈ v, 0 ≤ x ∧ x ≤ 127) (hn : v.length < 2 ^ 64)
    (hperm : prev.Perm (List.range v.length)) (hsm : sm.length = v.length) :
    (∀ i ∈ prev, i < v.length ∧
      key v i < (prefix_sum (v.foldl (sort_count_step 8) [])).length) ∧
    ∃ counts1, sort_place v prev sm (prefix_sum (v.foldl (sort_count_step 8) []))
      = some (stable_sort v prev (prefix_sum (v.foldl (sort_count_step 8) [])).length,
          counts1) := by
  obtain ⟨hc1, hc2⟩ := counts_spec v hv hn
  generalize prefix_sum (v.foldl (sort_count_step 8) []) = counts at hc1 hc2 ⊢
  have hplen : prev.length = v.length := by
    rw [hperm.length_eq, List.length_range]
  have hmem : ∀ i ∈ prev, i < v.length ∧ key v i < counts.length := by
    intro i hi
    have hi2 : i < v.length := List.mem_range.1 (hperm.mem_iff.1 hi)
    refine ⟨hi2, ?_⟩
    rw [key_eq v hv i, List.getD_eq_getElem _ _ hi2]
    have := hc2 _ (List.getElem_mem hi2)
    omega
  refine ⟨hmem, ?_⟩
  have hstart : ∀ k, k < counts.length →
      counts.getD k 0 = (prev.filter (fun i => decide (key v i < k))).length := by
    intro k hk
    rw [hc1 k hk, ← range_countP v (fun x => decide (x.toNat < k)),
      ← hperm.countP_eq, List.countP_eq_length_filter]
    congr 1
    apply List.filter_congr
    intro i _
    rw [key_eq v hv i]
  have hsucc : ∀ k, (prev.filter (fun i => decide (key v i < k + 1))).length
      = (prev.filter (fun i => decide (key v i < k))).length + (bucket v prev k).length := by
    intro k
    have := countP_lt_succ (key v) prev k
    simp only [List.countP_eq_length_filter] at this
    exact this
  have hmono : ∀ k1 k2, k1 ≤ k2 → (prev.filter (fun i => decide (key v i < k1))).length
      ≤ (prev.filter (fun i => decide (key v i < k2))).length := by
    intro k1 k2 hle
    rw [← List.countP_eq_length_filter, ← List.countP_eq_length_filter]
    apply List.countP_mono_left
    intro i _ h
    simp only [decide_eq_true_eq] at h ⊢
    omega
  have hfull : ∀ k, (prev.filter (fun i => decide (key v i < k))).length ≤ prev.length :=
    fun k => List.length_filter_le _ _
  obtain ⟨sm1, counts1, hs, hl, hA, _⟩ := sort_place_spec v prev sm counts hmem
    (by
      intro k hk
      rw [hstart k hk, ← hsucc k, hsm, ← hplen]
      exact hfull _)
    (by
      intro k1 k2 hlt hk2
      rw [hstart k1 (by omega), hstart k2 hk2, ← hsucc k1]
      exact hmono _ _ (by omega))
    (by omega)
  have htake : ∀ K, K ≤ counts.length →
      sm1.take (prev.filter (fun i => decide (key v i < K))).length = stable_sort v prev K := by
    intro K
    induction K with
    | zero => intro _; simp [stable_sort]
    | succ K ih =>
      intro hK
      rw [hsucc K, List.take_add, ih (by omega), stable_sort_succ]
      congr 1
      apply List.ext_getElem?
      intro j
      rw [List.getElem?_take, List.getElem?_drop]
      by_cases hj : j < (bucket v prev K).length
      · rw [if_pos hj, ← hstart K (by omega)]
        exact hA K j (by omega) hj
      · rw [if_neg hj]
        exact (List.getElem?_eq_none (by omega)).symm
  have hall : prev.filter (fun i => decide (key v i < counts.length)) = prev := by
    rw [List.filter_eq_self]
    intro i hi
    simpa using (hmem i hi).2
  have hfin := htake counts.length (le_refl _)
  rw [hall, hplen, ← hsm, ← hl, List.take_length] at hfin
  exact ⟨counts1, by rw [hs, hfin]⟩

end pbwt
end savvy

namespace savvy
namespace pbwt

theorem prepare_spec (n : Nat) (prev : List Nat) (st : pbwt_state)
    (hperm : prev.Perm (List.range n))
    (hst : st.sort_mapping = prev ∨ (st.sort_mapping = [] ∧ prev = List.range n))
    (hother : st.prev_sort_mapping = [] ∨ st.prev_sort_mapping.length = n) :
    ∃ sm, prepare n st = some (sm, prev) ∧ sm.length = n := by
  have hplen : prev.length = n := by rw [hperm.length_eq, List.length_range]
  have hprev : (if st.sort_mapping.isEmpty then List.range n else st.sort_mapping) = prev := by
    rcases hst with h | ⟨h1, h2⟩
    · rw [h]
      by_cases he : prev.isEmpty = true
      · rw [if_pos he]
        have hnil : prev = [] := List.isEmpty_iff.1 he
        rw [hnil] at hplen ⊢
        simp only [List.length_nil] at hplen
        rw [← hplen]; rfl
      · rw [if_neg he]
    · rw [h1, h2]; rfl
  refine ⟨if st.prev_sort_mapping.isEmpty then List.replicate n 0 else st.prev_sort_mapping,
    ?_, ?_⟩
  · unfold prepare
    simp only [hprev]
    rw [if_neg (by rw [hplen]; exact fun h => h rfl)]
  · rcases hother with h | h
    · rw [h]; simp
    · by_cases he : st.prev_sort_mapping.isEmpty = true
      · rw [if_pos he]; simp
      · rw [if_neg he]; exact h

/-- What `pbwt_sort` returns for a site of 7-bit values and a previous order that is a
permutation: the output follows the previous order, and the new order is the stable sort
of the previous one. -/
theorem pbwt_sort_eq (v : List Int) (prev : List Nat) (st : pbwt_state)
    (hv : ∀ x ∈ v, 0 ≤ x ∧ x ≤ 127) (hn : v.length < 2 ^ 64)
    (hperm : prev.Perm (List.range v.length))
    (hst : st.sort_mapping = prev ∨ (st.sort_mapping = [] ∧ prev = List.range v.length))
    (hother : st.prev_sort_mapping = [] ∨ st.prev_sort_mapping.length = v.length) :
    (∀ i ∈ prev, i < v.length ∧
      key v i < (prefix_sum (v.foldl (sort_count_step 8) [])).length) ∧
    ∃ counts1, pbwt_sort 8 v st
      = some (prev.map (fun i => v.getD i 0),
          ⟨stable_sort v prev (prefix_sum (v.foldl (sort_count_step 8) [])).length, prev,
            counts1⟩) := by
  obtain ⟨sm, hprep, hsm⟩ := prepare_spec v.length prev st hperm hst hother
  obtain ⟨hmem, counts1, hplace⟩ := sort_place_stable v prev sm hv hn hperm hsm
  refine ⟨hmem, counts1, ?_⟩
  unfold pbwt_sort
  simp only [hprep, hplace, sort_emit_spec v prev (fun i hi => (hmem i hi).1)]

/-- C33: for every int8 site vector `v` of length `n` (below `2 ^ 31`, the range of the
`int` loop counters) with values in 0..127 and every previous order `prev` that is a
permutation of `[0, n)` (held in `sort_mapping` before the call, or initialised to the
identity when that vector is empty; the other mapping is empty or has `n` entries, as in
every state that `pbwt_sort` leaves), `pbwt_sort` returns, the new `sort_mapping` is a
permutation of `[0, n)` that lists the indices in non-decreasing order of `v`, and for
every value the indices with that value appear in the same relative order as in `prev`:
it is the stable sort of `prev` by the key `v`. The new `prev_sort_mapping` is `prev`. -/
theorem pbwt_sort_stable_order (v : List Int) (prev : List Nat) (st : pbwt_state)
    (hv : ∀ x ∈ v, 0 ≤ x ∧ x ≤ 127) (hn : v.length < 2 ^ 31)
    (hperm : prev.Perm (List.range v.length))
    (hst : st.sort_mapping = prev ∨ (st.sort_mapping = [] ∧ prev = List.range v.length))
    (hother : st.prev_sort_mapping = [] ∨ st.prev_sort_mapping.length = v.length) :
    ∃ out st1, pbwt_sort 8 v st = some (out, st1) ∧
      st1.prev_sort_mapping = prev ∧
      st1.sort_mapping.Perm (List.range v.length) ∧
      st1.sort_mapping.Pairwise (fun a b => v.getD a 0 ≤ v.getD b 0) ∧
      ∀ x : Int, st1.sort_mapping.filter (fun i => decide (v.getD i 0 = x))
        = prev.filter (fun i => decide (v.getD i 0 = x)) := by
  obtain ⟨hmem, counts1, heq⟩ := pbwt_sort_eq v prev st hv
    (lt_trans hn (by norm_num)) hperm hst hother
  generalize (prefix_sum (v.foldl (sort_count_step 8) [])).length = K at hmem heq
  have hall : prev.filter (fun i => decide (key v i < K)) = prev := by
    rw [List.filter_eq_self]
    intro i hi
    simpa using (hmem i hi).2
  refine ⟨_, _, heq, rfl, ?_, ?_, ?_⟩
  · have := stable_sort_perm v prev K
    rw [hall] at this
    exact this.trans hperm
  · apply (stable_sort_sorted v prev K).imp
    intro a b hab
    rw [key_eq v hv a, key_eq v hv b] at hab
    have ha := (getD_small v hv a).1
    have hb := (getD_small v hv b).1
    omega
  · intro x
    show (stable_sort v prev K).filter (fun i => decide (v.getD i 0 = x))
      = prev.filter (fun i => decide (v.getD i 0 = x))
    by_cases hx : 0 ≤ x
    · have hconv : ∀ (l : List Nat), l.filter (fun i => decide (v.getD i 0 = x))
          = l.filter (fun i => decide (key v i = x.toNat)) := by
        intro l
        apply List.filter_congr
        intro i _
        rw [key_eq v hv i]
        have hi := (getD_small v hv i).1
        have : (v.getD i 0 = x) ↔ ((v.getD i 0).toNat = x.toNat) := by omega
        exact decide_eq_decide.mpr this
      rw [hconv, hconv, stable_sort_bucket]
      by_cases hk : x.toNat < K
      · rw [if_pos hk]; rfl
      · rw [if_neg hk]
        symm
        rw [List.filter_eq_nil_iff]
        intro i hi
        have := (hmem i hi).2
        simp only [decide_eq_true_eq]
        omega
    · have hnil : ∀ (l : List Nat), l.filter (fun i => decide (v.getD i 0 = x)) = [] := by
        intro l
        rw [List.filter_eq_nil_iff]
        intro i _
        have hi := (getD_small v hv i).1
        simp only [decide_eq_true_eq]
        omega
      rw [hnil, hnil]

/-- C33 on the site `[1, 0, 1, 0]` with the previous order `[2, 0, 3, 1]`: the new order
is `[3, 1, 2, 0]`. -/
theorem pbwt_sort_stable_order_witness :
    pbwt_sort 8 [1, 0, 1, 0] ⟨[2, 0, 3, 1], [0, 1, 2, 3], []⟩
      = some ([1, 1, 0, 0], ⟨[3, 1, 2, 0], [2, 0, 3, 1], [2, 4, 4]⟩) ∧
    ∃ out st1, pbwt_sort 8 [1, 0, 1, 0] ⟨[2, 0, 3, 1], [0, 1, 2, 3], []⟩ = some (out, st1) ∧
      st1.prev_sort_mapping = [2, 0, 3, 1] ∧
      st1.sort_mapping.Perm (List.range ([1, 0, 1, 0] : List Int).length) ∧
      st1.sort_mapping.Pairwise
        (fun a b => ([1, 0, 1, 0] : List Int).getD a 0 ≤ ([1, 0, 1, 0] : List Int).getD b 0) ∧
      ∀ x : Int, st1.sort_mapping.filter
          (fun i => decide (([1, 0, 1, 0] : List Int).getD i 0 = x))
        = ([2, 0, 3, 1] : List Nat).filter
          (fun i => decide (([1, 0, 1, 0] : List Int).getD i 0 = x)) :=
  ⟨by decide,
    pbwt_sort_stable_order [1, 0, 1, 0] [2, 0, 3, 1] ⟨[2, 0, 3, 1], [0, 1, 2, 3], []⟩
      (by decide) (by decide) (by decide) (Or.inl rfl) (Or.inr rfl)⟩

/-- C34: for every int8 site vector `v` of length `n` (below `2 ^ 31`, the range of the
`int` loop counters) with values in 0..127 and every previous order `prev` that is a
permutation of `[0, n)` (held in `sort_mapping` before the call, or initialised to the
identity when that vector is empty; the other mapping is empty or has `n` entries),
`pbwt_sort` returns and writes to its output exactly `v[prev[0]], ..., v[prev[n-1]]`; on
the first site, where the state is empty and `prev` is the identity, the output is `v`. -/
theorem pbwt_sort_output (v : List Int) (prev : List Nat) (st : pbwt_state)
    (hv : ∀ x ∈ v, 0 ≤ x ∧ x ≤ 127) (hn : v.length < 2 ^ 31)
    (hperm : prev.Perm (List.range v.length))
    (hst : st.sort_mapping = prev ∨ (st.sort_mapping = [] ∧ prev = List.range v.length))
    (hother : st.prev_sort_mapping = [] ∨ st.prev_sort_mapping.length = v.length) :
    (∃ st1, pbwt_sort 8 v st = some (prev.map (fun i => v.getD i 0), st1)) ∧
    ∃ st1, pbwt_sort 8 v init = some (v, st1) := by
  obtain ⟨_, counts1, heq⟩ := pbwt_sort_eq v prev st hv
    (lt_trans hn (by norm_num)) hperm hst hother
  refine ⟨⟨_, heq⟩, ?_⟩
  obtain ⟨_, counts2, heq2⟩ := pbwt_sort_eq v (List.range v.length) init hv
    (lt_trans hn (by norm_num)) (List.Perm.refl _) (Or.inr ⟨rfl, rfl⟩) (Or.inl rfl)
  have hid : (List.range v.length).map (fun i => v.getD i 0) = v := by
    apply List.ext_getElem
    · simp
    · intro i h1 h2
      simp [List.getD_eq_getElem _ _ h2, List.getElem?_eq_getElem h2]
  rw [hid] at heq2
  exact ⟨_, heq2⟩

/-- C34 on the site `[1, 0, 1, 0]` with the previous order `[2, 0, 3, 1]`: the output is
`[1, 1, 0, 0]`; on the first site it is `[1, 0, 1, 0]`. -/
theorem pbwt_sort_output_witness :
    ([2, 0, 3, 1] : List Nat).map (fun i => ([1, 0, 1, 0] : List Int).getD i 0)
      = [1, 1, 0, 0] ∧
    ((∃ st1, pbwt_sort 8 [1, 0, 1, 0] ⟨[2, 0, 3, 1], [0, 1, 2, 3], []⟩
      = some (([2, 0, 3, 1] : List Nat).map (fun i => ([1, 0, 1, 0] : List Int).getD i 0),
          st1)) ∧
    ∃ st1, pbwt_sort 8 [1, 0, 1, 0] init = some ([1, 0, 1, 0], st1)) :=
  ⟨by decide,
    pbwt_sort_output [1, 0, 1, 0] [2, 0, 3, 1] ⟨[2, 0, 3, 1], [0, 1, 2, 3], []⟩
      (by decide) (by decide) (by decide) (Or.inl rfl) (Or.inr rfl)⟩

end pbwt
end savvy

namespace savvy
namespace sav

/-! ## The fail state of the writer -/

end sav
end savvy
